import Mathlib

/-!
# PTLsim hardware definitions and container library: a shallow embedding

The definitions below embed parts of `trunk/ptlsim/ptlhwdef.h` and
`tags/import/ptlsim/superstl.h`.

* Machine words (`W64`, `Waddr`) are the natural numbers they hold.
* A bit-field of width `w` is an element of `Fin (2^w)`; the one-bit fields of the
  page-table entries, which the code only combines with `&=` and `|=`, are `Bool`.
* The C `int` is an integer of the 32-bit two's-complement range, and arithmetic on
  it wraps around (`wrap32`).
* A C array is the function from index to element.
* A failed `assert` is the result `none`; so is a loop that leaves its array.
* A shift of a 64-bit word takes its count modulo 64, as the x86 shifts do.
* A chain of `listlink` nodes is the list of its entries, the one that the root
  points to first; a null pointer to an array is `none`.
* Functions and macros that the two headers use but do not define (`lowbits`,
  `floor`, `ceil`, `bits`, `bitmask`, `log2`, `lsbindex64`, `foreach`,
  `flush_tlb`) are modelled from the specification and marked so;
  `page_table_walk` is a parameter.

All definitions come first; the theorems follow.
-/

namespace PTLsim

/-! ## Machine words -/

/-- The page size `PAGE_SIZE` of the simulated machine (4096 bytes). -/
def PAGE_SIZE : Nat := 4096

/-- Modelled from the spec: `lowbits(x, n)` of `globals.h` (not part of the two
headers), the value of the `n` low-order bits of `x`. -/
def lowbits (x n : Nat) : Nat := x % 2 ^ n

/-- Modelled from the spec: `floor(x, a)` of `globals.h`, `x` rounded down to a
multiple of `a` ("floor-aligned"). -/
def floor (x a : Nat) : Nat := x - x % a

/-- Modelled from the spec: the compile-time `log2` of `globals.h`, the position
of the highest set bit (`log2Aux` halves `n` at most `fuel` times). -/
def log2Aux : Nat → Nat → Nat
  | 0, _ => 0
  | fuel + 1, n => if 2 ≤ n then log2Aux fuel (n / 2) + 1 else 0

/-- Modelled from the spec: `log2(n)` of `globals.h`. -/
def log2 (n : Nat) : Nat := log2Aux n n

/-! ## RIPVirtPhys: the translation-cache key -/

/-- The key `struct RIPVirtPhys`: `W64 rip` followed by one 64-bit word of
bit-fields `mfnlo:28, use64:1, kernel:1, padlo:2, mfnhi:28, df:1, padhi:3`. -/
structure RIPVirtPhys where
  rip : Fin (2 ^ 64)
  mfnlo : Fin (2 ^ 28)
  use64 : Fin (2 ^ 1)
  kernel : Fin (2 ^ 1)
  padlo : Fin (2 ^ 2)
  mfnhi : Fin (2 ^ 28)
  df : Fin (2 ^ 1)
  padhi : Fin (2 ^ 3)
deriving DecidableEq

namespace RIPVirtPhys

/-- The first 64-bit word of the object, `((const W64*)this)[0]`: the field `rip`. -/
def word0 (a : RIPVirtPhys) : Nat := a.rip.val

/-- The second 64-bit word of the object, `((const W64*)this)[1]`: the bit-fields,
allocated from bit 0 upwards in declaration order. -/
def word1 (a : RIPVirtPhys) : Nat :=
  a.mfnlo.val + 2 ^ 28 * a.use64.val + 2 ^ 29 * a.kernel.val + 2 ^ 30 * a.padlo.val
    + 2 ^ 32 * a.mfnhi.val + 2 ^ 60 * a.df.val + 2 ^ 61 * a.padhi.val

/-- The comparison `RIPVirtPhys::operator ==`.  The flag `hypervisor` says whether
`PTLSIM_HYPERVISOR` is defined: with it the two words of the objects are compared,
without it only `rip`. -/
def eq (hypervisor : Bool) (a b : RIPVirtPhys) : Bool :=
  if hypervisor then
    (decide (a.word0 = b.word0)) && (decide (a.word1 = b.word1))
  else
    decide (a.rip = b.rip)

end RIPVirtPhys

/-! ## Page-table entries -/

/-- The entry `struct Level4PTE`: `p:1, rw:1, us:1, pwt:1, pcd:1, a:1, ign:1, mbz:2,
avl:3, mfn:51, nx:1`.  One-bit fields are `Bool`. -/
structure Level4PTE where
  p : Bool
  rw : Bool
  us : Bool
  pwt : Bool
  pcd : Bool
  a : Bool
  ign : Bool
  mbz : Fin (2 ^ 2)
  avl : Fin (2 ^ 3)
  mfn : Fin (2 ^ 51)
  nx : Bool
deriving DecidableEq

/-- The entry `struct Level3PTE`, with the fields of `Level4PTE`. -/
structure Level3PTE where
  p : Bool
  rw : Bool
  us : Bool
  pwt : Bool
  pcd : Bool
  a : Bool
  ign : Bool
  mbz : Fin (2 ^ 2)
  avl : Fin (2 ^ 3)
  mfn : Fin (2 ^ 51)
  nx : Bool
deriving DecidableEq

/-- The entry `struct Level2PTE`: `p:1, rw:1, us:1, pwt:1, pcd:1, a:1, d:1, psz:1,
mbz:1, avl:3, mfn:51, nx:1`. -/
structure Level2PTE where
  p : Bool
  rw : Bool
  us : Bool
  pwt : Bool
  pcd : Bool
  a : Bool
  d : Bool
  psz : Bool
  mbz : Bool
  avl : Fin (2 ^ 3)
  mfn : Fin (2 ^ 51)
  nx : Bool
deriving DecidableEq

/-- The leaf entry `struct Level1PTE`: `p:1, rw:1, us:1, pwt:1, pcd:1, a:1, d:1,
pat:1, g:1, avl:3, mfn:51, nx:1`. -/
structure Level1PTE where
  p : Bool
  rw : Bool
  us : Bool
  pwt : Bool
  pcd : Bool
  a : Bool
  d : Bool
  pat : Bool
  g : Bool
  avl : Fin (2 ^ 3)
  mfn : Fin (2 ^ 51)
  nx : Bool
deriving DecidableEq

namespace Level1PTE

/-- The all-zero entry, the value of `Level1PTE(0)`. -/
def zero : Level1PTE :=
  ⟨false, false, false, false, false, false, false, false, false, 0, 0, false⟩

/-- The overload `accum(const Level1PTE& l)`:
`p &= l.p; rw &= l.rw; us &= l.us; nx |= l.nx;`. -/
def accum1 (e : Level1PTE) (l : Level1PTE) : Level1PTE :=
  { e with p := e.p && l.p, rw := e.rw && l.rw, us := e.us && l.us, nx := e.nx || l.nx }

/-- The overload `accum(const Level2PTE& l)`. -/
def accum2 (e : Level1PTE) (l : Level2PTE) : Level1PTE :=
  { e with p := e.p && l.p, rw := e.rw && l.rw, us := e.us && l.us, nx := e.nx || l.nx }

/-- The overload `accum(const Level3PTE& l)`. -/
def accum3 (e : Level1PTE) (l : Level3PTE) : Level1PTE :=
  { e with p := e.p && l.p, rw := e.rw && l.rw, us := e.us && l.us, nx := e.nx || l.nx }

/-- The overload `accum(const Level4PTE& l)`. -/
def accum4 (e : Level1PTE) (l : Level4PTE) : Level1PTE :=
  { e with p := e.p && l.p, rw := e.rw && l.rw, us := e.us && l.us, nx := e.nx || l.nx }

end Level1PTE

/-- An argument of `Level1PTE::accum`: an entry of one of the four levels. -/
inductive AnyPTE where
  | level1 (l : Level1PTE)
  | level2 (l : Level2PTE)
  | level3 (l : Level3PTE)
  | level4 (l : Level4PTE)
deriving DecidableEq

namespace AnyPTE

/-- The field `p` of an entry of any level. -/
def p : AnyPTE → Bool
  | level1 l => l.p
  | level2 l => l.p
  | level3 l => l.p
  | level4 l => l.p

/-- The field `rw` of an entry of any level. -/
def rw : AnyPTE → Bool
  | level1 l => l.rw
  | level2 l => l.rw
  | level3 l => l.rw
  | level4 l => l.rw

/-- The field `us` of an entry of any level. -/
def us : AnyPTE → Bool
  | level1 l => l.us
  | level2 l => l.us
  | level3 l => l.us
  | level4 l => l.us

/-- The field `nx` of an entry of any level. -/
def nx : AnyPTE → Bool
  | level1 l => l.nx
  | level2 l => l.nx
  | level3 l => l.nx
  | level4 l => l.nx

end AnyPTE

/-- The call `e.accum(l)`, resolved to the overload for the level of `l`. -/
def Level1PTE.accum (e : Level1PTE) : AnyPTE → Level1PTE
  | .level1 l => e.accum1 l
  | .level2 l => e.accum2 l
  | .level3 l => e.accum3 l
  | .level4 l => e.accum4 l

/-- The calls `e.accum(l1); ...; e.accum(ln)` in this order. -/
def Level1PTE.accumAll (e : Level1PTE) (ls : List AnyPTE) : Level1PTE :=
  ls.foldl Level1PTE.accum e

/-! ## The context and its address-translation mini-cache -/

/-- The constant `ContextBase::PTE_CACHE_SIZE`. -/
def PTE_CACHE_SIZE : Nat := 16

/-- The part of `struct Context` (built with `PTLSIM_HYPERVISOR`) that the
mini-cache operations read or write: `cr3` and the arrays `cached_pte_virt` and
`cached_pte` (index to element, the indices below `PTE_CACHE_SIZE` being the
array); `rest` holds all the other fields. -/
structure Context (R : Type) where
  cr3 : Nat
  cached_pte_virt : Nat → Nat
  cached_pte : Nat → Level1PTE
  rest : R

/-- What a call of `virt_to_pte` does: the entry it returns, the context it leaves,
and the calls of `page_table_walk` it made (their arguments, in order). -/
structure PteLookup (R : Type) where
  pte : Level1PTE
  ctx : Context R
  walks : List (Nat × Nat)

namespace Context

variable {R : Type}

/-- The lookup `Context::virt_to_pte(W64 rawvirt)`.  The external function
`page_table_walk(rawvirt, toplevel_mfn)` is a parameter. -/
def virt_to_pte (page_table_walk : Nat → Nat → Level1PTE) (ctx : Context R)
    (rawvirt : Nat) : PteLookup R :=
  let slot := lowbits (rawvirt >>> 12) (log2 PTE_CACHE_SIZE)
  if ctx.cached_pte_virt slot ≠ floor rawvirt PAGE_SIZE then
    let ctx1 : Context R :=
      { ctx with cached_pte_virt := Function.update ctx.cached_pte_virt slot (floor rawvirt PAGE_SIZE) }
    let walked := page_table_walk rawvirt (ctx1.cr3 >>> 12)
    let ctx2 : Context R :=
      { ctx1 with cached_pte := Function.update ctx1.cached_pte slot walked }
    ⟨ctx2.cached_pte slot, ctx2, [(rawvirt, ctx1.cr3 >>> 12)]⟩
  else
    ⟨ctx.cached_pte slot, ctx, []⟩

/-- The commented-out variant of `virt_to_pte` that does not use the mini-TLB:
`return page_table_walk(rawvirt, cr3 >> 12);`. -/
def virt_to_pte_uncached (page_table_walk : Nat → Nat → Level1PTE) (ctx : Context R)
    (rawvirt : Nat) : Level1PTE :=
  page_table_walk rawvirt (ctx.cr3 >>> 12)

/-- Modelled from the spec: `Context::flush_tlb()`, declared in the header and
defined elsewhere; "clears all cached entries": every slot gets the tag
`0xffffffffffffffff`, which is the page of no address, and the zero entry. -/
def flush_tlb (ctx : Context R) : Context R :=
  { ctx with
    cached_pte_virt := fun i => if i < PTE_CACHE_SIZE then 0xffffffffffffffff else ctx.cached_pte_virt i
    cached_pte := fun i => if i < PTE_CACHE_SIZE then Level1PTE.zero else ctx.cached_pte i }

/-- The flush `Context::flush_tlb_virt(Waddr virtaddr)`: "Currently we just flush
the entire TLB". -/
def flush_tlb_virt (ctx : Context R) (_virtaddr : Nat) : Context R :=
  ctx.flush_tlb

end Context

/-! ## Machine integers -/

/-- The value an `int` holds after an arithmetic result `x` is stored in it: `x`
reduced to the 32-bit two's-complement range (what `add` and `sub` do on x86). -/
def wrap32 (x : Int) : Int := (x + 2 ^ 31) % 2 ^ 32 - 2 ^ 31

/-- The conversion of an `int` to `W64`: the 64-bit word with the same value modulo
`2^64` (sign extension). -/
def int_to_W64 (x : Int) : Nat := (x % 2 ^ 64).toNat

/-! ## Micro-ops and basic blocks -/

/-- The record `struct TransOpBase`: two 64-bit words of bit-fields. -/
structure TransOpBase where
  opcode : Fin (2 ^ 7)
  size : Fin (2 ^ 2)
  cond : Fin (2 ^ 4)
  som : Fin (2 ^ 1)
  eom : Fin (2 ^ 1)
  setflags : Fin (2 ^ 3)
  internal : Fin (2 ^ 1)
  memid : Fin (2 ^ 8)
  rd : Fin (2 ^ 7)
  ra : Fin (2 ^ 7)
  rb : Fin (2 ^ 7)
  rc : Fin (2 ^ 7)
  is_sse : Fin (2 ^ 1)
  is_x87 : Fin (2 ^ 1)
  bytes : Fin (2 ^ 4)
  tagcount : Fin (2 ^ 4)
  loadcount : Fin (2 ^ 3)
  storecount : Fin (2 ^ 3)
  branchcount : Fin (2 ^ 1)
  nouserflags : Fin (2 ^ 1)
  extshift : Fin (2 ^ 2)
  cachelevel : Fin (2 ^ 2)
  datatype : Fin (2 ^ 4)
  unaligned : Fin (2 ^ 1)
  index : Fin (2 ^ 8)
deriving DecidableEq

/-- The micro-op `struct TransOp`: `TransOpBase` with the signed immediates `rbimm`,
`rcimm` (`W64s`) and the addresses `riptaken`, `ripseq` (`W64`). -/
structure TransOp extends TransOpBase where
  rbimm : Int
  rcimm : Int
  riptaken : Nat
  ripseq : Nat
deriving DecidableEq

/-- The constant `MAX_BB_UOPS`. -/
def MAX_BB_UOPS : Nat := 63

/-- The record `struct BasicBlockBase`.  The links and locators into the hash table
and the chunk lists (`hashlink`, `mfnlo_loc`, `mfnhi_loc`) and the pointer `synthops`
are kept as numbers; `refcount` is the `int` reference count. -/
structure BasicBlockBase where
  rip : RIPVirtPhys
  hashlink : Nat
  mfnlo_loc : Nat
  mfnhi_loc : Nat
  rip_taken : Nat
  rip_not_taken : Nat
  count : Fin (2 ^ 8)
  bytes : Fin (2 ^ 8)
  user_insn_count : Fin (2 ^ 8)
  tagcount : Fin (2 ^ 8)
  memcount : Fin (2 ^ 8)
  storecount : Fin (2 ^ 8)
  repblock : Fin (2 ^ 1)
  invalidblock : Fin (2 ^ 1)
  usedregs : Nat
  synthops : Nat
  refcount : Int
  hitcount : Nat
  predcount : Nat
  confidence : Nat
  lastused : Nat
deriving DecidableEq

namespace BasicBlockBase

/-- The method `acquire()`: `refcount++;`. -/
def acquire (b : BasicBlockBase) : BasicBlockBase :=
  { b with refcount := wrap32 (b.refcount + 1) }

/-- The method `release()`: `refcount--; assert(refcount >= 0); return (!refcount);`.
The result is `none` when the assertion fails, and otherwise the returned flag and
the block after the call. -/
def release (b : BasicBlockBase) : Option (Bool × BasicBlockBase) :=
  let b1 : BasicBlockBase := { b with refcount := wrap32 (b.refcount - 1) }
  if 0 ≤ b1.refcount then some (decide (b1.refcount = 0), b1) else none

end BasicBlockBase

/-- The record `struct BasicBlock`: a `BasicBlockBase` followed by the array
`TransOp transops[MAX_BB_UOPS*2]` (index to element). -/
structure BasicBlock extends BasicBlockBase where
  transops : Nat → TransOp

namespace BasicBlock

/-- The inherited `acquire()` on a `BasicBlock`. -/
def acquire (bb : BasicBlock) : BasicBlock :=
  { bb with toBasicBlockBase := bb.toBasicBlockBase.acquire }

/-- The inherited `release()` on a `BasicBlock`. -/
def release (bb : BasicBlock) : Option (Bool × BasicBlock) :=
  match bb.toBasicBlockBase.release with
  | some (last, base) => some (last, { bb with toBasicBlockBase := base })
  | none => none

end BasicBlock

/-- A call on the reference count of a block. -/
inductive RefCall where
  | acquire
  | release
deriving DecidableEq

namespace BasicBlockBase

/-- One call on a block: the block after it, or `none` when `release()` aborted. -/
def call (b : BasicBlockBase) : RefCall → Option BasicBlockBase
  | .acquire => some b.acquire
  | .release => b.release.map Prod.snd

/-- A sequence of calls on a block, first call first: the block after the last
call, or `none` when some `release()` aborted. -/
def calls (b : BasicBlockBase) : List RefCall → Option BasicBlockBase
  | [] => some b
  | c :: cs => (b.call c).bind fun b1 => b1.calls cs

/-- A block for examples: key `rip = 0x1000`, every other field zero, and the given
reference count. -/
def sample (refcount : Int) : BasicBlockBase :=
  ⟨⟨0x1000, 0, 0, 0, 0, 0, 0, 0⟩, 0, 0, 0, 0, 0, 0, 0, 0, 0, 0, 0, 0, 0, 0, 0, refcount, 0, 0, 0, 0⟩

end BasicBlockBase

/-! ## Hashtable -/

/-- The pair `struct KeyValuePair<A, B>`. -/
structure KeyValuePair (A B : Type) where
  key : A
  value : B
deriving DecidableEq

/-- The key manager `HashtableKeyManager<K>`: `hash` and `equal`.  Keys are held by
value, so `dup` gives the key itself and `free` does nothing. -/
structure HashtableKeyManager (K : Type) where
  hash : K → Int
  equal : K → K → Bool

/-- The specialisation `HashtableKeyManager<W64>`: `hash` returns the key as an `int`,
`equal` is `a == b`. -/
def HashtableKeyManager.forW64 : HashtableKeyManager Nat :=
  ⟨fun key => wrap32 (key : Int), fun a b => decide (a = b)⟩

/-- The table `class Hashtable<K, T, setcount, KM>`: `sets i` is the chain of entries
linked from `sets[i]`, first link first (the indices below `setcount` being the
array), and `count` is the `int` entry count. -/
structure Hashtable (K T : Type) where
  sets : Nat → List (KeyValuePair K T)
  count : Int

namespace Hashtable

variable {K T : Type}

/-- The index of the set of a key, `lowbits(KM::hash(key), log2(setcount))`. -/
def setof (km : HashtableKeyManager K) (setcount : Nat) (key : K) : Nat :=
  lowbits (int_to_W64 (km.hash key)) (log2 setcount)

/-- The loop of `findentry` along a chain: the first entry whose key is `equal` to
`key`, if any. -/
def findlink (km : HashtableKeyManager K) (key : K) :
    List (KeyValuePair K T) → Option (KeyValuePair K T)
  | [] => none
  | entry :: next => if km.equal entry.key key then some entry else findlink km key next

/-- The method `findentry(key)`. -/
def findentry (km : HashtableKeyManager K) (setcount : Nat) (ht : Hashtable K T) (key : K) :
    Option (KeyValuePair K T) :=
  findlink km key (ht.sets (setof km setcount key))

/-- The assignment `entry->value = value` to the entry that `findentry` found in a
chain: the first entry whose key is `equal` to `key`. -/
def assignvalue (km : HashtableKeyManager K) (key : K) (value : T) :
    List (KeyValuePair K T) → List (KeyValuePair K T)
  | [] => []
  | entry :: next =>
    if km.equal entry.key key then { entry with value := value } :: next
    else entry :: assignvalue km key value next

/-- The statement `delete entry` of `remove`, for the entry that `findentry` found in
a chain, which is the first entry whose key is `equal` to `key`. The destructor
`~Entry()` calls `link.unlink()`, and `listlink::unlink()` (`superstl.h`) stores the
entry's `next` in `*prevnp`, the pointer that pointed to the entry (the root or the
`next` of the entry before it), and `prevnp` in `next->prevnp`: the entry leaves the
chain and every other entry keeps its place. -/
def unlink (km : HashtableKeyManager K) (key : K) :
    List (KeyValuePair K T) → List (KeyValuePair K T)
  | [] => []
  | entry :: next => if km.equal entry.key key then next else entry :: unlink km key next

/-- The constructor `Hashtable()`: no entry in any set, `count = 0`. -/
def empty : Hashtable K T := ⟨fun _ => [], 0⟩

/-- The method `clear()`: every entry of every set is deleted, `count = 0`. -/
def clear (setcount : Nat) (ht : Hashtable K T) : Hashtable K T :=
  ⟨fun i => if i < setcount then [] else ht.sets i, 0⟩

/-- The method `get(key)`: the value of the entry found (the source returns a
pointer to it), or `none` for the null pointer. -/
def get (km : HashtableKeyManager K) (setcount : Nat) (ht : Hashtable K T) (key : K) :
    Option T :=
  match ht.findentry km setcount key with
  | none => none
  | some entry => some entry.value

/-- The method `listlink::addto(root)` (`superstl.h`), called as
`entry->link.addto(sets[...])`: it sets `this->next = root` and `root = this` (and
the two `prevnp` back pointers), so the entry becomes the first of the chain and the
old chain follows it. -/
def addto (entry : KeyValuePair K T) (root : List (KeyValuePair K T)) :
    List (KeyValuePair K T) :=
  entry :: root

/-- The method `add(key, value)`: the returned value and the table after the call. -/
def add [Zero T] (km : HashtableKeyManager K) (setcount : Nat) (ht : Hashtable K T)
    (key : K) (value : T) : T × Hashtable K T :=
  match ht.findentry km setcount key with
  | some entry =>
    (entry.value,
      { ht with sets := Function.update ht.sets (setof km setcount key)
                  (assignvalue km key value (ht.sets (setof km setcount key))) })
  | none =>
    (0,
      { sets := Function.update ht.sets (setof km setcount key)
                  (addto ⟨key, value⟩ (ht.sets (setof km setcount key)))
        count := wrap32 (ht.count + 1) })

/-- The method `remove(key)`: the returned value and the table after the call. -/
def remove [Zero T] (km : HashtableKeyManager K) (setcount : Nat) (ht : Hashtable K T)
    (key : K) : T × Hashtable K T :=
  match ht.findentry km setcount key with
  | none => (0, ht)
  | some entry =>
    (entry.value,
      { sets := Function.update ht.sets (setof km setcount key)
                  (unlink km key (ht.sets (setof km setcount key)))
        count := wrap32 (ht.count - 1) })

end Hashtable

/-- A call that changes a `Hashtable`. -/
inductive HashtableCall (K T : Type) where
  | add (key : K) (value : T)
  | remove (key : K)
  | clear

namespace Hashtable

variable {K T : Type}

/-- The table after one call. -/
def call [Zero T] (km : HashtableKeyManager K) (setcount : Nat) (ht : Hashtable K T) :
    HashtableCall K T → Hashtable K T
  | .add key value => (ht.add km setcount key value).2
  | .remove key => (ht.remove km setcount key).2
  | .clear => ht.clear setcount

/-- The chains of a table are consistent: every entry is linked in the set of its
key, and no two entries of one chain have `equal` keys. -/
def consistent (km : HashtableKeyManager K) (setcount : Nat) (ht : Hashtable K T) : Prop :=
  (∀ i, ∀ e ∈ ht.sets i, setof km setcount e.key = i)
    ∧ ∀ i, (ht.sets i).Pairwise fun a b => km.equal a.key b.key = false

/-- The table reached from the empty table by a sequence of calls, first call
first. -/
def reached [Zero T] (km : HashtableKeyManager K) (setcount : Nat)
    (cs : List (HashtableCall K T)) : Hashtable K T :=
  cs.foldl (call km setcount) empty

end Hashtable

/-- The entries stored in a table of `setcount` sets: the chains of the sets
`0 .. setcount-1` one after the other, which is the order in which `getentries()`
copies them. -/
def Hashtable.stored {K T : Type} (setcount : Nat) (ht : Hashtable K T) :
    List (KeyValuePair K T) :=
  (List.range setcount).flatMap ht.sets

/-! ## Opcodes, registers and `TransOp::init` -/

/-- The enumerators of the opcode `enum`, `OP_nop` to `OP_cvtf_s2d_hi`, in the order
of their declaration: the enumerator at position `i` has the value `i`. -/
def opcode_enumerators : List String :=
  ["OP_nop", "OP_mov", "OP_and", "OP_andnot", "OP_xor", "OP_or", "OP_nand", "OP_ornot",
   "OP_eqv", "OP_nor", "OP_maskb", "OP_add", "OP_sub", "OP_adda", "OP_suba", "OP_addm",
   "OP_subm", "OP_andcc", "OP_orcc", "OP_xorcc", "OP_ornotcc", "OP_movccr",
   "OP_movrcc", "OP_collcc", "OP_shls", "OP_shrs", "OP_bswap", "OP_sars", "OP_bt",
   "OP_bts", "OP_btr", "OP_btc", "OP_set", "OP_set_sub", "OP_set_and", "OP_sel",
   "OP_br", "OP_br_sub", "OP_br_and", "OP_jmp", "OP_bru", "OP_jmpp", "OP_brp",
   "OP_chk", "OP_chk_sub", "OP_chk_and", "OP_ld", "OP_ldx", "OP_ld_pre", "OP_st",
   "OP_shl", "OP_shr", "OP_mask", "OP_sar", "OP_rotl", "OP_rotr", "OP_rotcl",
   "OP_rotcr", "OP_mull", "OP_mulh", "OP_mulhu", "OP_ctz", "OP_clz", "OP_ctpop",
   "OP_permb", "OP_addf", "OP_subf", "OP_mulf", "OP_maddf", "OP_msubf", "OP_divf",
   "OP_sqrtf", "OP_rcpf", "OP_rsqrtf", "OP_minf", "OP_maxf", "OP_cmpf", "OP_cmpccf",
   "OP_permf", "OP_cvtf_i2s_ins", "OP_cvtf_i2s_p", "OP_cvtf_i2d_lo", "OP_cvtf_i2d_hi",
   "OP_cvtf_q2s_ins", "OP_cvtf_q2d", "OP_cvtf_s2i", "OP_cvtf_s2q", "OP_cvtf_s2i_p",
   "OP_cvtf_d2i", "OP_cvtf_d2q", "OP_cvtf_d2i_p", "OP_cvtf_d2s_ins", "OP_cvtf_d2s_p",
   "OP_cvtf_s2d_lo", "OP_cvtf_s2d_hi"]

/-- The enumerator `OP_MAX_OPCODE`, which follows the opcodes in the `enum`: its value
is the number of opcodes. -/
def OP_MAX_OPCODE : Nat := opcode_enumerators.length

/-- The register index `REG_zf`. -/
def REG_zf : Nat := 72

/-- The register index `REG_cf`. -/
def REG_cf : Nat := 73

/-- The register index `REG_of`. -/
def REG_of : Nat := 74

/-- The register index `REG_imm`. -/
def REG_imm : Nat := 75

/-- The register index `REG_mem`. -/
def REG_mem : Nat := 76

/-- The constant `TRANSREG_COUNT`, `(64+16)`. -/
def TRANSREG_COUNT : Nat := 64 + 16

/-- The store of an integer `x` into an unsigned bit-field of `w` bits, which keeps
`x` modulo `2^w`. -/
def bitfield (w : Nat) (x : Int) : Fin (2 ^ w) :=
  ⟨(x % 2 ^ w).toNat, by
    have hpos : (0 : Int) < 2 ^ w := by positivity
    have h1 : 0 ≤ x % 2 ^ w := Int.emod_nonneg x (ne_of_gt hpos)
    have h2 : x % 2 ^ w < 2 ^ w := Int.emod_lt_of_pos x hpos
    have h3 : ((2 ^ w : Nat) : Int) = 2 ^ w := by push_cast; rfl
    exact (Int.toNat_lt h1).mpr (by rw [h3]; exact h2)⟩

namespace TransOp

/-- The method `TransOp::init(opcode, rd, ra, rb, rc, size, rbimm, rcimm, setflags,
memid)` on the uop `self`: the assignments of its body, in order.  The `int`
arguments and the `W32` argument `setflags` are integers, `rbimm` and `rcimm` are
`W64s`. -/
def init (self : TransOp) (opcode rd ra rb rc size : Int) (rbimm rcimm : Int)
    (setflags : Nat) (memid : Int) : TransOp :=
  let u : TransOp := { self with opcode := bitfield 7 opcode }
  let u : TransOp := { u with rd := bitfield 7 rd }
  let u : TransOp := { u with ra := bitfield 7 ra }
  let u : TransOp := { u with rb := bitfield 7 rb }
  let u : TransOp := { u with rc := bitfield 7 rc }
  let u : TransOp := { u with size := bitfield 2 size }
  let u : TransOp := { u with cond := bitfield 4 0 }
  let u : TransOp := { u with rbimm := rbimm }
  let u : TransOp := { u with rcimm := rcimm }
  let u : TransOp := { u with eom := bitfield 1 0 }
  let u : TransOp := { u with som := bitfield 1 0 }
  let u : TransOp := { u with setflags := bitfield 3 (setflags : Int) }
  let u : TransOp := { u with memid := bitfield 8 memid }
  let u : TransOp := { u with riptaken := 0 }
  let u : TransOp := { u with ripseq := 0 }
  let u : TransOp := { u with bytes := bitfield 4 0 }
  let u : TransOp := { u with tagcount := bitfield 4 0 }
  let u : TransOp := { u with loadcount := bitfield 3 0 }
  let u : TransOp := { u with storecount := bitfield 3 0 }
  let u : TransOp := { u with branchcount := bitfield 1 0 }
  let u : TransOp := { u with internal := bitfield 1 0 }
  let u : TransOp := { u with nouserflags := bitfield 1 0 }
  let u : TransOp := { u with extshift := bitfield 2 0 }
  let u : TransOp := { u with cachelevel := bitfield 2 0 }
  let u : TransOp := { u with datatype := bitfield 4 0 }
  let u : TransOp := { u with unaligned := bitfield 1 0 }
  let u : TransOp := { u with is_sse := bitfield 1 0 }
  let u : TransOp := { u with is_x87 := bitfield 1 0 }
  { u with index := bitfield 8 0 }

/-- The call `init(opcode, rd, ra, rb, rc, size)`, in which `rbimm`, `rcimm`,
`setflags` and `memid` take their default `0`. -/
def init6 (self : TransOp) (opcode rd ra rb rc size : Int) : TransOp :=
  self.init opcode rd ra rb rc size 0 0 0 0

/-- The call `init(opcode, rd, ra, rb, rc, size, rbimm)`, with the defaults for
`rcimm`, `setflags` and `memid`. -/
def init7 (self : TransOp) (opcode rd ra rb rc size : Int) (rbimm : Int) : TransOp :=
  self.init opcode rd ra rb rc size rbimm 0 0 0

/-- The call `init(opcode, rd, ra, rb, rc, size, rbimm, rcimm)`, with the defaults
for `setflags` and `memid`. -/
def init8 (self : TransOp) (opcode rd ra rb rc size : Int) (rbimm rcimm : Int) : TransOp :=
  self.init opcode rd ra rb rc size rbimm rcimm 0 0

/-- The call `init(opcode, rd, ra, rb, rc, size, rbimm, rcimm, setflags)`, with the
default for `memid`. -/
def init9 (self : TransOp) (opcode rd ra rb rc size : Int) (rbimm rcimm : Int)
    (setflags : Nat) : TransOp :=
  self.init opcode rd ra rb rc size rbimm rcimm setflags 0

/-- A uop for examples: every field zero. -/
def zero : TransOp :=
  ⟨⟨0, 0, 0, 0, 0, 0, 0, 0, 0, 0, 0, 0, 0, 0, 0, 0, 0, 0, 0, 0, 0, 0, 0, 0, 0⟩, 0, 0, 0, 0⟩

/-- A uop for examples: every bit of every field set. -/
def ones : TransOp :=
  ⟨⟨127, 3, 15, 1, 1, 7, 1, 255, 127, 127, 127, 127, 1, 1, 15, 15, 7, 7, 1, 1, 3, 3, 15, 1,
    255⟩, -1, -1, 0xffffffffffffffff, 0xffffffffffffffff⟩

end TransOp

/-! ## ChunkHashtable -/

/-- Modelled from the spec: `lsbindex64(n)` of `globals.h`, the index of the least
significant set bit of a 64-bit word (`lsbindex64Aux` looks at no more than `fuel`
bits); the callers here do not use the index of the word 0. -/
def lsbindex64Aux : Nat → Nat → Nat
  | 0, _ => 0
  | fuel + 1, n => if n % 2 = 1 then 0 else lsbindex64Aux fuel (n / 2) + 1

/-- Modelled from the spec: `lsbindex64(n)` of `globals.h`. -/
def lsbindex64 (n : Nat) : Nat := lsbindex64Aux 64 n

/-- The complement `~x` of a 64-bit word. -/
def W64_not (x : Nat) : Nat := 2 ^ 64 - 1 - x

/-- The chunk `struct ChunkHashtableBlock<T, entries_per_chunk>`: the bitmap `freemap`
(`W64`; bit `i` set when slot `i` is free) and the array `data` (index to element).
The `link` of a chunk is its place in the chain of its set. -/
structure ChunkHashtableBlock (T : Type) where
  freemap : Nat
  data : Nat → T

namespace ChunkHashtableBlock

variable {T : Type}

/-- The constant `ALL_FREE = (1LL << entries_per_chunk)-1LL`, for `entries_per_chunk`
below 64. -/
def ALL_FREE (entries_per_chunk : Nat) : Nat := (1 <<< entries_per_chunk) - 1

/-- The constructor `ChunkHashtableBlock()`: `setzero(data); freemap = ALL_FREE;`. -/
def new [Zero T] (entries_per_chunk : Nat) : ChunkHashtableBlock T :=
  ⟨ALL_FREE entries_per_chunk, fun _ => 0⟩

/-- The method `full()`: `freemap == 0`. -/
def full (c : ChunkHashtableBlock T) : Bool := decide (c.freemap = 0)

/-- The method `add(entry)`: the returned flag and the chunk after the call. -/
def add (entries_per_chunk : Nat) (c : ChunkHashtableBlock T) (entry : T) :
    Bool × ChunkHashtableBlock T :=
  let idx := lsbindex64 c.freemap
  if c.freemap = 0 ∨ idx ≥ entries_per_chunk then (false, c)
  else
    (true, ⟨c.freemap &&& W64_not (1 <<< idx), Function.update c.data idx entry⟩)

/-- The loop of `operator ()`: the word `match` with bit `i` set when
`data[i] == entry`, for the slots `i` below `entries_per_chunk`. -/
def matchbits [DecidableEq T] (entries_per_chunk : Nat) (c : ChunkHashtableBlock T)
    (entry : T) : Nat :=
  (List.range entries_per_chunk).foldl
    (fun m i => m ||| ((if c.data i = entry then 1 else 0) <<< i)) 0

/-- The lookup `operator ()(entry)` of a chunk: the index `idx` of the slot
`&data[idx]` that it returns, or `none` for the null pointer. -/
def lookup [DecidableEq T] (entries_per_chunk : Nat) (c : ChunkHashtableBlock T)
    (entry : T) : Option Nat :=
  let m := matchbits entries_per_chunk c entry &&& W64_not c.freemap
  let idx := lsbindex64 m
  if m ≠ 0 then some idx else none

/-- The method `remove(entry)`: the returned flag (the chunk is all free) and the
chunk after the call. -/
def remove [DecidableEq T] (entries_per_chunk : Nat) (c : ChunkHashtableBlock T)
    (entry : T) : Bool × ChunkHashtableBlock T :=
  match c.lookup entries_per_chunk entry with
  | none => (decide (c.freemap = ALL_FREE entries_per_chunk), c)
  | some idx =>
    (decide (c.freemap ||| (1 <<< idx) = ALL_FREE entries_per_chunk),
      ⟨c.freemap ||| (1 <<< idx), c.data⟩)

/-- The chunk stores `entry`: some slot below `entries_per_chunk` is occupied (its
bit of `freemap` is 0) and holds `entry`. -/
def stores (entries_per_chunk : Nat) (c : ChunkHashtableBlock T) (entry : T) : Prop :=
  ∃ i, i < entries_per_chunk ∧ c.freemap.testBit i = false ∧ c.data i = entry

/-- The number of occupied slots of the chunk that hold `entry`. -/
def occurrences [DecidableEq T] (entries_per_chunk : Nat) (c : ChunkHashtableBlock T)
    (entry : T) : Nat :=
  (List.range entries_per_chunk).countP
    fun i => !c.freemap.testBit i && decide (c.data i = entry)

end ChunkHashtableBlock

/-- The table `struct ChunkHashtable<T, setcount, entries_per_chunk>`: the `int`
`count` and, for each set, the chain of chunks linked from `sets[i]`, first link
first. -/
structure ChunkHashtable (T : Type) where
  count : Int
  sets : Nat → List (ChunkHashtableBlock T)

namespace ChunkHashtable

variable {T : Type}

/-- The constructor `ChunkHashtable()`, that is `init()`: no chunk in any set,
`count = 0`. -/
def init : ChunkHashtable T := ⟨0, fun _ => []⟩

/-- The end of `add(entry)`, `assert(base->add(entry))`, for the chunk `base` at the
head of the chain of the set and the chunks `next` after it: the table after the
call, or `none` when the assertion fails. -/
def addbase (setof : T → Nat) (entries_per_chunk : Nat) (ht : ChunkHashtable T)
    (entry : T) (base : ChunkHashtableBlock T) (next : List (ChunkHashtableBlock T)) :
    Option (ChunkHashtable T) :=
  if (base.add entries_per_chunk entry).1 then
    some { ht with sets := Function.update ht.sets (setof entry)
                    ((base.add entries_per_chunk entry).2 :: next) }
  else none

/-- The method `add(entry)`: the table after the call, or `none` when
`assert(base->add(entry))` fails.  The method `setof` of the subclass is a
parameter; when the set has no chunk or its head chunk is full, a new chunk is
linked at the head of the chain (`link.addto`) and becomes `base`. -/
def add [Zero T] (setof : T → Nat) (entries_per_chunk : Nat) (ht : ChunkHashtable T)
    (entry : T) : Option (ChunkHashtable T) :=
  match ht.sets (setof entry) with
  | [] => ht.addbase setof entries_per_chunk entry (ChunkHashtableBlock.new entries_per_chunk) []
  | base :: next =>
    if base.full then
      ht.addbase setof entries_per_chunk entry (ChunkHashtableBlock.new entries_per_chunk)
        (base :: next)
    else ht.addbase setof entries_per_chunk entry base next

/-- The loop of `remove(entry)` along a chain: each chunk does `remove(entry)` and is
unlinked and deleted when that returns true. -/
def removeloop [DecidableEq T] (entries_per_chunk : Nat) (entry : T) :
    List (ChunkHashtableBlock T) → List (ChunkHashtableBlock T)
  | [] => []
  | chunk :: nextchunk =>
    if (chunk.remove entries_per_chunk entry).1 then
      removeloop entries_per_chunk entry nextchunk
    else
      (chunk.remove entries_per_chunk entry).2 :: removeloop entries_per_chunk entry nextchunk

/-- The method `remove(entry)`. -/
def remove [DecidableEq T] (setof : T → Nat) (entries_per_chunk : Nat)
    (ht : ChunkHashtable T) (entry : T) : ChunkHashtable T :=
  { ht with sets := Function.update ht.sets (setof entry)
              (removeloop entries_per_chunk entry (ht.sets (setof entry))) }

/-- The loop of `operator ()(entry)` along a chain: the first chunk in which the
entry is found, as its place in the chain (counted from `pos`), and the slot found
in it. -/
def lookuploop [DecidableEq T] (entries_per_chunk : Nat) (entry : T) (pos : Nat) :
    List (ChunkHashtableBlock T) → Option (Nat × Nat)
  | [] => none
  | chunk :: next =>
    match chunk.lookup entries_per_chunk entry with
    | some idx => some (pos, idx)
    | none => lookuploop entries_per_chunk entry (pos + 1) next

/-- The lookup `operator ()(entry)` of the table: the chunk (its place in the chain
of the set of `entry`) and the slot of that chunk that the returned pointer names,
or `none` for the null pointer. -/
def lookup [DecidableEq T] (setof : T → Nat) (entries_per_chunk : Nat)
    (ht : ChunkHashtable T) (entry : T) : Option (Nat × Nat) :=
  lookuploop entries_per_chunk entry 0 (ht.sets (setof entry))

/-- The content of the slot that a pointer returned by `operator ()` names. -/
def content (s : Nat) (ht : ChunkHashtable T) (slot : Nat × Nat) : Option T :=
  ((ht.sets s)[slot.1]?).map fun chunk => chunk.data slot.2

/-- The number of occupied slots that hold `entry` in the chunks of set `s`. -/
def occurrences [DecidableEq T] (entries_per_chunk : Nat) (ht : ChunkHashtable T)
    (s : Nat) (entry : T) : Nat :=
  ((ht.sets s).map fun chunk => chunk.occurrences entries_per_chunk entry).sum

end ChunkHashtable

/-- A call that changes a `ChunkHashtable`. -/
inductive ChunkHashtableCall (T : Type) where
  | add (entry : T)
  | remove (entry : T)

namespace ChunkHashtable

variable {T : Type}

/-- The table after one call, or `none` when the call aborted. -/
def call [Zero T] [DecidableEq T] (setof : T → Nat) (entries_per_chunk : Nat)
    (ht : ChunkHashtable T) : ChunkHashtableCall T → Option (ChunkHashtable T)
  | .add entry => ht.add setof entries_per_chunk entry
  | .remove entry => some (ht.remove setof entries_per_chunk entry)

/-- The table after a sequence of calls, first call first, or `none` when a call
aborted. -/
def calls [Zero T] [DecidableEq T] (setof : T → Nat) (entries_per_chunk : Nat)
    (ht : ChunkHashtable T) : List (ChunkHashtableCall T) → Option (ChunkHashtable T)
  | [] => some ht
  | c :: cs =>
    (ht.call setof entries_per_chunk c).bind fun ht1 => ht1.calls setof entries_per_chunk cs

/-- The table reached from the empty table by a sequence of calls. -/
def reached [Zero T] [DecidableEq T] (setof : T → Nat) (entries_per_chunk : Nat)
    (cs : List (ChunkHashtableCall T)) : Option (ChunkHashtable T) :=
  (init : ChunkHashtable T).calls setof entries_per_chunk cs

/-- Every chunk of the table keeps its `freemap` within the bits of its slots. -/
def wellformed (entries_per_chunk : Nat) (ht : ChunkHashtable T) : Prop :=
  ∀ s, ∀ chunk ∈ ht.sets s, chunk.freemap < 2 ^ entries_per_chunk

end ChunkHashtable

/-- A sequence of calls for examples, on a table with 2 entries per chunk whose
`setof` is constantly 0: the entry 7 is added twice and ends up in two chunks. -/
def ChunkHashtable.sample_calls : List (ChunkHashtableCall Nat) :=
  [.add 7, .add 8, .add 7]

/-- A table for examples, with 2 entries per chunk: set 0 has a head chunk that
holds 7 in slot 0 and has slot 1 free, and after it a full chunk that holds 7 and 8;
the other sets have no chunk. -/
def ChunkHashtable.sample : ChunkHashtable Nat :=
  ⟨0, fun s =>
    if s = 0 then
      [⟨2, fun i => if i = 0 then 7 else 0⟩, ⟨0, fun i => if i = 0 then 7 else 8⟩]
    else []⟩

/-- A chunk for examples, with 2 entries per chunk: slot 0 is occupied and holds 7,
slot 1 is free and holds the zero it was constructed with. -/
def ChunkHashtableBlock.sample : ChunkHashtableBlock Nat :=
  ⟨2, fun i => if i = 0 then 7 else 0⟩

/-! ## Segment descriptors -/

/-- Modelled from the spec: `bits(x, i, l)` of `globals.h`, the value of the `l` bits
of `x` from bit `i` upwards. -/
def bits (x i l : Nat) : Nat := (x >>> i) % 2 ^ l

/-- Modelled from the spec: `ceil(x, a)` of `globals.h`, the 64-bit word `x` rounded
up to a multiple of `a` (the sum `x + (a - 1)` is a 64-bit sum). -/
def ceil (x a : Nat) : Nat := floor ((x + (a - 1)) % 2 ^ 64) a

/-- The store of an unsigned value `x` into an unsigned bit-field (or `W16`) of `w`
bits, which keeps `x` modulo `2^w`. -/
def bitfield_of_nat (w : Nat) (x : Nat) : Fin (2 ^ w) :=
  ⟨x % 2 ^ w, Nat.mod_lt _ (Nat.pos_pow_of_pos _ (by decide))⟩

/-- The shift `x << n` of an `int`, as an `int`. -/
def int_shl (x : Int) (n : Nat) : Int := wrap32 (x * 2 ^ n)

/-- The sum `x + y` of two `int`s, as an `int`. -/
def int_add (x y : Int) : Int := wrap32 (x + y)

/-- The descriptor `struct SegmentDescriptor`: `W16 limit0; W16 base0;
W16 base1:8, type:4, s:1, dpl:2, p:1; W16 limit:4, avl:1, l:1, d:1, g:1, base2:8;`. -/
structure SegmentDescriptor where
  limit0 : Fin (2 ^ 16)
  base0 : Fin (2 ^ 16)
  base1 : Fin (2 ^ 8)
  type : Fin (2 ^ 4)
  s : Fin (2 ^ 1)
  dpl : Fin (2 ^ 2)
  p : Fin (2 ^ 1)
  limit : Fin (2 ^ 4)
  avl : Fin (2 ^ 1)
  l : Fin (2 ^ 1)
  d : Fin (2 ^ 1)
  g : Fin (2 ^ 1)
  base2 : Fin (2 ^ 8)
deriving DecidableEq

namespace SegmentDescriptor

/-- The method `setbase(W64 addr)`: the descriptor after the call, or `none` when
`assert((addr >> 32) == 0)` fails. -/
def setbase (self : SegmentDescriptor) (addr : Nat) : Option SegmentDescriptor :=
  if addr >>> 32 = 0 then
    let d1 : SegmentDescriptor := { self with base0 := bitfield_of_nat 16 (lowbits addr 16) }
    let d2 : SegmentDescriptor := { d1 with base1 := bitfield_of_nat 8 (bits addr 16 8) }
    some { d2 with base2 := bitfield_of_nat 8 (bits addr 24 8) }
  else none

/-- The method `getbase()`: `return base0 + (base1 << 16) + (base2 << 24);`.  The
three fields are promoted to `int`, the sum is an `int`, and the returned `W64` is
the conversion of that `int`. -/
def getbase (self : SegmentDescriptor) : Nat :=
  int_to_W64
    (int_add (int_add (self.base0.val : Int) (int_shl (self.base1.val : Int) 16))
      (int_shl (self.base2.val : Int) 24))

/-- The method `setlimit(W64 size)`. -/
def setlimit (self : SegmentDescriptor) (size : Nat) : SegmentDescriptor :=
  let d1 : SegmentDescriptor :=
    { self with g := bitfield_of_nat 1 (if size ≥ 1 <<< 20 then 1 else 0) }
  let size1 : Nat := if d1.g.val ≠ 0 then ceil size 4096 >>> 12 else size
  let d2 : SegmentDescriptor := { d1 with limit0 := bitfield_of_nat 16 (lowbits size1 16) }
  { d2 with limit := bitfield_of_nat 4 (bits size1 16 4) }

/-- The method `getlimit()`: `W64 size = limit0 + (limit << 16); if (g) size <<= 12;`. -/
def getlimit (self : SegmentDescriptor) : Nat :=
  let size : Nat := int_to_W64 (int_add (self.limit0.val : Int) (int_shl (self.limit.val : Int) 16))
  if self.g.val ≠ 0 then (size <<< 12) % 2 ^ 64 else size

/-- A descriptor for examples: every field zero. -/
def zero : SegmentDescriptor := ⟨0, 0, 0, 0, 0, 0, 0, 0, 0, 0, 0, 0, 0⟩

end SegmentDescriptor

/-! ## `dynarray` and `Hashtable::getentries` -/

/-- An array made by `new T[count]`: `count` elements, and `elem i` is the element
at the index `i`, `none` as long as no value has been assigned to it. -/
structure heap_array (T : Type) where
  count : Nat
  elem : Nat → Option T

/-- The function `renew(p, oldcount, newcount)` (`superstl.h`) on a pointer `p`,
which is `none` for `NULL`: the pointer returned, or `none` when
`assert(oldcount == 0)` fails or `memcpy` reads `oldcount` elements from an array
that has fewer. -/
def renew {T : Type} (p : Option (heap_array T)) (oldcount newcount : Nat) :
    Option (Option (heap_array T)) :=
  if newcount ≤ oldcount then some p
  else
    let pp : heap_array T := ⟨newcount, fun _ => none⟩
    match p with
    | none => if oldcount = 0 then some (some pp) else none
    | some a =>
      if oldcount ≤ a.count then
        some (some { pp with elem := fun i => if i < oldcount then a.elem i else pp.elem i })
      else none

/-- The array `class dynarray<T>`: `data` is the pointer `data`, `none` for `NULL`;
`length`, `reserved` and `granularity` are the `int` members. -/
structure dynarray (T : Type) where
  data : Option (heap_array T)
  length : Int
  reserved : Int
  granularity : Int

namespace dynarray

variable {T : Type}

/-- The method `reserve(newsize)`; `renew` takes the two `int` counts as `size_t`. -/
def reserve (self : dynarray T) (newsize : Int) : Option (dynarray T) :=
  if newsize ≤ self.reserved then some self
  else
    let newsize1 : Int :=
      Int.land (wrap32 (newsize + wrap32 (self.granularity - 1)))
        (Int.lnot (wrap32 (self.granularity - 1)))
    (renew self.data (int_to_W64 self.length) (int_to_W64 newsize1)).map fun data =>
      ⟨data, self.length, newsize1, self.granularity⟩

/-- The constructor `dynarray(int initcap, int g)`. -/
def init (initcap g : Int) : Option (dynarray T) :=
  reserve ⟨none, 0, 0, g⟩ initcap

/-- The method `resize(newsize)`. -/
def resize (self : dynarray T) (newsize : Int) : Option (dynarray T) :=
  (if newsize > self.length then self.reserve newsize else some self).map fun a =>
    { a with length := newsize }

/-- The assignment `a[i] = v` through `operator [](int i)`, which is `data[i]`:
`none` when `data` is `NULL` or `i` is not an index of the array. -/
def set (self : dynarray T) (i : Int) (v : T) : Option (dynarray T) :=
  match self.data with
  | none => none
  | some a =>
    if 0 ≤ i ∧ i.toNat < a.count then
      some { self with data := some { a with elem := Function.update a.elem i.toNat (some v) } }
    else none

/-- The element `a[i]` read through `operator [](int i) const`: `none` when `data`
is `NULL`, `i` is not an index of the array, or no value has been assigned to the
element. -/
def get (self : dynarray T) (i : Int) : Option T :=
  match self.data with
  | none => none
  | some a => if 0 ≤ i ∧ i.toNat < a.count then a.elem i.toNat else none

end dynarray

namespace Hashtable

variable {K T : Type}

/-- The loop `while (tlink)` of `getentries()` along one chain, on the array `a` and
the index `n`: `none` when `assert(n < count)` fails or `a[n]` is not an element of
the array. -/
def getentries_chain (count : Int) :
    List (KeyValuePair K T) → dynarray (KeyValuePair K T) × Int →
      Option (dynarray (KeyValuePair K T) × Int)
  | [], st => some st
  | entry :: next, (a, n) =>
    if n < count then
      (a.set n ⟨entry.key, entry.value⟩).bind fun a1 =>
        getentries_chain count next (a1, wrap32 (n + 1))
    else none

/-- The method `getentries()`: the array returned, or `none` when an assertion
fails. -/
def getentries (setcount : Nat) (ht : Hashtable K T) :
    Option (dynarray (KeyValuePair K T)) :=
  ((dynarray.init ht.count 1).bind fun a0 => a0.resize ht.count).bind fun a =>
    ((List.range setcount).foldlM
      (fun st i => getentries_chain ht.count (ht.sets i) st) (a, 0)).map Prod.fst

end Hashtable

/-- Whether a call is an `add`. -/
def HashtableCall.is_add {K T : Type} : HashtableCall K T → Bool
  | .add _ _ => true
  | _ => false

/-! ## Bit vectors (`bitvec<N>`) -/

/-- The constant `BITS_PER_WORD` on x86-64, `sizeof(unsigned long) * 8`. -/
def BITS_PER_WORD : Nat := 64

/-- The number of words of a vector of `n` bits, `BITVEC_WORDS(n)`. -/
def BITVEC_WORDS (n : Nat) : Nat :=
  if n < 1 then 0 else (n + BITS_PER_WORD - 1) / BITS_PER_WORD

/-- Modelled from the spec: `bitmask(l)` of `globals.h`, the word whose `l` low-order
bits are set. -/
def bitmask (l : Nat) : Nat := (2 ^ l - 1) % 2 ^ 64

/-- Modelled from the spec: `foreach (i, n)` of `globals.h`, the loop
`for (i = 0; i < n; i++)` with the given body, on the state `s`. -/
def foreach {σ : Type} (n : Nat) (body : σ → Nat → σ) (s : σ) : σ :=
  (List.range n).foldl body s

/-- The shift `x << n` of an `unsigned long`; as the `shl` instruction does, the
count is taken modulo 64. -/
def W64_shl (x n : Nat) : Nat := (x <<< (n % 64)) % 2 ^ 64

/-- The shift `x >> n` of an `unsigned long`; as the `shr` instruction does, the
count is taken modulo 64. -/
def W64_shr (x n : Nat) : Nat := x >>> (n % 64)

/-- The difference `a - b` of two `size_t`. -/
def size_t_sub (a b : Nat) : Nat := (a + 2 ^ 64 - b % 2 ^ 64) % 2 ^ 64

/-- The compiler builtin `__builtin_popcountl(w)`: the number of set bits of the
word `w`. -/
def popcountl (w : Nat) : Nat := (List.range 64).countP fun i => w.testBit i

/-- The function `bitvec_sanitizer<extrabits>::sanitize(val)`: for `extrabits ≠ 0`,
`val &= ~((~0UL) << extrabits)`; the specialisation for 0 does nothing. -/
def bitvec_sanitizer (extrabits : Nat) (val : Nat) : Nat :=
  if extrabits = 0 then val else val &&& W64_not (W64_shl (W64_not 0) extrabits)

namespace bitvecbase

/-- The function `wordof(index)`. -/
def wordof (index : Nat) : Nat := index / BITS_PER_WORD

/-- The function `bitof(index)`. -/
def bitof (index : Nat) : Nat := index % BITS_PER_WORD

/-- The function `maskof(index)`, `1 << bitof(index)`. -/
def maskof (index : Nat) : Nat := W64_shl 1 (bitof index)

/-- The method `getword(index)` of the general `bitvecbase<N>`, `w[wordof(index)]`. -/
def getword (w : Nat → Nat) (index : Nat) : Nat := w (wordof index)

/-- The method `hiword()` of the general `bitvecbase<N>`, `w[N - 1]`. -/
def hiword (N : Nat) (w : Nat → Nat) : Nat := w (N - 1)

/-- The method `resetop()`, `memset(w, 0, N * sizeof(T))`. -/
def resetop (N : Nat) (w : Nat → Nat) : Nat → Nat :=
  foreach N (fun w i => Function.update w i 0) w

/-- The loop `for (size_t i = ...; i >= wshift; --i) { w[i] = w[i - wshift]; }` of
`shiftleftop`, from the index `i` on: `none` when the index passes below zero (it
wraps around and the loop leaves the array). -/
def shiftleft_words (wshift : Nat) : Nat → (Nat → Nat) → Option (Nat → Nat)
  | 0, w => if 0 ≥ wshift then none else some w
  | i + 1, w =>
    if i + 1 ≥ wshift then
      shiftleft_words wshift i (Function.update w (i + 1) (w (i + 1 - wshift)))
    else some w

/-- The loop `for (size_t i = ...; i > wshift; --i) { w[i] = (w[i - wshift] << offset)
| (w[i - wshift - 1] >> suboffset); }` of `shiftleftop`, from the index `i` on. -/
def shiftleft_bits (wshift offset suboffset : Nat) : Nat → (Nat → Nat) → (Nat → Nat)
  | 0, w => w
  | i + 1, w =>
    if i + 1 > wshift then
      shiftleft_bits wshift offset suboffset i
        (Function.update w (i + 1)
          (W64_shl (w (i + 1 - wshift)) offset ||| W64_shr (w (i + 1 - wshift - 1)) suboffset))
    else w

/-- The method `shiftleftop(shift)` of the general `bitvecbase<N>`. -/
def shiftleftop (N : Nat) (w : Nat → Nat) (shift : Nat) : Option (Nat → Nat) :=
  if shift ≠ 0 then
    let wshift : Nat := shift / BITS_PER_WORD
    let offset : Nat := shift % BITS_PER_WORD
    let w1 : Option (Nat → Nat) :=
      if offset = 0 then shiftleft_words wshift (N - 1) w
      else
        let suboffset : Nat := BITS_PER_WORD - offset
        let w2 : Nat → Nat := shiftleft_bits wshift offset suboffset (N - 1) w
        some (Function.update w2 wshift (W64_shl (w2 0) offset))
    w1.map (foreach wshift fun w i => Function.update w i 0)
  else some w

/-- The method `shiftrightop(shift)` of the general `bitvecbase<N>`: `none` when the
loop `for (size_t i = 0; i <= limit; ++i)` cannot end (`limit` is the greatest
`size_t`). -/
def shiftrightop (N : Nat) (w : Nat → Nat) (shift : Nat) : Option (Nat → Nat) :=
  if shift ≠ 0 then
    let wshift : Nat := shift / BITS_PER_WORD
    let offset : Nat := shift % BITS_PER_WORD
    let limit : Nat := size_t_sub (size_t_sub N wshift) 1
    let w1 : Option (Nat → Nat) :=
      if offset = 0 then
        if limit = 2 ^ 64 - 1 then none
        else some (foreach (limit + 1) (fun w i => Function.update w i (w (i + wshift))) w)
      else
        let suboffset : Nat := BITS_PER_WORD - offset
        let w2 : Nat → Nat :=
          foreach limit
            (fun w i => Function.update w i
              (W64_shr (w (i + wshift)) offset ||| W64_shl (w (i + wshift + 1)) suboffset))
            w
        some (Function.update w2 limit (W64_shr (w2 (N - 1)) offset))
    w1.map (foreach (size_t_sub N ((limit + 1) % 2 ^ 64))
      fun w i => Function.update w (limit + 1 + i) 0)
  else some w

/-- The method `maskop(count)` of the general `bitvecbase<N>`. -/
def maskop (N : Nat) (w : Nat → Nat) (count : Nat) : Nat → Nat :=
  let w1 : Nat → Nat :=
    if bitof count ≠ 0 then
      Function.update w (wordof count) (w (wordof count) &&& bitmask (bitof count))
    else w
  (List.range' (wordof count + 1) (N - (wordof count + 1))).foldl
    (fun w i => Function.update w i 0) w1

/-- The method `insertop(i, n, v)` of the general `bitvecbase<N>`. -/
def insertop (w : Nat → Nat) (i n v : Nat) : Nat → Nat :=
  let lm : Nat := W64_shl (bitmask n) (bitof i)
  let w1 : Nat → Nat :=
    Function.update w (wordof i) ((w (wordof i) &&& W64_not lm) ||| (W64_shl v i &&& lm))
  if bitof i + n > BITS_PER_WORD then
    let hm : Nat := W64_shr (bitmask n) (BITS_PER_WORD - bitof i)
    Function.update w1 (wordof (i + 1))
      ((w1 (wordof (i + 1)) &&& W64_not hm) ||| (W64_shr v (BITS_PER_WORD - bitof i) &&& hm))
  else w1

/-- The method `accumop(i, n, v)` of the general `bitvecbase<N>`. -/
def accumop (w : Nat → Nat) (i n v : Nat) : Nat → Nat :=
  let w1 : Nat → Nat := Function.update w (wordof i) (w (wordof i) ||| W64_shl v i)
  if bitof i + n > BITS_PER_WORD then
    Function.update w1 (wordof (i + 1))
      (w1 (wordof (i + 1)) ||| W64_shr v (BITS_PER_WORD - bitof i))
  else w1

/-- The method `popcountop()` of the general `bitvecbase<N>`. -/
def popcountop (N : Nat) (w : Nat → Nat) : Nat :=
  foreach N (fun result i => result + popcountl (w i)) 0

end bitvecbase

/-- The methods of the specialisation `bitvecbase<1>`, whose only member is the word
`w`. -/
def bitvecbase1.getword (w : Nat) (_index : Nat) : Nat := w

/-- The method `shiftleftop(shift)` of `bitvecbase<1>`, `w <<= shift`. -/
def bitvecbase1.shiftleftop (w shift : Nat) : Nat := W64_shl w shift

/-- The method `shiftrightop(shift)` of `bitvecbase<1>`, `w >>= shift`. -/
def bitvecbase1.shiftrightop (w shift : Nat) : Nat := W64_shr w shift

/-- The method `maskop(count)` of `bitvecbase<1>`, `w &= bitmask(bitof(count))`. -/
def bitvecbase1.maskop (w count : Nat) : Nat := w &&& bitmask (bitvecbase.bitof count)

/-- The method `insertop(i, n, v)` of `bitvecbase<1>`. -/
def bitvecbase1.insertop (w i n v : Nat) : Nat :=
  let m : Nat := W64_shl (bitmask n) (bitvecbase.bitof i)
  (w &&& W64_not m) ||| (W64_shl v i &&& m)

/-- The method `accumop(i, n, v)` of `bitvecbase<1>`, `w |= (v << i)`. -/
def bitvecbase1.accumop (w i _n v : Nat) : Nat := w ||| W64_shl v i

/-- The vector `class bitvec<N>`: the words of its base `bitvecbase<BITVEC_WORDS(N)>`.
`w i` is the word `w[i]` of the general base; the only word `w` of `bitvecbase<1>` is
`w 0`; `bitvecbase<0>` has no word. -/
structure bitvec (N : Nat) where
  w : Nat → Nat

namespace bitvec

variable {N : Nat}

/-- The word `getword(index)` of a vector.  For `bitvecbase<0>` the word is a fresh
one that is not part of the vector; it is read as 0. -/
def getword (x : bitvec N) (index : Nat) : Nat :=
  if BITVEC_WORDS N = 0 then 0
  else if BITVEC_WORDS N = 1 then bitvecbase1.getword (x.w 0) index
  else bitvecbase.getword x.w index

/-- The assignment `getword(index) = v` through the reference that `getword`
returns; for `bitvecbase<0>` the word assigned is not part of the vector. -/
def setword (x : bitvec N) (index : Nat) (v : Nat) : bitvec N :=
  if BITVEC_WORDS N = 0 then x
  else if BITVEC_WORDS N = 1 then ⟨Function.update x.w 0 v⟩
  else ⟨Function.update x.w (bitvecbase.wordof index) v⟩

/-- The method `sanitize()`, `bitvec_sanitizer<N % BITS_PER_WORD>::sanitize(hiword())`. -/
def sanitize (x : bitvec N) : bitvec N :=
  if BITVEC_WORDS N = 0 then x
  else if BITVEC_WORDS N = 1 then
    ⟨Function.update x.w 0 (bitvec_sanitizer (N % BITS_PER_WORD) (x.w 0))⟩
  else
    ⟨Function.update x.w (BITVEC_WORDS N - 1)
      (bitvec_sanitizer (N % BITS_PER_WORD) (bitvecbase.hiword (BITVEC_WORDS N) x.w))⟩

/-- The method `resetop()` of the base. -/
def resetop (x : bitvec N) : bitvec N :=
  if BITVEC_WORDS N = 0 then x
  else if BITVEC_WORDS N = 1 then ⟨Function.update x.w 0 0⟩
  else ⟨bitvecbase.resetop (BITVEC_WORDS N) x.w⟩

/-- The constructor `bitvec(unsigned long long val)`: `base_t(val)`, then
`sanitize()`.  The general base resets every word and sets `w[0] = val`. -/
def init (N : Nat) (val : Nat) : bitvec N :=
  sanitize
    (if BITVEC_WORDS N = 0 then ⟨fun _ => 0⟩
     else if BITVEC_WORDS N = 1 then ⟨Function.update (fun _ => 0) 0 val⟩
     else ⟨Function.update (bitvecbase.resetop (BITVEC_WORDS N) fun _ => 0) 0 val⟩)

/-- The method `shiftleftop(shift)` of the base. -/
def shiftleftop (x : bitvec N) (shift : Nat) : Option (bitvec N) :=
  if BITVEC_WORDS N = 0 then some x
  else if BITVEC_WORDS N = 1 then
    some ⟨Function.update x.w 0 (bitvecbase1.shiftleftop (x.w 0) shift)⟩
  else (bitvecbase.shiftleftop (BITVEC_WORDS N) x.w shift).map fun w => ⟨w⟩

/-- The method `shiftrightop(shift)` of the base. -/
def shiftrightop (x : bitvec N) (shift : Nat) : Option (bitvec N) :=
  if BITVEC_WORDS N = 0 then some x
  else if BITVEC_WORDS N = 1 then
    some ⟨Function.update x.w 0 (bitvecbase1.shiftrightop (x.w 0) shift)⟩
  else (bitvecbase.shiftrightop (BITVEC_WORDS N) x.w shift).map fun w => ⟨w⟩

/-- The operator `<<=` with the `int` argument `index`: the vector after it, or
`none` when a loop of `shiftleftop` leaves the array.  The test `index < N` compares
`index` as a `size_t`. -/
def shiftleft_assign (x : bitvec N) (index : Int) : Option (bitvec N) :=
  if int_to_W64 index < N then (x.shiftleftop (int_to_W64 index)).map sanitize
  else some x.resetop

/-- The operator `>>=` with the `int` argument `index`. -/
def shiftright_assign (x : bitvec N) (index : Int) : Option (bitvec N) :=
  if int_to_W64 index < N then (x.shiftrightop (int_to_W64 index)).map sanitize
  else some x.resetop

/-- The operator `<<` with the `size_t` argument `shift`,
`bitvec<N>(*this) <<= shift`: the parameter of `<<=` is an `int`, so `shift` is
converted to `int` (its 32 low-order bits, in two's complement). -/
def shiftleft (x : bitvec N) (shift : Nat) : Option (bitvec N) :=
  x.shiftleft_assign (wrap32 (shift : Int))

/-- The operator `>>` with the `size_t` argument `shift`,
`bitvec<N>(*this) >>= shift`. -/
def shiftright (x : bitvec N) (shift : Nat) : Option (bitvec N) :=
  x.shiftright_assign (wrap32 (shift : Int))

/-- The method `set(index)`. -/
def set (x : bitvec N) (index : Nat) : bitvec N :=
  x.setword index (x.getword index ||| bitvecbase.maskof index)

/-- The method `reset(index)`. -/
def reset (x : bitvec N) (index : Nat) : bitvec N :=
  x.setword index (x.getword index &&& W64_not (bitvecbase.maskof index))

/-- The method `assign(index, val)`. -/
def assign (x : bitvec N) (index : Nat) (val : Int) : bitvec N :=
  if val ≠ 0 then x.setword index (x.getword index ||| bitvecbase.maskof index)
  else x.setword index (x.getword index &&& W64_not (bitvecbase.maskof index))

/-- The method `invert(index)`. -/
def invert (x : bitvec N) (index : Nat) : bitvec N :=
  x.setword index (x.getword index ^^^ bitvecbase.maskof index)

/-- The method `test(index)`. -/
def test (x : bitvec N) (index : Nat) : Bool :=
  (x.getword index &&& bitvecbase.maskof index) != 0

/-- The method `popcount()`. -/
def popcount (x : bitvec N) : Nat :=
  if BITVEC_WORDS N = 0 then 0
  else if BITVEC_WORDS N = 1 then popcountl (x.w 0)
  else bitvecbase.popcountop (BITVEC_WORDS N) x.w

/-- The method `insert(int i, int n, T v)`: `insertop(i, n, v)` on a copy, then
`sanitize()`. -/
def insert (x : bitvec N) (i n : Int) (v : Nat) : bitvec N :=
  sanitize
    (if BITVEC_WORDS N = 0 then x
     else if BITVEC_WORDS N = 1 then
       ⟨Function.update x.w 0
         (bitvecbase1.insertop (x.w 0) (int_to_W64 i) (int_to_W64 n) v)⟩
     else ⟨bitvecbase.insertop x.w (int_to_W64 i) (int_to_W64 n) v⟩)

/-- The method `accum(i, n, v)`: `accumop(i, n, v)` on a copy. -/
def accum (x : bitvec N) (i n v : Nat) : bitvec N :=
  if BITVEC_WORDS N = 0 then x
  else if BITVEC_WORDS N = 1 then ⟨Function.update x.w 0 (bitvecbase1.accumop (x.w 0) i n v)⟩
  else ⟨bitvecbase.accumop x.w i n v⟩

/-- The method `mask(count)`: `maskop(count)` on a copy. -/
def mask (x : bitvec N) (count : Nat) : bitvec N :=
  if BITVEC_WORDS N = 0 then x
  else if BITVEC_WORDS N = 1 then ⟨Function.update x.w 0 (bitvecbase1.maskop (x.w 0) count)⟩
  else ⟨bitvecbase.maskop (BITVEC_WORDS N) x.w count⟩

/-- The bit at position `k` of the words of a vector. -/
def bit (x : bitvec N) (k : Nat) : Bool := (x.w (k / 64)).testBit (k % 64)

/-- The words of a vector are 64-bit words, and the bits of the top word at the
positions `N` and above are clear. -/
def sanitized (x : bitvec N) : Prop :=
  (∀ j, j < BITVEC_WORDS N → x.w j < 2 ^ 64)
    ∧ ∀ k, k < 64 * BITVEC_WORDS N → N ≤ k → x.bit k = false

end bitvec

/-- A vector of 130 bits for examples (three words): the bits 0, 63, 64 to 127 and
129 are set. -/
def bitvec.sample : bitvec 130 :=
  ⟨fun i => if i = 0 then 0x8000000000000001 else if i = 1 then 0xffffffffffffffff
    else if i = 2 then 2 else 0⟩

/-! ## Flags, condition codes, exceptions and opcode classes -/

/-- The flag mask `FLAG_CF`. -/
def FLAG_CF : Nat := 0x001

/-- The flag mask `FLAG_INV`. -/
def FLAG_INV : Nat := 0x002

/-- The flag mask `FLAG_PF`. -/
def FLAG_PF : Nat := 0x004

/-- The flag mask `FLAG_WAIT`. -/
def FLAG_WAIT : Nat := 0x008

/-- The flag mask `FLAG_AF`. -/
def FLAG_AF : Nat := 0x010

/-- The flag mask `FLAG_ZF`. -/
def FLAG_ZF : Nat := 0x040

/-- The flag mask `FLAG_SF`. -/
def FLAG_SF : Nat := 0x080

/-- The flag mask `FLAG_OF`. -/
def FLAG_OF : Nat := 0x800

/-- The flag mask `FLAG_SF_ZF`. -/
def FLAG_SF_ZF : Nat := 0x0c0

/-- The flag mask `FLAG_ZAPS`. -/
def FLAG_ZAPS : Nat := 0x0d4

/-- The flag mask `FLAG_NOT_WAIT_INV`. -/
def FLAG_NOT_WAIT_INV : Nat := 0x08f5

/-- The condition code `COND_o`. -/
def COND_o : Int := 0

/-- The condition code `COND_no`. -/
def COND_no : Int := 1

/-- The condition code `COND_c`. -/
def COND_c : Int := 2

/-- The condition code `COND_nc`. -/
def COND_nc : Int := 3

/-- The condition code `COND_e`. -/
def COND_e : Int := 4

/-- The condition code `COND_ne`. -/
def COND_ne : Int := 5

/-- The condition code `COND_be`. -/
def COND_be : Int := 6

/-- The condition code `COND_nbe`. -/
def COND_nbe : Int := 7

/-- The condition code `COND_s`. -/
def COND_s : Int := 8

/-- The condition code `COND_ns`. -/
def COND_ns : Int := 9

/-- The condition code `COND_p`. -/
def COND_p : Int := 10

/-- The condition code `COND_np`. -/
def COND_np : Int := 11

/-- The condition code `COND_l`. -/
def COND_l : Int := 12

/-- The condition code `COND_nl`. -/
def COND_nl : Int := 13

/-- The condition code `COND_le`. -/
def COND_le : Int := 14

/-- The condition code `COND_nle`. -/
def COND_nle : Int := 15

/-- The function `invert_cond(cond)`, `cond ^ 1` on `int`. -/
def invert_cond (cond : Int) : Int := Int.xor cond 1

/-- The enumerator `EXCEPTION_COUNT`, which follows the fourteen exceptions
`EXCEPTION_NoException` (0) to `EXCEPTION_FloatingPointNotAvailable` (13). -/
def EXCEPTION_COUNT : Nat := 14

/-- The read `table[index]` of a C array of `size` elements at an `int` or `W64`
index: `none` when the index is outside the array. -/
def array_read {α : Type} (table : Nat → α) (size : Nat) (index : Int) : Option α :=
  if 0 ≤ index ∧ index < size then some (table index.toNat) else none

/-- The function `exception_name(exception)`; the table `exception_names`, defined
in another file, is a parameter. -/
def exception_name (exception_names : Nat → String) (exception : Nat) : Option String :=
  if exception < EXCEPTION_COUNT then
    array_read exception_names EXCEPTION_COUNT (exception : Int)
  else some "Unknown"

/-- The comma operator `(left, right)` of C: `left` is evaluated and discarded, the
value is `right`. -/
def comma_operator {α β : Type} (_left : α) (right : β) : β := right

/-- The class bit `OPCLASS_FP_ALU`. -/
def OPCLASS_FP_ALU : Nat := 1 <<< 19

/-- The class bit `OPCLASS_FP_DIVSQRT`. -/
def OPCLASS_FP_DIVSQRT : Nat := 1 <<< 20

/-- The class bit `OPCLASS_FP_COMPARE`. -/
def OPCLASS_FP_COMPARE : Nat := 1 <<< 21

/-- The class bit `OPCLASS_FP_PERMUTE`. -/
def OPCLASS_FP_PERMUTE : Nat := 1 <<< 22

/-- The class bit `OPCLASS_FP_CONVERTI2F`. -/
def OPCLASS_FP_CONVERTI2F : Nat := 1 <<< 23

/-- The class bit `OPCLASS_FP_CONVERTF2I`. -/
def OPCLASS_FP_CONVERTF2I : Nat := 1 <<< 24

/-- The class bit `OPCLASS_FP_CONVERTFP`. -/
def OPCLASS_FP_CONVERTFP : Nat := 1 <<< 25

/-- The macro `OPCLASS_FP`: `(OPCLASS_FP_ALU | OPCLASS_FP_DIVSQRT | OPCLASS_FP_COMPARE |
OPCLASS_FP_PERMUTE | OPCLASS_FP_CONVERTI2F | OPCLASS_FP_CONVERTF2I, OPCLASS_FP_CONVERTFP)`,
with a comma before its last operand. -/
def OPCLASS_FP : Nat :=
  comma_operator
    (OPCLASS_FP_ALU ||| OPCLASS_FP_DIVSQRT ||| OPCLASS_FP_COMPARE ||| OPCLASS_FP_PERMUTE
      ||| OPCLASS_FP_CONVERTI2F ||| OPCLASS_FP_CONVERTF2I)
    OPCLASS_FP_CONVERTFP

/-- The record `struct OpcodeInfo`. -/
structure OpcodeInfo where
  name : String
  opclass : Nat
  latency : Nat
  flagops : Nat
  fu : Nat

/-- The function `isclass(opcode, opclass)`; the table `opinfo`, defined in another
file, is a parameter. -/
def isclass (opinfo : Nat → OpcodeInfo) (opcode : Int) (opclass : Nat) : Option Bool :=
  (array_read opinfo OP_MAX_OPCODE opcode).map fun info => (info.opclass &&& opclass) != 0

/-- The function `nameof(opcode)`. -/
def nameof (opinfo : Nat → OpcodeInfo) (opcode : Int) : Option String :=
  if opcode < OP_MAX_OPCODE then
    (array_read opinfo OP_MAX_OPCODE opcode).map fun info => info.name
  else some "INVALID"

/-- A table `opinfo` for examples: the opcode `i` has the name of its enumerator
without the prefix `OP_`; the opcodes 65 to 78 (`OP_addf` to `OP_permf`) have the
class `OPCLASS_FP_ALU`, the opcodes from 79 on have the class
`OPCLASS_FP_CONVERTFP`, the others have no class bit. -/
def opinfo_sample (i : Nat) : OpcodeInfo :=
  ⟨((opcode_enumerators.getD i "OP_").drop 3),
    if 65 ≤ i ∧ i ≤ 78 then OPCLASS_FP_ALU else if 79 ≤ i then OPCLASS_FP_CONVERTFP else 0,
    1, 0, 0⟩

/-! ## Control words of the mask and byte-permute uops -/

/-- The value of the bit-field of `width` bits at bit `pos` of the word `data`. -/
def bitfield_read (data pos width : Nat) : Nat := (data >>> pos) % 2 ^ width

/-- The word `data` after the store of the integer `v` into its bit-field of `width`
bits at bit `pos`: the bits of the field are cleared (`data ^^^ (data &&& m)` is
`data & ~m` for the mask `m` of the field) and `v` modulo `2^width` is put there;
the other bits are kept. -/
def bitfield_write (data pos width : Nat) (v : Int) : Nat :=
  (data ^^^ (data &&& ((2 ^ width - 1) <<< pos))) ||| ((v % 2 ^ width).toNat <<< pos)

/-- The conversion of an `int` to `W32`. -/
def int_to_W32 (x : Int) : Nat := (x % 2 ^ 32).toNat

/-- The union `MaskControlInfo`: its `W32` word `data`; the member `info` is the
three bit-fields `ms:6, mc:6, ds:6` of that word, from bit 0 upwards. -/
structure MaskControlInfo where
  data : Nat

namespace MaskControlInfo

/-- The field `info.ms`. -/
def ms (u : MaskControlInfo) : Nat := bitfield_read u.data 0 6

/-- The field `info.mc`. -/
def mc (u : MaskControlInfo) : Nat := bitfield_read u.data 6 6

/-- The field `info.ds`. -/
def ds (u : MaskControlInfo) : Nat := bitfield_read u.data 12 6

/-- The constructor `MaskControlInfo(W32 data)`. -/
def init_data (data : Nat) : MaskControlInfo := ⟨data⟩

/-- The constructor `MaskControlInfo(int ms, int mc, int ds)` on the storage `self`,
which holds whatever it held before: the three fields are assigned. -/
def init_fields (self : MaskControlInfo) (ms mc ds : Int) : MaskControlInfo :=
  let u : MaskControlInfo := ⟨bitfield_write self.data 0 6 ms⟩
  let u : MaskControlInfo := ⟨bitfield_write u.data 6 6 mc⟩
  ⟨bitfield_write u.data 12 6 ds⟩

end MaskControlInfo

/-- The function `make_mask_control_info(ms, mc, ds)`:
`(ms) | (mc << 6) | (ds << 12)` on `int`, returned as a `W32`. -/
def make_mask_control_info (ms mc ds : Int) : Nat :=
  int_to_W32 (Int.lor (Int.lor ms (int_shl mc 6)) (int_shl ds 12))

/-- The union `PermbControlInfo`: its `W32` word `data`; the member `info` is the
eight bit-fields `b0:4` to `b7:4` of that word, from bit 0 upwards. -/
structure PermbControlInfo where
  data : Nat

namespace PermbControlInfo

/-- The field `info.b0` (`k = 0`) to `info.b7` (`k = 7`): nibble `k` of the word. -/
def nibble (u : PermbControlInfo) (k : Nat) : Nat := bitfield_read u.data (4 * k) 4

/-- The constructor `PermbControlInfo(b7, b6, b5, b4, b3, b2, b1, b0)` on the storage
`self`: the eight fields are assigned, `info.b0` first. -/
def init_fields (self : PermbControlInfo) (b7 b6 b5 b4 b3 b2 b1 b0 : Int) :
    PermbControlInfo :=
  let u : PermbControlInfo := ⟨bitfield_write self.data 0 4 b0⟩
  let u : PermbControlInfo := ⟨bitfield_write u.data 4 4 b1⟩
  let u : PermbControlInfo := ⟨bitfield_write u.data 8 4 b2⟩
  let u : PermbControlInfo := ⟨bitfield_write u.data 12 4 b3⟩
  let u : PermbControlInfo := ⟨bitfield_write u.data 16 4 b4⟩
  let u : PermbControlInfo := ⟨bitfield_write u.data 20 4 b5⟩
  let u : PermbControlInfo := ⟨bitfield_write u.data 24 4 b6⟩
  ⟨bitfield_write u.data 28 4 b7⟩

end PermbControlInfo

/-! ## The segment descriptor cache -/

/-- The record `struct SegmentDescriptorCache`: `W32 selector;
W32 present:1, use64:1, use32:1, supervisor:1, dpl:2; W64 base; W64 limit;`. -/
structure SegmentDescriptorCache where
  selector : Nat
  present : Fin (2 ^ 1)
  use64 : Fin (2 ^ 1)
  use32 : Fin (2 ^ 1)
  supervisor : Fin (2 ^ 1)
  dpl : Fin (2 ^ 2)
  base : Nat
  limit : Nat
deriving DecidableEq

namespace SegmentDescriptorCache

/-- The operator `=` with a `SegmentDescriptor` on the right. -/
def assign (self : SegmentDescriptorCache) (desc : SegmentDescriptor) :
    SegmentDescriptorCache :=
  let c : SegmentDescriptorCache := { self with present := bitfield_of_nat 1 desc.p.val }
  let c : SegmentDescriptorCache := { c with use64 := bitfield_of_nat 1 desc.l.val }
  let c : SegmentDescriptorCache := { c with use32 := bitfield_of_nat 1 desc.d.val }
  let c : SegmentDescriptorCache := { c with supervisor := bitfield_of_nat 1 desc.s.val }
  let c : SegmentDescriptorCache := { c with dpl := bitfield_of_nat 2 desc.dpl.val }
  let c : SegmentDescriptorCache := { c with base := desc.getbase }
  { c with limit := desc.getlimit }

/-- The method `flatten()`. -/
def flatten (self : SegmentDescriptorCache) : SegmentDescriptorCache :=
  let c : SegmentDescriptorCache := { self with present := bitfield_of_nat 1 1 }
  let c : SegmentDescriptorCache := { c with use64 := bitfield_of_nat 1 1 }
  let c : SegmentDescriptorCache := { c with use32 := bitfield_of_nat 1 0 }
  let c : SegmentDescriptorCache := { c with supervisor := bitfield_of_nat 1 0 }
  let c : SegmentDescriptorCache := { c with dpl := bitfield_of_nat 2 3 }
  let c : SegmentDescriptorCache := { c with base := 0 }
  { c with limit := 0xffffffffffffffff }

end SegmentDescriptorCache

/-! ## `tempbuf` -/

/-- The buffer `class tempbuf<T>`: `mem i` is the element `base[i]`, and `data` and
`endp` are the pointers of these names as element offsets from `base`. -/
structure tempbuf (T : Type) where
  mem : Int → T
  data : Int
  endp : Int

namespace tempbuf

variable {T : Type}

/-- The method `size()`, `(data - base)` as an `int`; `count()` is the same. -/
def size (b : tempbuf T) : Int := wrap32 b.data

/-- The method `capacity()`, `(endp - base)` as an `int`. -/
def capacity (b : tempbuf T) : Int := wrap32 b.endp

/-- The method `push(obj)`, `*data++ = obj; return obj;`: the value returned and the
buffer after the call. -/
def push (b : tempbuf T) (obj : T) : T × tempbuf T :=
  (obj, { b with mem := Function.update b.mem b.data obj, data := b.data + 1 })

/-- The method `pop()`, `return *data--;`: the element returned and the buffer after
the call. -/
def pop (b : tempbuf T) : T × tempbuf T :=
  (b.mem b.data, { b with data := b.data - 1 })

/-- The operator `buf << v`, `buf.push(v)`. -/
def shl (buf : tempbuf T) (v : T) : T × tempbuf T := buf.push v

/-- The operator `buf >> v`, `v = buf.pop()`: the value assigned to `v` and the
buffer after the call. -/
def shr (buf : tempbuf T) : T × tempbuf T := buf.pop

/-- A buffer for examples, as `resize(512)` leaves a `tempbuf<W64>`: a fresh mapping
of one page, every element zero, and no element pushed. -/
def sample : tempbuf Nat := ⟨fun _ => 0, 0, 512⟩

end tempbuf

/-! ## The entries of a ChunkHashtable -/

/-- The number of occupied slots of a chunk, which `print()` lists. -/
def ChunkHashtableBlock.used {T : Type} (entries_per_chunk : Nat)
    (c : ChunkHashtableBlock T) : Nat :=
  (List.range entries_per_chunk).countP fun i => !c.freemap.testBit i

/-- The method `clear()` of `ChunkHashtable`: every chunk of every set is unlinked and
deleted, `count = 0`. -/
def ChunkHashtable.clear {T : Type} (setcount : Nat) (ht : ChunkHashtable T) :
    ChunkHashtable T :=
  ⟨0, fun i => if i < setcount then [] else ht.sets i⟩

/-- The number of entries stored in a table of `setcount` sets: the occupied slots
of the chunks of its sets, which `print()` lists. -/
def ChunkHashtable.entries {T : Type} (setcount entries_per_chunk : Nat)
    (ht : ChunkHashtable T) : Nat :=
  ((List.range setcount).map fun i =>
    ((ht.sets i).map fun chunk => chunk.used entries_per_chunk).sum).sum

/-- A sequence of calls for examples, on a table of 64 sets with `W64` keys: the
keys 1 and 65 fall into set 1, and key 1 is added twice. -/
def Hashtable.sample_calls : List (HashtableCall Nat Nat) :=
  [.add 1 10, .add 65 20, .add 2 40, .add 1 30, .remove 2]

/-- A page-table walker for examples: every page is mapped, present, to the frame
whose number is the page number plus the frame number of the top-level table. -/
def offset_walk (rawvirt toplevel_mfn : Nat) : Level1PTE :=
  { Level1PTE.zero with
    p := true
    mfn := ⟨(rawvirt / 4096 + toplevel_mfn) % 2 ^ 51, Nat.mod_lt _ (by decide)⟩ }

/-- A context for examples: page-table base `cr3`, every slot of the mini-cache
invalid. -/
def Context.cold (cr3 : Nat) : Context Unit :=
  ⟨cr3, fun _ => 0xffffffffffffffff, fun _ => Level1PTE.zero, ()⟩

/-- A context for examples: slot 0 caches page `0x0` and slot 1 caches page
`0x1000`, both as `offset_walk` resolves them with `cr3 = 0x5000`. -/
def Context.two_pages : Context Unit :=
  (((Context.cold 0x5000).virt_to_pte offset_walk 0x10).ctx.virt_to_pte offset_walk 0x1020).ctx

end PTLsim

namespace PTLsim

/-! ## Theorems: RIPVirtPhys -/

/-- Two numbers written as a digit below `B` plus `B` times a rest are equal only
if digits and rests are. -/
theorem digit_split {B a a' x y : Nat} (ha : a < B) (ha' : a' < B)
    (h : a + B * x = a' + B * y) : a = a' ∧ x = y := by
  have hB : 0 < B := by omega
  have h1 : (a + B * x) % B = (a' + B * y) % B := by rw [h]
  rw [Nat.add_mul_mod_self_left, Nat.add_mul_mod_self_left, Nat.mod_eq_of_lt ha,
    Nat.mod_eq_of_lt ha'] at h1
  subst h1
  exact ⟨rfl, Nat.eq_of_mul_eq_mul_left hB (Nat.add_left_cancel h)⟩

theorem RIPVirtPhys.word1_inj (a b : RIPVirtPhys) (h : a.word1 = b.word1) :
    a.mfnlo = b.mfnlo ∧ a.use64 = b.use64 ∧ a.kernel = b.kernel ∧ a.padlo = b.padlo
      ∧ a.mfnhi = b.mfnhi ∧ a.df = b.df ∧ a.padhi = b.padhi := by
  obtain ⟨r1, m1, u1, k1, p1, n1, d1, q1⟩ := a
  obtain ⟨r2, m2, u2, k2, p2, n2, d2, q2⟩ := b
  simp only [RIPVirtPhys.word1] at h
  have e1 : ∀ m u k p n d q : Nat,
      m + 2 ^ 28 * u + 2 ^ 29 * k + 2 ^ 30 * p + 2 ^ 32 * n + 2 ^ 60 * d + 2 ^ 61 * q
        = m + 2 ^ 28 * (u + 2 ^ 1 * (k + 2 ^ 1 * (p + 2 ^ 2 * (n + 2 ^ 28 * (d + 2 ^ 1 * q))))) := by
    intro m u k p n d q; ring
  rw [e1, e1] at h
  obtain ⟨h1, h⟩ := digit_split m1.isLt m2.isLt h
  obtain ⟨h2, h⟩ := digit_split u1.isLt u2.isLt h
  obtain ⟨h3, h⟩ := digit_split k1.isLt k2.isLt h
  obtain ⟨h4, h⟩ := digit_split p1.isLt p2.isLt h
  obtain ⟨h5, h⟩ := digit_split n1.isLt n2.isLt h
  obtain ⟨h6, h⟩ := digit_split d1.isLt d2.isLt h
  exact ⟨Fin.ext h1, Fin.ext h2, Fin.ext h3, Fin.ext h4, Fin.ext h5, Fin.ext h6, Fin.ext h⟩

/-- With `PTLSIM_HYPERVISOR`, `operator ==` holds exactly for keys all of whose
fields agree. -/
theorem RIPVirtPhys.eq_hypervisor_iff (a b : RIPVirtPhys) :
    RIPVirtPhys.eq true a b = true ↔ a = b := by
  constructor
  · intro h
    simp only [RIPVirtPhys.eq, if_true, Bool.and_eq_true, decide_eq_true_eq] at h
    obtain ⟨h0, h1⟩ := h
    obtain ⟨e1, e2, e3, e4, e5, e6, e7⟩ := RIPVirtPhys.word1_inj a b h1
    have e0 : a.rip = b.rip := Fin.ext h0
    cases a; cases b; simp_all
  · rintro rfl
    simp [RIPVirtPhys.eq]

/-- C1 (as amended): `a == b` holds exactly when every field of the two keys agrees
(`rip`, `mfnlo`, `mfnhi`, `use64`, `kernel`, `df` and the pad bits) in the build
with `PTLSIM_HYPERVISOR`; in the build without it `a == b` holds exactly when the
two `rip` fields agree. -/
theorem C1_operator_eq_by_build (hypervisor : Bool) (a b : RIPVirtPhys) :
    RIPVirtPhys.eq hypervisor a b = true ↔
      (if hypervisor then a = b else a.rip = b.rip) := by
  cases hypervisor
  · simp [RIPVirtPhys.eq]
  · simpa using RIPVirtPhys.eq_hypervisor_iff a b

/-- C1 (as stated) fails without `PTLSIM_HYPERVISOR`: two keys with `rip = 0x1000`
that differ in `use64` compare equal. -/
theorem C1_userspace_eq_ignores_use64 :
    RIPVirtPhys.eq false ⟨0x1000, 5, 1, 0, 0, 6, 0, 0⟩ ⟨0x1000, 5, 0, 0, 0, 6, 0, 0⟩ = true
      ∧ (⟨0x1000, 5, 1, 0, 0, 6, 0, 0⟩ : RIPVirtPhys).use64
          ≠ (⟨0x1000, 5, 0, 0, 0, 6, 0, 0⟩ : RIPVirtPhys).use64 := by
  constructor
  · rfl
  · decide

/-! ## Theorems: the address-translation mini-cache -/

/-- The slot of an address is its virtual page number modulo 16. -/
theorem slot_eq (v : Nat) : lowbits (v >>> 12) (log2 PTE_CACHE_SIZE) = (v / 4096) % 16 := by
  simp only [lowbits, Nat.shiftRight_eq_div_pow]
  rfl

/-- Rounding down to the page size gives the multiple of 4096 below the address. -/
theorem floor_page_eq (v : Nat) : floor v PAGE_SIZE = 4096 * (v / 4096) := by
  simp only [floor, PAGE_SIZE]
  omega

/-- A cache hit: the tag of the slot is the page of the address. -/
theorem Context.virt_to_pte_hit {R : Type} (walk : Nat → Nat → Level1PTE) (ctx : Context R)
    (v : Nat) (h : ctx.cached_pte_virt ((v / 4096) % 16) = 4096 * (v / 4096)) :
    ctx.virt_to_pte walk v = ⟨ctx.cached_pte ((v / 4096) % 16), ctx, []⟩ := by
  simp [Context.virt_to_pte, slot_eq, floor_page_eq, h]

/-- A cache miss: the tag of the slot is not the page of the address. -/
theorem Context.virt_to_pte_miss {R : Type} (walk : Nat → Nat → Level1PTE) (ctx : Context R)
    (v : Nat) (h : ctx.cached_pte_virt ((v / 4096) % 16) ≠ 4096 * (v / 4096)) :
    ctx.virt_to_pte walk v =
      ⟨walk v (ctx.cr3 >>> 12),
        { ctx with
          cached_pte_virt := Function.update ctx.cached_pte_virt ((v / 4096) % 16) (4096 * (v / 4096))
          cached_pte := Function.update ctx.cached_pte ((v / 4096) % 16) (walk v (ctx.cr3 >>> 12)) },
        [(v, ctx.cr3 >>> 12)]⟩ := by
  simp [Context.virt_to_pte, slot_eq, floor_page_eq, h]

/-- C2: with `slot = (v >> 12) mod 16`, if `cached_pte_virt[slot]` is `v` rounded down
to a multiple of 4096 then `virt_to_pte(v)` returns `cached_pte[slot]`, walks no page
table and changes nothing; otherwise it calls `page_table_walk(v, cr3 >> 12)` exactly
once, stores the result in `cached_pte[slot]`, sets `cached_pte_virt[slot]` to the
rounded address and returns the stored result. -/
theorem C2_virt_to_pte_hit_or_single_walk {R : Type} (walk : Nat → Nat → Level1PTE)
    (ctx : Context R) (v : Nat) :
    if ctx.cached_pte_virt ((v >>> 12) % 16) = 4096 * (v / 4096) then
      (ctx.virt_to_pte walk v).pte = ctx.cached_pte ((v >>> 12) % 16)
        ∧ (ctx.virt_to_pte walk v).walks = []
        ∧ (ctx.virt_to_pte walk v).ctx = ctx
    else
      (ctx.virt_to_pte walk v).walks = [(v, ctx.cr3 >>> 12)]
        ∧ (ctx.virt_to_pte walk v).ctx.cached_pte ((v >>> 12) % 16) = walk v (ctx.cr3 >>> 12)
        ∧ (ctx.virt_to_pte walk v).ctx.cached_pte_virt ((v >>> 12) % 16) = 4096 * (v / 4096)
        ∧ (ctx.virt_to_pte walk v).pte
            = (ctx.virt_to_pte walk v).ctx.cached_pte ((v >>> 12) % 16) := by
  have hs : v >>> 12 = v / 4096 := by simp [Nat.shiftRight_eq_div_pow]
  rw [hs]
  split
  · next h => rw [Context.virt_to_pte_hit walk ctx v h]; exact ⟨rfl, rfl, rfl⟩
  · next h => rw [Context.virt_to_pte_miss walk ctx v h]; simp

/-- C3: when the slot of `v` does not hold the page of `v`, two calls of
`virt_to_pte(v)` in a row make exactly one page-table walk: the first call walks, the
second is a hit that walks nothing, returns the entry of the first call and leaves
the context as the first call left it. -/
theorem C3_second_lookup_hits {R : Type} (walk : Nat → Nat → Level1PTE)
    (ctx : Context R) (v : Nat)
    (hmiss : ctx.cached_pte_virt ((v >>> 12) % 16) ≠ 4096 * (v / 4096)) :
    (ctx.virt_to_pte walk v).walks = [(v, ctx.cr3 >>> 12)]
      ∧ ((ctx.virt_to_pte walk v).ctx.virt_to_pte walk v).walks = []
      ∧ ((ctx.virt_to_pte walk v).ctx.virt_to_pte walk v).pte = (ctx.virt_to_pte walk v).pte
      ∧ ((ctx.virt_to_pte walk v).ctx.virt_to_pte walk v).ctx = (ctx.virt_to_pte walk v).ctx
      ∧ ((ctx.virt_to_pte walk v).walks
          ++ ((ctx.virt_to_pte walk v).ctx.virt_to_pte walk v).walks).length = 1 := by
  have hs : v >>> 12 = v / 4096 := by simp [Nat.shiftRight_eq_div_pow]
  rw [hs] at hmiss
  rw [Context.virt_to_pte_miss walk ctx v hmiss]
  rw [Context.virt_to_pte_hit walk _ v (by simp)]
  simp

/-- Witness of C3: in a cold context the address `0x7123` is walked once by two
lookups in a row. -/
theorem C3_second_lookup_hits_witness :
    (Context.cold 0x5000).cached_pte_virt ((0x7123 >>> 12) % 16) ≠ 4096 * (0x7123 / 4096)
      ∧ ((((Context.cold 0x5000).virt_to_pte offset_walk 0x7123).walks
          ++ (((Context.cold 0x5000).virt_to_pte offset_walk 0x7123).ctx.virt_to_pte
                offset_walk 0x7123).walks).length = 1) :=
  ⟨by decide, (C3_second_lookup_hits offset_walk (Context.cold 0x5000) 0x7123 (by decide)).2.2.2.2⟩

/-- The coherence condition of the mini-cache: every slot whose tag is a page holds
what the walk from the current `cr3` gives for that page. -/
theorem Context.coherent_after_lookup {R : Type} (walk : Nat → Nat → Level1PTE)
    (ctx : Context R) (v : Nat)
    (hpage : ∀ a b m, a / 4096 = b / 4096 → walk a m = walk b m)
    (hcoh : ∀ i, i < 16 → ∀ t, ctx.cached_pte_virt i = 4096 * t →
      ctx.cached_pte i = walk (4096 * t) (ctx.cr3 >>> 12)) :
    ∀ i, i < 16 → ∀ t, (ctx.virt_to_pte walk v).ctx.cached_pte_virt i = 4096 * t →
      (ctx.virt_to_pte walk v).ctx.cached_pte i
        = walk (4096 * t) ((ctx.virt_to_pte walk v).ctx.cr3 >>> 12) := by
  intro i hi t ht
  by_cases h : ctx.cached_pte_virt ((v / 4096) % 16) = 4096 * (v / 4096)
  · rw [Context.virt_to_pte_hit walk ctx v h] at ht ⊢
    exact hcoh i hi t ht
  · rw [Context.virt_to_pte_miss walk ctx v h] at ht ⊢
    simp only at ht ⊢
    by_cases hslot : i = (v / 4096) % 16
    · subst hslot
      rw [Function.update_same] at ht ⊢
      have : v / 4096 = t := by omega
      subst this
      exact hpage _ _ _ (by omega)
    · rw [Function.update_noteq hslot] at ht ⊢
      exact hcoh i hi t ht

/-- C4: if the walk result depends only on the virtual page and every slot whose tag
is a page `t` holds `page_table_walk(t, cr3 >> 12)`, then `virt_to_pte(v)` returns
exactly `page_table_walk(v, cr3 >> 12)`, the result of the variant without the
mini-TLB, and the coherence condition holds for all 16 slots after the call. -/
theorem C4_cached_lookup_refines_walk {R : Type} (walk : Nat → Nat → Level1PTE)
    (ctx : Context R) (v : Nat)
    (hpage : ∀ a b m, a / 4096 = b / 4096 → walk a m = walk b m)
    (hcoh : ∀ i, i < 16 → ∀ t, ctx.cached_pte_virt i = 4096 * t →
      ctx.cached_pte i = walk (4096 * t) (ctx.cr3 >>> 12)) :
    (ctx.virt_to_pte walk v).pte = ctx.virt_to_pte_uncached walk v
      ∧ (ctx.virt_to_pte walk v).pte = walk v (ctx.cr3 >>> 12)
      ∧ ∀ i, i < 16 → ∀ t, (ctx.virt_to_pte walk v).ctx.cached_pte_virt i = 4096 * t →
          (ctx.virt_to_pte walk v).ctx.cached_pte i
            = walk (4096 * t) ((ctx.virt_to_pte walk v).ctx.cr3 >>> 12) := by
  have hret : (ctx.virt_to_pte walk v).pte = walk v (ctx.cr3 >>> 12) := by
    by_cases h : ctx.cached_pte_virt ((v / 4096) % 16) = 4096 * (v / 4096)
    · rw [Context.virt_to_pte_hit walk ctx v h]
      simp only
      rw [hcoh _ (Nat.mod_lt _ (by decide)) _ h]
      exact hpage _ _ _ (by omega)
    · rw [Context.virt_to_pte_miss walk ctx v h]
  exact ⟨hret, hret, Context.coherent_after_lookup walk ctx v hpage hcoh⟩

/-- The example walker depends on the address only through its page. -/
theorem offset_walk_page (a b m : Nat) (h : a / 4096 = b / 4096) :
    offset_walk a m = offset_walk b m := by
  simp [offset_walk, h]

/-- The example context with two cached pages is coherent with the example walker. -/
theorem Context.two_pages_coherent (i : Nat) (hi : i < 16) (t : Nat)
    (ht : Context.two_pages.cached_pte_virt i = 4096 * t) :
    Context.two_pages.cached_pte i = offset_walk (4096 * t) (Context.two_pages.cr3 >>> 12) := by
  have h0 : ∀ j, j < 16 → ∀ u, (Context.cold 0x5000).cached_pte_virt j = 4096 * u →
      (Context.cold 0x5000).cached_pte j
        = offset_walk (4096 * u) ((Context.cold 0x5000).cr3 >>> 12) := by
    intro j _ u hu
    simp only [Context.cold] at hu
    omega
  have h1 := Context.coherent_after_lookup offset_walk (Context.cold 0x5000) 0x10
    offset_walk_page h0
  exact Context.coherent_after_lookup offset_walk _ 0x1020 offset_walk_page h1 i hi t ht

/-- Witness of C4: in the example context, which caches the page of `0x1020`, the
lookup of `0x1fff` returns what the walk returns. -/
theorem C4_cached_lookup_refines_walk_witness :
    (∀ a b m, a / 4096 = b / 4096 → offset_walk a m = offset_walk b m)
      ∧ (∀ i, i < 16 → ∀ t, Context.two_pages.cached_pte_virt i = 4096 * t →
          Context.two_pages.cached_pte i
            = offset_walk (4096 * t) (Context.two_pages.cr3 >>> 12))
      ∧ (Context.two_pages.virt_to_pte offset_walk 0x1fff).pte
          = Context.two_pages.virt_to_pte_uncached offset_walk 0x1fff :=
  ⟨offset_walk_page, Context.two_pages_coherent,
    (C4_cached_lookup_refines_walk offset_walk Context.two_pages 0x1fff offset_walk_page
      Context.two_pages_coherent).1⟩

/-- C5 (as stated) fails: in the example context slot 1 holds page `0x1000`, which is
not the page of the address `0x0`, and `flush_tlb_virt(0x0)` changes the tag and the
entry of slot 1 all the same. -/
theorem C5_flush_tlb_virt_touches_other_slot :
    Context.two_pages.cached_pte_virt 1 = 0x1000
      ∧ Context.two_pages.cached_pte_virt 1 ≠ 4096 * (0x0 / 4096)
      ∧ (Context.two_pages.flush_tlb_virt 0x0).cached_pte_virt 1
          ≠ Context.two_pages.cached_pte_virt 1
      ∧ (Context.two_pages.flush_tlb_virt 0x0).cached_pte 1
          ≠ Context.two_pages.cached_pte 1 := by
  refine ⟨by decide, by decide, by decide, by decide⟩

/-- C5 (as amended): `flush_tlb_virt(v)` does what `flush_tlb()` does, whatever `v` is:
it invalidates every slot of the mini-cache, so that the next lookup of any address
walks the page table; `cr3` and the fields outside the mini-cache are unchanged. -/
theorem C5_flush_tlb_virt_flushes_all {R : Type} (ctx : Context R) (v : Nat) :
    ctx.flush_tlb_virt v = ctx.flush_tlb
      ∧ (∀ i, i < 16 → (ctx.flush_tlb_virt v).cached_pte_virt i = 0xffffffffffffffff
          ∧ (ctx.flush_tlb_virt v).cached_pte i = Level1PTE.zero)
      ∧ (ctx.flush_tlb_virt v).cr3 = ctx.cr3
      ∧ (ctx.flush_tlb_virt v).rest = ctx.rest
      ∧ ∀ (walk : Nat → Nat → Level1PTE) (w : Nat),
          ((ctx.flush_tlb_virt v).virt_to_pte walk w).walks = [(w, ctx.cr3 >>> 12)] := by
  refine ⟨rfl, ?_, rfl, rfl, ?_⟩
  · intro i hi
    simp [Context.flush_tlb_virt, Context.flush_tlb, PTE_CACHE_SIZE, hi]
  · intro walk w
    rw [Context.virt_to_pte_miss]
    · rfl
    · have hlt : (w / 4096) % 16 < 16 := Nat.mod_lt _ (by decide)
      simp only [Context.flush_tlb_virt, Context.flush_tlb, PTE_CACHE_SIZE, hlt, if_true]
      omega

/-! ## Theorems: page-table entries -/

/-- One `accum` call: `p`, `rw`, `us` are ANDed, `nx` is ORed, the rest is kept. -/
theorem Level1PTE.accum_fields (e : Level1PTE) (l : AnyPTE) :
    e.accum l = { e with p := e.p && l.p, rw := e.rw && l.rw, us := e.us && l.us,
                         nx := e.nx || l.nx } := by
  cases l <;> rfl

/-- C6: after `e.accum(l1); ...; e.accum(ln)` the fields `p`, `rw` and `us` of the leaf
entry are the AND of their original value and the field of every `li`, `nx` is the OR
of its original value and every `li.nx`, and `mfn`, `a`, `d`, `pwt`, `pcd`, `pat`, `g`,
`avl` are unchanged; hence the result is present, writable or user-accessible only if
every level is, and executable (`nx` clear) only if no level sets `nx`. -/
theorem C6_accum_ands_permissions_ors_nx (e : Level1PTE) (ls : List AnyPTE) :
    e.accumAll ls =
        { e with p := e.p && ls.all AnyPTE.p, rw := e.rw && ls.all AnyPTE.rw,
                 us := e.us && ls.all AnyPTE.us, nx := e.nx || ls.any AnyPTE.nx }
      ∧ ((e.accumAll ls).p = true ↔ e.p = true ∧ ∀ l ∈ ls, l.p = true)
      ∧ ((e.accumAll ls).rw = true ↔ e.rw = true ∧ ∀ l ∈ ls, l.rw = true)
      ∧ ((e.accumAll ls).us = true ↔ e.us = true ∧ ∀ l ∈ ls, l.us = true)
      ∧ ((e.accumAll ls).nx = false ↔ e.nx = false ∧ ∀ l ∈ ls, l.nx = false) := by
  have key : ∀ (ls : List AnyPTE) (e : Level1PTE), e.accumAll ls =
      { e with p := e.p && ls.all AnyPTE.p, rw := e.rw && ls.all AnyPTE.rw,
               us := e.us && ls.all AnyPTE.us, nx := e.nx || ls.any AnyPTE.nx } := by
    intro ls
    induction ls with
    | nil => intro e; simp [Level1PTE.accumAll]
    | cons l ls ih =>
      intro e
      have ih2 := ih (e.accum l)
      simp only [Level1PTE.accumAll, List.foldl_cons] at ih2 ⊢
      rw [ih2, Level1PTE.accum_fields]
      simp [Bool.and_assoc, Bool.or_assoc]
  refine ⟨key ls e, ?_, ?_, ?_, ?_⟩ <;> rw [key ls e] <;> simp

/-! ## Theorems: the reference count of a basic block -/

/-- Storing a value of the `int` range in an `int` keeps it. -/
theorem wrap32_of_range (x : Int) (hlo : -2 ^ 31 ≤ x) (hhi : x < 2 ^ 31) : wrap32 x = x := by
  unfold wrap32
  omega

/-- The method `release()` on a count above the least `int`. -/
theorem BasicBlockBase.release_eq (b : BasicBlockBase) (hlo : -2 ^ 31 < b.refcount)
    (hhi : b.refcount < 2 ^ 31) :
    b.release = if 1 ≤ b.refcount then
        some (decide (b.refcount = 1), { b with refcount := b.refcount - 1 })
      else none := by
  have hw : wrap32 (b.refcount - 1) = b.refcount - 1 := wrap32_of_range _ (by omega) (by omega)
  simp only [BasicBlockBase.release, hw]
  by_cases h : 1 ≤ b.refcount
  · have h0 : (0 : Int) ≤ b.refcount - 1 := by omega
    have he : (b.refcount - 1 = 0) = (b.refcount = 1) := by
      apply propext; constructor <;> intro h' <;> omega
    simp only [h0, h, if_true, he]
  · have h0 : ¬ (0 : Int) ≤ b.refcount - 1 := by omega
    simp only [h0, h, if_false]

/-- The method `acquire()` on a count below the greatest `int`. -/
theorem BasicBlockBase.acquire_eq (b : BasicBlockBase) (hlo : -2 ^ 31 ≤ b.refcount)
    (hhi : b.refcount < 2 ^ 31 - 1) :
    b.acquire = { b with refcount := b.refcount + 1 } := by
  have hw : wrap32 (b.refcount + 1) = b.refcount + 1 := wrap32_of_range _ (by omega) (by omega)
  simp only [BasicBlockBase.acquire, hw]

/-- C7 (as stated) fails at the greatest `int`: on a block whose refcount is
`2147483647`, `acquire()` leaves `-2147483648` and not `r + 1`. -/
theorem C7_acquire_overflows_at_int_max :
    (1 : Int) ≤ (BasicBlockBase.sample 2147483647).refcount
      ∧ (BasicBlockBase.sample 2147483647).acquire.refcount = -2147483648
      ∧ (BasicBlockBase.sample 2147483647).acquire.refcount
          ≠ (BasicBlockBase.sample 2147483647).refcount + 1 := by
  refine ⟨by decide, by decide, by decide⟩

/-- C7 (as amended): on a basic block whose refcount is `r >= 1`, `release()` sets
refcount to `r - 1` and returns true exactly when `r = 1`; `acquire()` sets refcount to
`r + 1` when `r` is below the greatest `int`, `2^31 - 1`; neither changes another field
of the block (key, successor IPs, counts, uops). -/
theorem C7_release_acquire_adjust_refcount_only (bb : BasicBlock)
    (h1 : 1 ≤ bb.refcount) (h2 : bb.refcount ≤ 2 ^ 31 - 1) :
    bb.release = some (decide (bb.refcount = 1), { bb with refcount := bb.refcount - 1 })
      ∧ bb.toBasicBlockBase.release
          = some (decide (bb.refcount = 1),
              { bb.toBasicBlockBase with refcount := bb.refcount - 1 })
      ∧ (bb.refcount < 2 ^ 31 - 1 →
          bb.acquire = { bb with refcount := bb.refcount + 1 }
            ∧ bb.toBasicBlockBase.acquire
                = { bb.toBasicBlockBase with refcount := bb.refcount + 1 }) := by
  have hr := BasicBlockBase.release_eq bb.toBasicBlockBase (by omega) (by omega)
  rw [if_pos h1] at hr
  refine ⟨?_, hr, ?_⟩
  · simp only [BasicBlock.release, hr]
  · intro h3
    have ha := BasicBlockBase.acquire_eq bb.toBasicBlockBase (by omega) h3
    exact ⟨by simp only [BasicBlock.acquire, ha], ha⟩

/-- Witness of C7: a block with refcount 1 and no uops but the zero uop. -/
theorem C7_release_acquire_adjust_refcount_only_witness :
    (1 : Int) ≤ (BasicBlockBase.sample 1).refcount
      ∧ (BasicBlockBase.sample 1).refcount ≤ 2 ^ 31 - 1
      ∧ (BasicBlockBase.sample 1).release = some (true, BasicBlockBase.sample 0) :=
  ⟨by decide, by decide,
    (C7_release_acquire_adjust_refcount_only
      ⟨BasicBlockBase.sample 1, fun _ => ⟨⟨0, 0, 0, 0, 0, 0, 0, 0, 0, 0, 0, 0, 0, 0, 0, 0, 0, 0, 0, 0,
        0, 0, 0, 0, 0⟩, 0, 0, 0, 0⟩⟩ (by decide) (by decide)).2.1⟩

/-- C8 (as stated) fails at the least `int`: on a block whose refcount is
`-2147483648` the decrement wraps to `2147483647`, the assertion holds and
`release()` returns false. -/
theorem C8_release_passes_at_int_min :
    (BasicBlockBase.sample (-2147483648)).refcount ≤ 0
      ∧ (BasicBlockBase.sample (-2147483648)).release
          = some (false, BasicBlockBase.sample 2147483647) := by
  refine ⟨by decide, by decide⟩

/-- C8 (as amended): on a block whose refcount is above the least `int`, `-2^31`,
`release()` fails its assertion `refcount >= 0` if and only if the refcount before the
call is 0 or negative; on a block with refcount `>= 1` it never aborts. -/
theorem C8_release_aborts_iff_nonpositive (b : BasicBlockBase)
    (hlo : -2 ^ 31 < b.refcount) (hhi : b.refcount < 2 ^ 31) :
    (b.release = none ↔ b.refcount ≤ 0)
      ∧ (1 ≤ b.refcount → b.release.isSome = true) := by
  rw [BasicBlockBase.release_eq b hlo hhi]
  by_cases h : 1 ≤ b.refcount
  · rw [if_pos h]
    refine ⟨?_, fun _ => rfl⟩
    constructor
    · intro h'; cases h'
    · intro h'; omega
  · rw [if_neg h]
    refine ⟨⟨fun _ => by omega, fun _ => rfl⟩, fun h' => absurd h' h⟩

/-- Witness of C8: `release()` on a block with refcount 0 aborts. -/
theorem C8_release_aborts_iff_nonpositive_witness :
    -2 ^ 31 < (BasicBlockBase.sample 0).refcount
      ∧ (BasicBlockBase.sample 0).refcount < 2 ^ 31
      ∧ ((BasicBlockBase.sample 0).release = none ↔ (BasicBlockBase.sample 0).refcount ≤ 0) :=
  ⟨by decide, by decide,
    (C8_release_aborts_iff_nonpositive (BasicBlockBase.sample 0) (by decide) (by decide)).1⟩

/-- Calls in sequence: the calls of `xs ++ ys` are those of `xs`, then those of `ys`. -/
theorem BasicBlockBase.calls_append (b : BasicBlockBase) (xs ys : List RefCall) :
    b.calls (xs ++ ys) = (b.calls xs).bind fun b1 => b1.calls ys := by
  induction xs generalizing b with
  | nil => simp [BasicBlockBase.calls]
  | cons c cs ih =>
    simp only [List.cons_append, BasicBlockBase.calls]
    cases b.call c with
    | none => simp
    | some b1 => simpa using ih b1

/-- On the example block, `n` calls of `acquire()` that stay within the `int` range
add `n` to the count. -/
theorem BasicBlockBase.calls_replicate_acquire (n : Nat) (r : Int) (hlo : -2 ^ 31 ≤ r)
    (hhi : r + n ≤ 2 ^ 31 - 1) :
    (BasicBlockBase.sample r).calls (List.replicate n RefCall.acquire)
      = some (BasicBlockBase.sample (r + n)) := by
  induction n generalizing r with
  | zero => simp [BasicBlockBase.calls]
  | succ n ih =>
    have ha : (BasicBlockBase.sample r).acquire = BasicBlockBase.sample (r + 1) :=
      BasicBlockBase.acquire_eq (BasicBlockBase.sample r) hlo (by
        show r < 2 ^ 31 - 1
        push_cast at hhi
        omega)
    simp only [List.replicate_succ, BasicBlockBase.calls, BasicBlockBase.call, ha,
      Option.some_bind]
    rw [ih (r + 1) (by omega) (by push_cast at hhi ⊢; omega)]
    congr 2
    push_cast
    ring

/-- C9 (as stated) fails after `2^31` calls of `acquire()`: no call has aborted, and
the refcount is `-2147483648`, negative and not the number of acquires. -/
theorem C9_refcount_wraps_after_many_acquires :
    (BasicBlockBase.sample 0).calls (List.replicate 2147483648 RefCall.acquire)
        = some (BasicBlockBase.sample (-2147483648))
      ∧ (BasicBlockBase.sample (-2147483648)).refcount < 0 := by
  refine ⟨?_, by decide⟩
  have hn : (2147483648 : Nat) = 2147483647 + 1 := by norm_num
  rw [hn, List.replicate_succ', BasicBlockBase.calls_append,
    BasicBlockBase.calls_replicate_acquire 2147483647 0 (by norm_num) (by norm_num)]
  decide

/-- The count after a sequence of calls that has not aborted, from a count `>= 0`,
when the acquires cannot reach the greatest `int`. -/
theorem BasicBlockBase.calls_refcount (cs : List RefCall) (b b1 : BasicBlockBase)
    (h0 : 0 ≤ b.refcount)
    (hacq : b.refcount + (cs.count RefCall.acquire : Int) < 2 ^ 31)
    (hrun : b.calls cs = some b1) :
    b1.refcount = b.refcount + (cs.count RefCall.acquire : Int) - (cs.count RefCall.release : Int)
      ∧ 0 ≤ b1.refcount := by
  induction cs generalizing b with
  | nil =>
    simp only [BasicBlockBase.calls, Option.some.injEq] at hrun
    subst hrun
    simp [h0]
  | cons c cs ih =>
    cases c with
    | acquire =>
      simp only [List.count_cons_self, Nat.cast_add, Nat.cast_one] at hacq
      have ha := BasicBlockBase.acquire_eq b (by omega) (by omega)
      simp only [BasicBlockBase.calls, BasicBlockBase.call, Option.some_bind, ha] at hrun
      have := ih _ (by simp only; omega) (by simp only; omega) hrun
      simp only at this
      have hne : RefCall.release ≠ RefCall.acquire := by decide
      simp only [List.count_cons_self, List.count_cons_of_ne hne, Nat.cast_add, Nat.cast_one]
      omega
    | release =>
      have hne : RefCall.acquire ≠ RefCall.release := by decide
      simp only [List.count_cons_of_ne hne] at hacq
      have hr := BasicBlockBase.release_eq b (by omega) (by omega)
      simp only [BasicBlockBase.calls, BasicBlockBase.call, hr] at hrun
      by_cases h1 : 1 ≤ b.refcount
      · simp only [if_pos h1, Option.map_some', Option.some_bind] at hrun
        have := ih _ (by simp only; omega) (by simp only; omega) hrun
        simp only at this
        simp only [List.count_cons_self, List.count_cons_of_ne hne, Nat.cast_add, Nat.cast_one]
        omega
      · simp [if_neg h1] at hrun

/-- C9 (as amended): starting from refcount 0, along every sequence of `acquire()` and
`release()` calls that has not aborted and has fewer than `2^31` acquires, refcount is
the number of acquires minus the number of releases and is `>= 0`, and a further
`release()` returns true only when it leaves refcount 0, no acquired reference being
outstanding: the acquires equal the releases, that call included. -/
theorem C9_refcount_counts_outstanding_references (b b1 : BasicBlockBase)
    (cs : List RefCall) (h0 : b.refcount = 0)
    (hacq : cs.count RefCall.acquire < 2 ^ 31)
    (hrun : b.calls cs = some b1) :
    b1.refcount = (cs.count RefCall.acquire : Int) - (cs.count RefCall.release : Int)
      ∧ 0 ≤ b1.refcount
      ∧ ∀ b2, b1.release = some (true, b2) →
          b2.refcount = 0
            ∧ (cs ++ [RefCall.release]).count RefCall.acquire
                = (cs ++ [RefCall.release]).count RefCall.release := by
  have hacq2 : b.refcount + (cs.count RefCall.acquire : Int) < 2 ^ 31 := by
    rw [h0]
    have : ((cs.count RefCall.acquire : Nat) : Int) < ((2 ^ 31 : Nat) : Int) :=
      Int.ofNat_lt.mpr hacq
    push_cast at this
    omega
  obtain ⟨hc, hn⟩ := BasicBlockBase.calls_refcount cs b b1 (by omega) hacq2 hrun
  rw [h0] at hc hacq2
  refine ⟨by omega, hn, ?_⟩
  intro b2 hrel
  rw [BasicBlockBase.release_eq b1 (by omega) (by omega)] at hrel
  by_cases h1 : 1 ≤ b1.refcount
  · simp only [if_pos h1, Option.some.injEq, Prod.mk.injEq, decide_eq_true_eq] at hrel
    obtain ⟨hone, hb2⟩ := hrel
    subst hb2
    have hne : RefCall.acquire ≠ RefCall.release := by decide
    simp only [List.count_append, List.count_cons_self, List.count_cons_of_ne hne,
      List.count_nil]
    refine ⟨?_, ?_⟩
    · show b1.refcount - 1 = 0
      omega
    · omega
  · simp [if_neg h1] at hrel

/-- Witness of C9: two acquires and two releases on a block that starts at 0. -/
theorem C9_refcount_counts_outstanding_references_witness :
    (BasicBlockBase.sample 0).refcount = 0
      ∧ [RefCall.acquire, RefCall.acquire, RefCall.release].count RefCall.acquire < 2 ^ 31
      ∧ (BasicBlockBase.sample 0).calls [RefCall.acquire, RefCall.acquire, RefCall.release]
          = some (BasicBlockBase.sample 1)
      ∧ (BasicBlockBase.sample 1).refcount
          = ([RefCall.acquire, RefCall.acquire, RefCall.release].count RefCall.acquire : Int)
            - ([RefCall.acquire, RefCall.acquire, RefCall.release].count RefCall.release : Int) :=
  ⟨by decide, by decide, by decide,
    (C9_refcount_counts_outstanding_references (BasicBlockBase.sample 0) (BasicBlockBase.sample 1)
      [RefCall.acquire, RefCall.acquire, RefCall.release] (by decide) (by decide) (by decide)).1⟩

/-! ## Theorems: Hashtable -/

/-- When `findentry` finds nothing in a chain, no key of the chain is `equal` to the
key looked for. -/
theorem Hashtable.findlink_none {K T : Type} (km : HashtableKeyManager K) (key : K)
    (chain : List (KeyValuePair K T)) (h : Hashtable.findlink km key chain = none) :
    ∀ e ∈ chain, km.equal e.key key = false := by
  induction chain with
  | nil => intro e he; cases he
  | cons entry next ih =>
    intro e he
    simp only [Hashtable.findlink] at h
    by_cases hk : km.equal entry.key key = true
    · simp [hk] at h
    · simp only [hk, if_false] at h
      rcases List.mem_cons.mp he with rfl | hmem
      · simpa using hk
      · exact ih h e hmem

/-- Assigning a value keeps the keys of a chain, in order. -/
theorem Hashtable.assignvalue_keys {K T : Type} (km : HashtableKeyManager K) (key : K)
    (value : T) (chain : List (KeyValuePair K T)) :
    (Hashtable.assignvalue km key value chain).map (fun e => e.key)
      = chain.map (fun e => e.key) := by
  induction chain with
  | nil => rfl
  | cons entry next ih =>
    simp only [Hashtable.assignvalue]
    split
    · simp
    · simp [ih]

/-- Unlinking an entry leaves a sublist of the chain. -/
theorem Hashtable.unlink_sublist {K T : Type} (km : HashtableKeyManager K) (key : K)
    (chain : List (KeyValuePair K T)) :
    (Hashtable.unlink km key chain).Sublist chain := by
  induction chain with
  | nil => exact List.Sublist.refl _
  | cons entry next ih =>
    simp only [Hashtable.unlink]
    split
    · exact List.sublist_cons_self _ _
    · exact ih.cons₂ _

/-- Consistency of a chain only depends on its keys. -/
theorem Hashtable.chain_consistent_of_keys {K T : Type} (km : HashtableKeyManager K)
    (setcount i : Nat) (c1 c2 : List (KeyValuePair K T))
    (hk : c1.map (fun e => e.key) = c2.map (fun e => e.key))
    (h : (∀ e ∈ c2, Hashtable.setof km setcount e.key = i)
      ∧ c2.Pairwise fun a b => km.equal a.key b.key = false) :
    (∀ e ∈ c1, Hashtable.setof km setcount e.key = i)
      ∧ c1.Pairwise fun a b => km.equal a.key b.key = false := by
  obtain ⟨h1, h2⟩ := h
  constructor
  · intro e he
    have : e.key ∈ c2.map (fun e => e.key) := by
      rw [← hk]; exact List.mem_map_of_mem _ he
    obtain ⟨e2, he2, hke⟩ := List.mem_map.mp this
    rw [← hke]; exact h1 e2 he2
  · have h3 : (c2.map (fun e => e.key)).Pairwise (fun a b => km.equal a b = false) :=
      List.pairwise_map.mpr h2
    rw [← hk] at h3
    exact List.pairwise_map.mp h3

/-- Replacing one chain by a consistent chain keeps a table consistent. -/
theorem Hashtable.update_consistent {K T : Type} (km : HashtableKeyManager K)
    (setcount : Nat) (ht : Hashtable K T) (i : Nat) (chain : List (KeyValuePair K T))
    (count : Int) (h : ht.consistent km setcount)
    (hc : (∀ e ∈ chain, Hashtable.setof km setcount e.key = i)
      ∧ chain.Pairwise fun a b => km.equal a.key b.key = false) :
    Hashtable.consistent km setcount ⟨Function.update ht.sets i chain, count⟩ := by
  obtain ⟨h1, h2⟩ := h
  constructor
  · intro j e he
    show setof km setcount e.key = j
    have he2 : e ∈ Function.update ht.sets i chain j := he
    by_cases hj : j = i
    · subst hj; rw [Function.update_same] at he2; exact hc.1 e he2
    · rw [Function.update_noteq hj] at he2; exact h1 j e he2
  · intro j
    show List.Pairwise _ (Function.update ht.sets i chain j)
    by_cases hj : j = i
    · subst hj; rw [Function.update_same]; exact hc.2
    · rw [Function.update_noteq hj]; exact h2 j

/-- Every call keeps the chains consistent, for a key manager whose `equal` is
symmetric. -/
theorem Hashtable.call_consistent {K T : Type} [Zero T] (km : HashtableKeyManager K)
    (setcount : Nat) (hsymm : ∀ a b, km.equal a b = km.equal b a)
    (ht : Hashtable K T) (c : HashtableCall K T) (h : ht.consistent km setcount) :
    (ht.call km setcount c).consistent km setcount := by
  have h12 := h
  obtain ⟨h1, h2⟩ := h12
  cases c with
  | add key value =>
    simp only [Hashtable.call, Hashtable.add, Hashtable.findentry]
    cases hf : Hashtable.findlink km key (ht.sets (Hashtable.setof km setcount key)) with
    | some entry =>
      exact Hashtable.update_consistent km setcount ht _ _ _ h
        (Hashtable.chain_consistent_of_keys km setcount
          (Hashtable.setof km setcount key) _ _
          (Hashtable.assignvalue_keys km key value (ht.sets (Hashtable.setof km setcount key)))
          ⟨h1 _, h2 _⟩)
    | none =>
      have hnone := Hashtable.findlink_none km key _ hf
      refine Hashtable.update_consistent km setcount ht _ _ _ h ⟨?_, ?_⟩
      · intro e he
        rcases List.mem_cons.mp he with rfl | hmem
        · rfl
        · exact h1 _ e hmem
      · refine List.Pairwise.cons ?_ (h2 _)
        intro e he
        show km.equal key e.key = false
        rw [hsymm]; exact hnone e he
  | remove key =>
    simp only [Hashtable.call, Hashtable.remove, Hashtable.findentry]
    cases hf : Hashtable.findlink km key (ht.sets (Hashtable.setof km setcount key)) with
    | none => exact h
    | some entry =>
      have hs := Hashtable.unlink_sublist km key (ht.sets (Hashtable.setof km setcount key))
      exact Hashtable.update_consistent km setcount ht _ _ _ h
        ⟨fun e he => h1 _ e (hs.subset he), (h2 _).sublist hs⟩
  | clear =>
    constructor
    · intro i e he
      have he2 : e ∈ (if i < setcount then [] else ht.sets i) := he
      by_cases hi : i < setcount
      · simp [hi] at he2
      · simp only [hi, if_false] at he2; exact h1 i e he2
    · intro i
      show List.Pairwise _ (if i < setcount then [] else ht.sets i)
      by_cases hi : i < setcount
      · simp [hi]
      · simp only [hi, if_false]; exact h2 i

/-- Every table reached from the empty table has consistent chains. -/
theorem Hashtable.reached_consistent {K T : Type} [Zero T] (km : HashtableKeyManager K)
    (setcount : Nat) (hsymm : ∀ a b, km.equal a b = km.equal b a)
    (cs : List (HashtableCall K T)) :
    (Hashtable.reached km setcount cs).consistent km setcount := by
  have gen : ∀ (cs : List (HashtableCall K T)) (ht : Hashtable K T),
      ht.consistent km setcount →
        (cs.foldl (Hashtable.call km setcount) ht).consistent km setcount := by
    intro cs
    induction cs with
    | nil => intro ht h; exact h
    | cons c cs ih =>
      intro ht h
      exact ih _ (Hashtable.call_consistent km setcount hsymm ht c h)
  apply gen
  exact ⟨fun i e he => by simp [Hashtable.empty] at he, fun i => by simp [Hashtable.empty]⟩

/-- The set of a key only depends on the hash of the key. -/
theorem Hashtable.setof_eq_of_hash {K : Type} (km : HashtableKeyManager K) (setcount : Nat)
    (a b : K) (h : km.hash a = km.hash b) :
    Hashtable.setof km setcount a = Hashtable.setof km setcount b := by
  simp only [Hashtable.setof, h]

/-- C10: in every Hashtable reached from the empty table by a sequence of `add`,
`remove` and `clear`, with a key manager whose `hash` gives equal results on `equal`
keys (`equal` being symmetric, as an equality test is), no two stored entries have
equal keys: two entries at different places (set `i`, position `p` of its chain and
set `j`, position `q`) never have `equal` keys. -/
theorem C10_no_two_entries_with_equal_keys {K T : Type} [Zero T]
    (km : HashtableKeyManager K) (setcount : Nat) (cs : List (HashtableCall K T))
    (hsymm : ∀ a b, km.equal a b = km.equal b a)
    (hhash : ∀ a b, km.equal a b = true → km.hash a = km.hash b) :
    ∀ (i j p q : Nat) (a b : KeyValuePair K T),
      ((Hashtable.reached km setcount cs).sets i)[p]? = some a →
      ((Hashtable.reached km setcount cs).sets j)[q]? = some b →
      (i ≠ j ∨ p ≠ q) → km.equal a.key b.key = false := by
  intro i j p q a b ha hb hne
  obtain ⟨h1, h2⟩ := Hashtable.reached_consistent km setcount hsymm cs
  by_cases hij : i = j
  · subst hij
    have hpq : p ≠ q := by
      rcases hne with h | h
      · exact absurd rfl h
      · exact h
    obtain ⟨hp, hpa⟩ := List.getElem?_eq_some.mp ha
    obtain ⟨hq, hqb⟩ := List.getElem?_eq_some.mp hb
    have hpw := List.pairwise_iff_getElem.mp (h2 i)
    rcases Nat.lt_or_gt_of_ne hpq with hlt | hgt
    · have := hpw p q hp hq hlt
      rw [hpa, hqb] at this
      exact this
    · have := hpw q p hq hp hgt
      rw [hpa, hqb] at this
      rw [hsymm]; exact this
  · have hai := h1 i a (List.getElem?_mem ha)
    have hbj := h1 j b (List.getElem?_mem hb)
    cases hab : km.equal a.key b.key with
    | false => rfl
    | true =>
      exfalso
      apply hij
      rw [← hai, ← hbj]
      exact Hashtable.setof_eq_of_hash km setcount _ _ (hhash _ _ hab)

/-- The key manager of `W64` keys has a symmetric `equal`. -/
theorem HashtableKeyManager.forW64_symm (a b : Nat) :
    HashtableKeyManager.forW64.equal a b = HashtableKeyManager.forW64.equal b a := by
  simp [HashtableKeyManager.forW64, eq_comm]

/-- The key manager of `W64` keys hashes `equal` keys alike. -/
theorem HashtableKeyManager.forW64_hash (a b : Nat)
    (h : HashtableKeyManager.forW64.equal a b = true) :
    HashtableKeyManager.forW64.hash a = HashtableKeyManager.forW64.hash b := by
  simp only [HashtableKeyManager.forW64, decide_eq_true_eq] at h
  rw [h]

/-- Witness of C10: after the example calls the chain of set 1 holds the keys 65 and
1, which are not `equal`. -/
theorem C10_no_two_entries_with_equal_keys_witness :
    (∀ a b, HashtableKeyManager.forW64.equal a b = HashtableKeyManager.forW64.equal b a)
      ∧ (∀ a b, HashtableKeyManager.forW64.equal a b = true →
          HashtableKeyManager.forW64.hash a = HashtableKeyManager.forW64.hash b)
      ∧ (Hashtable.reached HashtableKeyManager.forW64 64 Hashtable.sample_calls).sets 1
          = [⟨65, 20⟩, ⟨1, 30⟩]
      ∧ HashtableKeyManager.forW64.equal (⟨65, 20⟩ : KeyValuePair Nat Nat).key
          (⟨1, 30⟩ : KeyValuePair Nat Nat).key = false :=
  ⟨HashtableKeyManager.forW64_symm, HashtableKeyManager.forW64_hash, by decide,
    C10_no_two_entries_with_equal_keys HashtableKeyManager.forW64 64 Hashtable.sample_calls
      HashtableKeyManager.forW64_symm HashtableKeyManager.forW64_hash 1 1 0 1 ⟨65, 20⟩ ⟨1, 30⟩
      (by decide) (by decide) (Or.inr (by decide))⟩

/-- In a chain where `findentry` finds an entry, it finds the same entry with the
new value after `entry->value = value`. -/
theorem Hashtable.findlink_assignvalue {K T : Type} (km : HashtableKeyManager K) (key : K)
    (value : T) (chain : List (KeyValuePair K T)) (e : KeyValuePair K T)
    (h : Hashtable.findlink km key chain = some e) :
    Hashtable.findlink km key (Hashtable.assignvalue km key value chain)
      = some { e with value := value } := by
  induction chain with
  | nil => simp [Hashtable.findlink] at h
  | cons entry next ih =>
    simp only [Hashtable.findlink, Hashtable.assignvalue] at h ⊢
    by_cases hk : km.equal entry.key key = true
    · simp only [hk, if_true, Option.some.injEq] at h ⊢
      subst h
      simp [Hashtable.findlink, hk]
    · simp only [hk, if_false] at h ⊢
      simp only [Hashtable.findlink, hk, if_false]
      exact ih h

/-- The search for a key `k2` is not affected by `entry->value = value` for a key
`key`, when no entry of the chain is `equal` to both keys. -/
theorem Hashtable.findlink_assignvalue_other {K T : Type} (km : HashtableKeyManager K)
    (key k2 : K) (value : T) (chain : List (KeyValuePair K T))
    (h : ∀ e ∈ chain, km.equal e.key key = true → km.equal e.key k2 = false) :
    Hashtable.findlink km k2 (Hashtable.assignvalue km key value chain)
      = Hashtable.findlink km k2 chain := by
  induction chain with
  | nil => rfl
  | cons entry next ih =>
    simp only [Hashtable.assignvalue]
    by_cases hk : km.equal entry.key key = true
    · have h2 := h entry (List.mem_cons_self _ _) hk
      simp [Hashtable.findlink, hk, h2]
    · simp only [hk, if_false, Hashtable.findlink]
      rw [ih (fun e he => h e (List.mem_cons_of_mem _ he))]

/-- An entry found by `findentry` is in the chain and its key is `equal` to the key
looked for. -/
theorem Hashtable.findlink_some {K T : Type} (km : HashtableKeyManager K) (key : K)
    (chain : List (KeyValuePair K T)) (e : KeyValuePair K T)
    (h : Hashtable.findlink km key chain = some e) :
    e ∈ chain ∧ km.equal e.key key = true := by
  induction chain with
  | nil => simp [Hashtable.findlink] at h
  | cons entry next ih =>
    simp only [Hashtable.findlink] at h
    by_cases hk : km.equal entry.key key = true
    · simp only [hk, if_true, Option.some.injEq] at h
      subst h
      exact ⟨List.mem_cons_self _ _, hk⟩
    · simp only [hk, if_false] at h
      exact ⟨List.mem_cons_of_mem _ (ih h).1, (ih h).2⟩

/-- What `get` returns, in terms of the entry that `findentry` finds. -/
theorem Hashtable.get_eq_some {K T : Type} (km : HashtableKeyManager K) (setcount : Nat)
    (ht : Hashtable K T) (key : K) (value : T) :
    ht.get km setcount key = some value ↔
      ∃ e, Hashtable.findlink km key (ht.sets (Hashtable.setof km setcount key)) = some e
        ∧ e.value = value := by
  simp only [Hashtable.get, Hashtable.findentry]
  cases Hashtable.findlink km key (ht.sets (Hashtable.setof km setcount key)) with
  | none => simp
  | some e => simp

/-- C11 (as stated) fails: on the table that holds key 1 with value 10, `add(1, 30)`
returns the old value 10 as for any call, and the value stored for key 1 is 30
afterwards. -/
theorem C11_add_on_present_key_overwrites :
    (Hashtable.reached HashtableKeyManager.forW64 64 [.add 1 10]).get
        HashtableKeyManager.forW64 64 1 = some 10
      ∧ ((Hashtable.reached HashtableKeyManager.forW64 64 [.add 1 10]).add
          HashtableKeyManager.forW64 64 1 30).1 = 10
      ∧ ((Hashtable.reached HashtableKeyManager.forW64 64 [.add 1 10]).add
          HashtableKeyManager.forW64 64 1 30).2.get HashtableKeyManager.forW64 64 1
          = some 30 := by
  refine ⟨by decide, by decide, by decide⟩

/-- C11 (as amended): `add(key, value)` on a Hashtable that already holds an entry
with an equal key signals no error: it returns the value stored so far, replaces it
by `value`, and adds or removes no entry (the keys of every chain and `count` are
unchanged). -/
theorem C11_add_on_present_key_replaces_value {K T : Type} [Zero T]
    (km : HashtableKeyManager K) (setcount : Nat) (ht : Hashtable K T) (key : K)
    (value old : T) (hpresent : ht.get km setcount key = some old) :
    (ht.add km setcount key value).1 = old
      ∧ (ht.add km setcount key value).2.get km setcount key = some value
      ∧ (ht.add km setcount key value).2.count = ht.count
      ∧ ∀ i, ((ht.add km setcount key value).2.sets i).map (fun e => e.key)
          = (ht.sets i).map (fun e => e.key) := by
  obtain ⟨e, hf, hv⟩ := (Hashtable.get_eq_some km setcount ht key old).mp hpresent
  have hadd : ht.add km setcount key value
      = (e.value, ⟨Function.update ht.sets (Hashtable.setof km setcount key)
          (Hashtable.assignvalue km key value (ht.sets (Hashtable.setof km setcount key))),
          ht.count⟩) := by
    simp only [Hashtable.add, Hashtable.findentry, hf]
  rw [hadd]
  refine ⟨hv, ?_, rfl, ?_⟩
  · rw [Hashtable.get_eq_some]
    refine ⟨{ e with value := value }, ?_, rfl⟩
    show Hashtable.findlink km key (Function.update ht.sets _ _ _) = _
    rw [Function.update_same]
    exact Hashtable.findlink_assignvalue km key value _ e hf
  · intro i
    show (Function.update ht.sets _ _ i).map _ = _
    by_cases hi : i = Hashtable.setof km setcount key
    · subst hi
      rw [Function.update_same]
      exact Hashtable.assignvalue_keys km key value _
    · rw [Function.update_noteq hi]

/-- Witness of C11: the table that holds key 1 with value 10. -/
theorem C11_add_on_present_key_replaces_value_witness :
    (Hashtable.reached HashtableKeyManager.forW64 64 [.add 1 10]).get
        HashtableKeyManager.forW64 64 1 = some 10
      ∧ ((Hashtable.reached HashtableKeyManager.forW64 64 [.add 1 10]).add
          HashtableKeyManager.forW64 64 1 30).2.count
          = (Hashtable.reached HashtableKeyManager.forW64 64 [.add 1 10]).count :=
  ⟨by decide,
    (C11_add_on_present_key_replaces_value HashtableKeyManager.forW64 64
      (Hashtable.reached HashtableKeyManager.forW64 64 [.add 1 10]) 1 30 10 (by decide)).2.2.1⟩

/-- The method `get` returns the value of the entry that `findentry` finds. -/
theorem Hashtable.get_eq_map {K T : Type} (km : HashtableKeyManager K) (setcount : Nat)
    (ht : Hashtable K T) (key : K) :
    ht.get km setcount key
      = (Hashtable.findlink km key (ht.sets (Hashtable.setof km setcount key))).map
          fun e => e.value := by
  simp only [Hashtable.get, Hashtable.findentry]
  cases Hashtable.findlink km key (ht.sets (Hashtable.setof km setcount key)) <;> rfl

/-- For a symmetric and transitive `equal`, an entry whose key is `equal` to `key` has
no key `equal` to a key `k2` that is not `equal` to `key`. -/
theorem HashtableKeyManager.not_equal_of_equal {K : Type} (km : HashtableKeyManager K)
    (hsymm : ∀ a b, km.equal a b = km.equal b a)
    (htrans : ∀ a b c, km.equal a b = true → km.equal b c = true → km.equal a c = true)
    (key k2 x : K) (hne : km.equal k2 key = false) (hx : km.equal x key = true) :
    km.equal x k2 = false := by
  cases h : km.equal x k2 with
  | false => rfl
  | true =>
    have h1 : km.equal k2 x = true := by rw [hsymm]; exact h
    have h2 := htrans k2 x key h1 hx
    rw [hne] at h2
    cases h2

/-- C12: after `add(k, v)`, `get(k)` returns (a pointer to) the value `v`, and for
every key `k2` not equal to `k`, `get(k2)` returns what it returned before the add;
on the empty table `get` returns null for every key.  `KM::equal` is an equality
test: reflexive, symmetric and transitive. -/
theorem C12_get_after_add {K T : Type} [Zero T] (km : HashtableKeyManager K)
    (setcount : Nat) (ht : Hashtable K T) (k : K) (v : T)
    (hrefl : ∀ a, km.equal a a = true)
    (hsymm : ∀ a b, km.equal a b = km.equal b a)
    (htrans : ∀ a b c, km.equal a b = true → km.equal b c = true → km.equal a c = true) :
    (ht.add km setcount k v).2.get km setcount k = some v
      ∧ (∀ k2, km.equal k2 k = false →
          (ht.add km setcount k v).2.get km setcount k2 = ht.get km setcount k2)
      ∧ ∀ k3, (Hashtable.empty : Hashtable K T).get km setcount k3 = none := by
  refine ⟨?_, ?_, fun k3 => rfl⟩
  · rw [Hashtable.get_eq_map]
    simp only [Hashtable.add, Hashtable.findentry]
    cases hf : Hashtable.findlink km k (ht.sets (Hashtable.setof km setcount k)) with
    | some e =>
      show (Hashtable.findlink km k (Function.update ht.sets _ _ _)).map _ = _
      rw [Function.update_same, Hashtable.findlink_assignvalue km k v _ e hf]
      rfl
    | none =>
      show (Hashtable.findlink km k (Function.update ht.sets _ _ _)).map _ = _
      rw [Function.update_same]
      simp [Hashtable.addto, Hashtable.findlink, hrefl]
  · intro k2 hne
    rw [Hashtable.get_eq_map, Hashtable.get_eq_map]
    simp only [Hashtable.add, Hashtable.findentry]
    cases hf : Hashtable.findlink km k (ht.sets (Hashtable.setof km setcount k)) with
    | some e =>
      show (Hashtable.findlink km k2 (Function.update ht.sets _ _ _)).map _ = _
      by_cases hs : Hashtable.setof km setcount k2 = Hashtable.setof km setcount k
      · rw [hs, Function.update_same, Hashtable.findlink_assignvalue_other]
        intro x _ hx
        exact HashtableKeyManager.not_equal_of_equal km hsymm htrans k k2 x.key hne hx
      · rw [Function.update_noteq hs]
    | none =>
      show (Hashtable.findlink km k2 (Function.update ht.sets _ _ _)).map _ = _
      by_cases hs : Hashtable.setof km setcount k2 = Hashtable.setof km setcount k
      · rw [hs, Function.update_same]
        have hk : km.equal k k2 = false := by rw [hsymm]; exact hne
        simp [Hashtable.addto, Hashtable.findlink, hk]
      · rw [Function.update_noteq hs]

/-- The key manager of `W64` keys has a reflexive `equal`. -/
theorem HashtableKeyManager.forW64_refl (a : Nat) :
    HashtableKeyManager.forW64.equal a a = true := by
  simp [HashtableKeyManager.forW64]

/-- The key manager of `W64` keys has a transitive `equal`. -/
theorem HashtableKeyManager.forW64_trans (a b c : Nat)
    (h1 : HashtableKeyManager.forW64.equal a b = true)
    (h2 : HashtableKeyManager.forW64.equal b c = true) :
    HashtableKeyManager.forW64.equal a c = true := by
  simp only [HashtableKeyManager.forW64, decide_eq_true_eq] at h1 h2 ⊢
  rw [h1, h2]

/-- Witness of C12: `add(65, 7)` on the table reached by the example calls, which
holds the key 65 already. -/
theorem C12_get_after_add_witness :
    (∀ a, HashtableKeyManager.forW64.equal a a = true)
      ∧ (∀ a b, HashtableKeyManager.forW64.equal a b = HashtableKeyManager.forW64.equal b a)
      ∧ (∀ a b c, HashtableKeyManager.forW64.equal a b = true →
          HashtableKeyManager.forW64.equal b c = true →
          HashtableKeyManager.forW64.equal a c = true)
      ∧ ((Hashtable.reached HashtableKeyManager.forW64 64 Hashtable.sample_calls).add
          HashtableKeyManager.forW64 64 65 7).2.get HashtableKeyManager.forW64 64 65 = some 7 :=
  ⟨HashtableKeyManager.forW64_refl, HashtableKeyManager.forW64_symm,
    HashtableKeyManager.forW64_trans,
    (C12_get_after_add HashtableKeyManager.forW64 64
      (Hashtable.reached HashtableKeyManager.forW64 64 Hashtable.sample_calls) 65 7
      HashtableKeyManager.forW64_refl HashtableKeyManager.forW64_symm
      HashtableKeyManager.forW64_trans).1⟩

/-- The power of two that `log2` names is at most the number, for a number that the
fuel covers. -/
theorem two_pow_log2Aux_le (fuel n : Nat) (h1 : 1 ≤ n) : 2 ^ log2Aux fuel n ≤ n := by
  induction fuel generalizing n with
  | zero => simpa [log2Aux] using h1
  | succ fuel ih =>
    simp only [log2Aux]
    by_cases h2 : 2 ≤ n
    · simp only [h2, if_true, Nat.pow_succ]
      have := ih (n / 2) (by omega)
      omega
    · simp only [h2, if_false, Nat.pow_zero]
      exact h1

/-- The index of the set of a key is an index of the array `sets`. -/
theorem Hashtable.setof_lt {K : Type} (km : HashtableKeyManager K) (setcount : Nat)
    (key : K) (h : 1 ≤ setcount) : Hashtable.setof km setcount key < setcount := by
  have h1 : 0 < 2 ^ log2 setcount := Nat.pos_pow_of_pos _ (by decide)
  have h2 : 2 ^ log2 setcount ≤ setcount := two_pow_log2Aux_le setcount setcount h
  exact Nat.lt_of_lt_of_le (Nat.mod_lt _ h1) h2

/-- When no key of a chain is `equal` to the key looked for, `findentry` finds
nothing. -/
theorem Hashtable.findlink_eq_none {K T : Type} (km : HashtableKeyManager K) (key : K)
    (chain : List (KeyValuePair K T)) (h : ∀ e ∈ chain, km.equal e.key key = false) :
    Hashtable.findlink km key chain = none := by
  induction chain with
  | nil => rfl
  | cons entry next ih =>
    simp only [Hashtable.findlink, h entry (List.mem_cons_self _ _)]
    exact ih (fun e he => h e (List.mem_cons_of_mem _ he))

/-- In a chain without two `equal` keys, the key of the unlinked entry is not found
any more. -/
theorem Hashtable.findlink_unlink_self {K T : Type} (km : HashtableKeyManager K)
    (hsymm : ∀ a b, km.equal a b = km.equal b a)
    (htrans : ∀ a b c, km.equal a b = true → km.equal b c = true → km.equal a c = true)
    (key : K) (chain : List (KeyValuePair K T))
    (hp : chain.Pairwise fun a b => km.equal a.key b.key = false) :
    Hashtable.findlink km key (Hashtable.unlink km key chain) = none := by
  induction chain with
  | nil => rfl
  | cons entry next ih =>
    obtain ⟨hhead, htail⟩ := List.pairwise_cons.mp hp
    simp only [Hashtable.unlink]
    by_cases hk : km.equal entry.key key = true
    · simp only [hk, if_true]
      apply Hashtable.findlink_eq_none
      intro e he
      cases h : km.equal e.key key with
      | false => rfl
      | true =>
        have h1 : km.equal key e.key = true := by rw [hsymm]; exact h
        have h2 := htrans _ _ _ hk h1
        rw [hhead e he] at h2
        cases h2
    · simp only [hk, if_false, Hashtable.findlink]
      exact ih htail

/-- The search for a key `k2` is not affected by unlinking the entry of `key`, when
no entry of the chain is `equal` to both keys. -/
theorem Hashtable.findlink_unlink_other {K T : Type} (km : HashtableKeyManager K)
    (key k2 : K) (chain : List (KeyValuePair K T))
    (h : ∀ e ∈ chain, km.equal e.key key = true → km.equal e.key k2 = false) :
    Hashtable.findlink km k2 (Hashtable.unlink km key chain)
      = Hashtable.findlink km k2 chain := by
  induction chain with
  | nil => rfl
  | cons entry next ih =>
    simp only [Hashtable.unlink]
    by_cases hk : km.equal entry.key key = true
    · have h2 := h entry (List.mem_cons_self _ _) hk
      simp [Hashtable.findlink, hk, h2]
    · simp only [hk, if_false, Hashtable.findlink]
      rw [ih (fun e he => h e (List.mem_cons_of_mem _ he))]

/-- An entry of the chain of a set of the array is a stored entry. -/
theorem Hashtable.mem_stored {K T : Type} (setcount : Nat) (ht : Hashtable K T) (i : Nat)
    (hi : i < setcount) (e : KeyValuePair K T) (he : e ∈ ht.sets i) :
    e ∈ ht.stored setcount := by
  simp only [Hashtable.stored, List.mem_flatMap, List.mem_range]
  exact ⟨i, hi, he⟩

/-- C13, amended: on a Hashtable whose chains are consistent (as they are in every
table reached from the empty one) and whose `count` is an `int`, if `k` is present
`remove(k)` returns the value stored under `k`, decreases `count` by exactly one
unless `count` is the least `int`, where it becomes the greatest `int`, makes
`get(k)` return null and leaves the value found for every other key unchanged; if
`k` is absent `remove(k)` leaves the table unchanged. `KM::equal` is an equality
test: symmetric and transitive. -/
theorem C13_remove_unlinks_the_entry {K T : Type} [Zero T] (km : HashtableKeyManager K)
    (setcount : Nat) (ht : Hashtable K T) (k : K)
    (hsymm : ∀ a b, km.equal a b = km.equal b a)
    (htrans : ∀ a b c, km.equal a b = true → km.equal b c = true → km.equal a c = true)
    (hcons : ht.consistent km setcount)
    (hlo : -2 ^ 31 ≤ ht.count) (hhi : ht.count < 2 ^ 31) :
    (∀ value, ht.get km setcount k = some value →
        (ht.remove km setcount k).1 = value
          ∧ (ht.remove km setcount k).2.count
              = (if ht.count = -2147483648 then 2147483647 else ht.count - 1)
          ∧ (ht.remove km setcount k).2.get km setcount k = none
          ∧ ∀ k2, km.equal k2 k = false →
              (ht.remove km setcount k).2.get km setcount k2 = ht.get km setcount k2)
      ∧ (ht.get km setcount k = none → (ht.remove km setcount k).2 = ht) := by
  constructor
  · intro value hget
    obtain ⟨e, hf, hv⟩ := (Hashtable.get_eq_some km setcount ht k value).mp hget
    have hrem : ht.remove km setcount k
        = (e.value, ⟨Function.update ht.sets (Hashtable.setof km setcount k)
            (Hashtable.unlink km k (ht.sets (Hashtable.setof km setcount k))),
            wrap32 (ht.count - 1)⟩) := by
      simp only [Hashtable.remove, Hashtable.findentry, hf]
    rw [hrem]
    refine ⟨hv, ?_, ?_, ?_⟩
    · show wrap32 (ht.count - 1) = _
      by_cases hmin : ht.count = -2147483648
      · rw [if_pos hmin, hmin]
        decide
      · rw [if_neg hmin]
        exact wrap32_of_range _ (by omega) (by omega)
    · rw [Hashtable.get_eq_map]
      show (Hashtable.findlink km k (Function.update ht.sets _ _ _)).map _ = _
      rw [Function.update_same, Hashtable.findlink_unlink_self km hsymm htrans k _ (hcons.2 _)]
      rfl
    · intro k2 hne
      rw [Hashtable.get_eq_map, Hashtable.get_eq_map]
      show (Hashtable.findlink km k2 (Function.update ht.sets _ _ _)).map _ = _
      by_cases hs : Hashtable.setof km setcount k2 = Hashtable.setof km setcount k
      · rw [hs, Function.update_same, Hashtable.findlink_unlink_other]
        intro x _ hx
        exact HashtableKeyManager.not_equal_of_equal km hsymm htrans k k2 x.key hne hx
      · rw [Function.update_noteq hs]
  · intro hget
    rw [Hashtable.get_eq_map] at hget
    have hf : Hashtable.findlink km k (ht.sets (Hashtable.setof km setcount k)) = none := by
      cases h : Hashtable.findlink km k (ht.sets (Hashtable.setof km setcount k)) with
      | none => rfl
      | some e => rw [h] at hget; cases hget
    simp only [Hashtable.remove, Hashtable.findentry, hf]

/-- Witness of C13: `remove(65)` on the table reached by the example calls, which
holds the keys 65 and 1 and has the `count` 2: it returns 20, `count` becomes 1 and
`get(65)` returns null. -/
theorem C13_remove_unlinks_the_entry_witness :
    (Hashtable.reached HashtableKeyManager.forW64 64 Hashtable.sample_calls).count = 2
      ∧ (Hashtable.reached HashtableKeyManager.forW64 64 Hashtable.sample_calls).get
          HashtableKeyManager.forW64 64 65 = some 20
      ∧ ((Hashtable.reached HashtableKeyManager.forW64 64 Hashtable.sample_calls).remove
          HashtableKeyManager.forW64 64 65).1 = 20
      ∧ ((Hashtable.reached HashtableKeyManager.forW64 64 Hashtable.sample_calls).remove
          HashtableKeyManager.forW64 64 65).2.count
          = (if (Hashtable.reached HashtableKeyManager.forW64 64 Hashtable.sample_calls).count
                = -2147483648 then 2147483647
              else (Hashtable.reached HashtableKeyManager.forW64 64
                Hashtable.sample_calls).count - 1)
      ∧ ((Hashtable.reached HashtableKeyManager.forW64 64 Hashtable.sample_calls).remove
          HashtableKeyManager.forW64 64 65).2.count = 1
      ∧ ((Hashtable.reached HashtableKeyManager.forW64 64 Hashtable.sample_calls).remove
          HashtableKeyManager.forW64 64 65).2.get HashtableKeyManager.forW64 64 65 = none :=
  ⟨by decide, by decide,
    ((C13_remove_unlinks_the_entry HashtableKeyManager.forW64 64
      (Hashtable.reached HashtableKeyManager.forW64 64 Hashtable.sample_calls) 65
      HashtableKeyManager.forW64_symm HashtableKeyManager.forW64_trans
      (Hashtable.reached_consistent HashtableKeyManager.forW64 64
        HashtableKeyManager.forW64_symm Hashtable.sample_calls)
      (by decide) (by decide)).1 20 (by decide)).1,
    ((C13_remove_unlinks_the_entry HashtableKeyManager.forW64 64
      (Hashtable.reached HashtableKeyManager.forW64 64 Hashtable.sample_calls) 65
      HashtableKeyManager.forW64_symm HashtableKeyManager.forW64_trans
      (Hashtable.reached_consistent HashtableKeyManager.forW64 64
        HashtableKeyManager.forW64_symm Hashtable.sample_calls)
      (by decide) (by decide)).1 20 (by decide)).2.1,
    by decide,
    ((C13_remove_unlinks_the_entry HashtableKeyManager.forW64 64
      (Hashtable.reached HashtableKeyManager.forW64 64 Hashtable.sample_calls) 65
      HashtableKeyManager.forW64_symm HashtableKeyManager.forW64_trans
      (Hashtable.reached_consistent HashtableKeyManager.forW64 64
        HashtableKeyManager.forW64_symm Hashtable.sample_calls)
      (by decide) (by decide)).1 20 (by decide)).2.2.1⟩

/-- C17: `virt_to_pte(v)` modifies at most the tag and the entry of slot
`(v >> 12) mod 16`: the other slots of `cached_pte_virt` and `cached_pte`, `cr3` and
every other field of the context are unchanged, and the slot index that the code
computes is `(v >> 12) mod 16`, within `0..15`. -/
theorem C17_virt_to_pte_touches_one_slot {R : Type} (walk : Nat → Nat → Level1PTE)
    (ctx : Context R) (v : Nat) :
    (∀ i, i ≠ (v >>> 12) % 16 →
        (ctx.virt_to_pte walk v).ctx.cached_pte_virt i = ctx.cached_pte_virt i
          ∧ (ctx.virt_to_pte walk v).ctx.cached_pte i = ctx.cached_pte i)
      ∧ (ctx.virt_to_pte walk v).ctx.cr3 = ctx.cr3
      ∧ (ctx.virt_to_pte walk v).ctx.rest = ctx.rest
      ∧ lowbits (v >>> 12) (log2 PTE_CACHE_SIZE) = (v >>> 12) % 16
      ∧ lowbits (v >>> 12) (log2 PTE_CACHE_SIZE) < PTE_CACHE_SIZE := by
  have hs : v >>> 12 = v / 4096 := by simp [Nat.shiftRight_eq_div_pow]
  have hslot := slot_eq v
  rw [hs] at hslot ⊢
  refine ⟨?_, ?_, ?_, hslot, ?_⟩
  · intro i hi
    by_cases h : ctx.cached_pte_virt ((v / 4096) % 16) = 4096 * (v / 4096)
    · rw [Context.virt_to_pte_hit walk ctx v h]
      exact ⟨rfl, rfl⟩
    · rw [Context.virt_to_pte_miss walk ctx v h]
      exact ⟨Function.update_noteq hi _ _, Function.update_noteq hi _ _⟩
  · by_cases h : ctx.cached_pte_virt ((v / 4096) % 16) = 4096 * (v / 4096)
    · rw [Context.virt_to_pte_hit walk ctx v h]
    · rw [Context.virt_to_pte_miss walk ctx v h]
  · by_cases h : ctx.cached_pte_virt ((v / 4096) % 16) = 4096 * (v / 4096)
    · rw [Context.virt_to_pte_hit walk ctx v h]
    · rw [Context.virt_to_pte_miss walk ctx v h]
  · rw [hslot]
    exact Nat.mod_lt _ (by decide)

/-- After a lookup of `v` the slot of `v` holds the page of `v`. -/
theorem Context.virt_to_pte_tag {R : Type} (walk : Nat → Nat → Level1PTE) (ctx : Context R)
    (v : Nat) :
    (ctx.virt_to_pte walk v).ctx.cached_pte_virt ((v / 4096) % 16) = 4096 * (v / 4096)
      ∧ (ctx.virt_to_pte walk v).ctx.cr3 = ctx.cr3 := by
  by_cases h : ctx.cached_pte_virt ((v / 4096) % 16) = 4096 * (v / 4096)
  · rw [Context.virt_to_pte_hit walk ctx v h]
    exact ⟨h, rfl⟩
  · rw [Context.virt_to_pte_miss walk ctx v h]
    exact ⟨Function.update_same _ _ _, rfl⟩

/-- C18 (as stated) fails when the shared slot already holds the page of `v1`: in the
example context slot 0 holds page `0x0`; `0x10` and `0x10010` are on different pages
of slot 0, and the first of the three calls, `virt_to_pte(0x10)`, walks nothing. -/
theorem C18_first_lookup_may_hit :
    (0x10 / 4096 ≠ 0x10010 / 4096)
      ∧ (0x10 / 4096) % 16 = (0x10010 / 4096) % 16
      ∧ (Context.two_pages.virt_to_pte offset_walk 0x10).walks = [] := by
  refine ⟨by decide, by decide, by decide⟩

/-- C18 (as amended): for two addresses `v1`, `v2` on different pages whose page
numbers are congruent modulo 16, in the sequence `virt_to_pte(v1)`, `virt_to_pte(v2)`,
`virt_to_pte(v1)` the second and the third call each walk the page table, each
overwriting the other's tag in the shared slot, and the first call walks unless the
slot already holds the page of `v1`. -/
theorem C18_conflicting_pages_thrash {R : Type} (walk : Nat → Nat → Level1PTE)
    (ctx : Context R) (v1 v2 : Nat)
    (hpages : v1 / 4096 ≠ v2 / 4096)
    (hslot : (v1 / 4096) % 16 = (v2 / 4096) % 16) :
    ((ctx.virt_to_pte walk v1).ctx.virt_to_pte walk v2).walks = [(v2, ctx.cr3 >>> 12)]
      ∧ (((ctx.virt_to_pte walk v1).ctx.virt_to_pte walk v2).ctx.virt_to_pte walk v1).walks
          = [(v1, ctx.cr3 >>> 12)]
      ∧ ((ctx.virt_to_pte walk v1).ctx.virt_to_pte walk v2).ctx.cached_pte_virt
          ((v1 / 4096) % 16) = 4096 * (v2 / 4096)
      ∧ (((ctx.virt_to_pte walk v1).ctx.virt_to_pte walk v2).ctx.virt_to_pte walk v1).ctx.cached_pte_virt
          ((v1 / 4096) % 16) = 4096 * (v1 / 4096)
      ∧ (if ctx.cached_pte_virt ((v1 / 4096) % 16) = 4096 * (v1 / 4096) then
          (ctx.virt_to_pte walk v1).walks = []
        else (ctx.virt_to_pte walk v1).walks = [(v1, ctx.cr3 >>> 12)]) := by
  obtain ⟨ht1, hc1⟩ := Context.virt_to_pte_tag walk ctx v1
  obtain ⟨ht2, hc2⟩ := Context.virt_to_pte_tag walk (ctx.virt_to_pte walk v1).ctx v2
  have hm2 : (ctx.virt_to_pte walk v1).ctx.cached_pte_virt ((v2 / 4096) % 16)
      ≠ 4096 * (v2 / 4096) := by
    rw [← hslot, ht1]; omega
  have hm3 : ((ctx.virt_to_pte walk v1).ctx.virt_to_pte walk v2).ctx.cached_pte_virt
      ((v1 / 4096) % 16) ≠ 4096 * (v1 / 4096) := by
    rw [hslot, ht2]; omega
  refine ⟨?_, ?_, ?_, ?_, ?_⟩
  · rw [Context.virt_to_pte_miss walk _ v2 hm2, hc1]
  · rw [Context.virt_to_pte_miss walk _ v1 hm3, hc2, hc1]
  · rw [hslot]; exact ht2
  · exact (Context.virt_to_pte_tag walk _ v1).1
  · split
    · next h => rw [Context.virt_to_pte_hit walk ctx v1 h]
    · next h => rw [Context.virt_to_pte_miss walk ctx v1 h]

/-- Witness of C18: the addresses `0x10` and `0x10010` in the example context. -/
theorem C18_conflicting_pages_thrash_witness :
    (0x10 / 4096 ≠ 0x10010 / 4096)
      ∧ (0x10 / 4096) % 16 = (0x10010 / 4096) % 16
      ∧ ((Context.two_pages.virt_to_pte offset_walk 0x10).ctx.virt_to_pte offset_walk
          0x10010).walks = [(0x10010, Context.two_pages.cr3 >>> 12)] :=
  ⟨by decide, by decide,
    (C18_conflicting_pages_thrash offset_walk Context.two_pages 0x10 0x10010 (by decide)
      (by decide)).1⟩

/-! ## Theorems: micro-ops -/

/-- The value read back from a bit-field is the stored integer modulo `2^w`. -/
theorem bitfield_val (w : Nat) (x : Int) : ((bitfield w x).val : Int) = x % 2 ^ w := by
  have hpos : (0 : Int) < 2 ^ w := by positivity
  simp only [bitfield]
  exact Int.toNat_of_nonneg (Int.emod_nonneg x (ne_of_gt hpos))

/-- A bit-field holds a stored integer of its range unchanged. -/
theorem bitfield_val_of_range (w : Nat) (x : Int) (h0 : 0 ≤ x) (h1 : x < 2 ^ w) :
    ((bitfield w x).val : Int) = x := by
  rw [bitfield_val, Int.emod_eq_of_lt h0 h1]

/-- The uop that `init` leaves, field by field. -/
theorem TransOp.init_eq (self : TransOp) (opcode rd ra rb rc size rbimm rcimm : Int)
    (setflags : Nat) (memid : Int) :
    self.init opcode rd ra rb rc size rbimm rcimm setflags memid =
      ⟨⟨bitfield 7 opcode, bitfield 2 size, 0, 0, 0, bitfield 3 (setflags : Int), 0,
        bitfield 8 memid, bitfield 7 rd, bitfield 7 ra, bitfield 7 rb, bitfield 7 rc,
        0, 0, 0, 0, 0, 0, 0, 0, 0, 0, 0, 0, 0⟩, rbimm, rcimm, 0, 0⟩ := by
  rfl

/-- C19: `TransOp::init` assigns every named field of the uop: the arguments to their
fields, and zero to `cond`, `som`, `eom`, `riptaken`, `ripseq`, `bytes`, `tagcount`,
`loadcount`, `storecount`, `branchcount`, `internal`, `nouserflags`, `extshift`,
`cachelevel`, `datatype`, `unaligned`, `is_sse`, `is_x87` and `index`; so the
resulting uop is a function of the arguments only, the same from any previous
contents, and `rbimm`, `rcimm`, `setflags` and `memid` default to 0. -/
theorem C19_init_assigns_every_field (self other : TransOp)
    (opcode rd ra rb rc size rbimm rcimm : Int) (setflags : Nat) (memid : Int) :
    self.init opcode rd ra rb rc size rbimm rcimm setflags memid =
        ⟨⟨bitfield 7 opcode, bitfield 2 size, 0, 0, 0, bitfield 3 (setflags : Int), 0,
          bitfield 8 memid, bitfield 7 rd, bitfield 7 ra, bitfield 7 rb, bitfield 7 rc,
          0, 0, 0, 0, 0, 0, 0, 0, 0, 0, 0, 0, 0⟩, rbimm, rcimm, 0, 0⟩
      ∧ other.init opcode rd ra rb rc size rbimm rcimm setflags memid
          = self.init opcode rd ra rb rc size rbimm rcimm setflags memid
      ∧ self.init6 opcode rd ra rb rc size = self.init opcode rd ra rb rc size 0 0 0 0
      ∧ self.init7 opcode rd ra rb rc size rbimm
          = self.init opcode rd ra rb rc size rbimm 0 0 0
      ∧ self.init8 opcode rd ra rb rc size rbimm rcimm
          = self.init opcode rd ra rb rc size rbimm rcimm 0 0
      ∧ self.init9 opcode rd ra rb rc size rbimm rcimm setflags
          = self.init opcode rd ra rb rc size rbimm rcimm setflags 0
      ∧ (self.init6 opcode rd ra rb rc size).rbimm = 0
      ∧ (self.init6 opcode rd ra rb rc size).rcimm = 0
      ∧ (self.init6 opcode rd ra rb rc size).setflags = 0
      ∧ (self.init6 opcode rd ra rb rc size).memid = 0 := by
  refine ⟨TransOp.init_eq _ _ _ _ _ _ _ _ _ _ _, ?_, rfl, rfl, rfl, rfl, rfl, rfl, rfl, rfl⟩
  rw [TransOp.init_eq, TransOp.init_eq]

/-- C20: the 7-bit fields hold every opcode below `OP_MAX_OPCODE` and every register
index below `TRANSREG_COUNT` (`REG_imm`, `REG_mem`, `REG_zf`, `REG_cf`, `REG_of`
among them) unchanged, as the fields `size`, `setflags` and `memid` hold every size
`0..3`, setflags `0..7` and memid `0..255`; whatever the argument, the field holds it
reduced modulo `2^width`. -/
theorem C20_fields_hold_their_domain (self : TransOp)
    (opcode rd ra rb rc size rbimm rcimm : Int) (setflags : Nat) (memid : Int) :
    (OP_MAX_OPCODE ≤ 2 ^ 7 ∧ TRANSREG_COUNT ≤ 2 ^ 7)
      ∧ (REG_imm < TRANSREG_COUNT ∧ REG_mem < TRANSREG_COUNT ∧ REG_zf < TRANSREG_COUNT
          ∧ REG_cf < TRANSREG_COUNT ∧ REG_of < TRANSREG_COUNT)
      ∧ (0 ≤ opcode → opcode < OP_MAX_OPCODE →
          ((self.init opcode rd ra rb rc size rbimm rcimm setflags memid).opcode.val : Int)
            = opcode)
      ∧ (0 ≤ rd → rd < TRANSREG_COUNT →
          ((self.init opcode rd ra rb rc size rbimm rcimm setflags memid).rd.val : Int) = rd)
      ∧ (0 ≤ ra → ra < TRANSREG_COUNT →
          ((self.init opcode rd ra rb rc size rbimm rcimm setflags memid).ra.val : Int) = ra)
      ∧ (0 ≤ rb → rb < TRANSREG_COUNT →
          ((self.init opcode rd ra rb rc size rbimm rcimm setflags memid).rb.val : Int) = rb)
      ∧ (0 ≤ rc → rc < TRANSREG_COUNT →
          ((self.init opcode rd ra rb rc size rbimm rcimm setflags memid).rc.val : Int) = rc)
      ∧ (0 ≤ size → size ≤ 3 →
          ((self.init opcode rd ra rb rc size rbimm rcimm setflags memid).size.val : Int)
            = size)
      ∧ (setflags ≤ 7 →
          (self.init opcode rd ra rb rc size rbimm rcimm setflags memid).setflags.val
            = setflags)
      ∧ (0 ≤ memid → memid ≤ 255 →
          ((self.init opcode rd ra rb rc size rbimm rcimm setflags memid).memid.val : Int)
            = memid)
      ∧ ((self.init opcode rd ra rb rc size rbimm rcimm setflags memid).opcode.val : Int)
          = opcode % 2 ^ 7
      ∧ ((self.init opcode rd ra rb rc size rbimm rcimm setflags memid).rd.val : Int)
          = rd % 2 ^ 7
      ∧ ((self.init opcode rd ra rb rc size rbimm rcimm setflags memid).ra.val : Int)
          = ra % 2 ^ 7
      ∧ ((self.init opcode rd ra rb rc size rbimm rcimm setflags memid).rb.val : Int)
          = rb % 2 ^ 7
      ∧ ((self.init opcode rd ra rb rc size rbimm rcimm setflags memid).rc.val : Int)
          = rc % 2 ^ 7
      ∧ ((self.init opcode rd ra rb rc size rbimm rcimm setflags memid).size.val : Int)
          = size % 2 ^ 2
      ∧ (self.init opcode rd ra rb rc size rbimm rcimm setflags memid).setflags.val
          = setflags % 2 ^ 3
      ∧ ((self.init opcode rd ra rb rc size rbimm rcimm setflags memid).memid.val : Int)
          = memid % 2 ^ 8 := by
  have hop : (OP_MAX_OPCODE : Int) = 95 := by decide
  have hreg : (TRANSREG_COUNT : Int) = 80 := by decide
  have hsf : ((bitfield 3 (setflags : Int)).val : Int) = ((setflags % 2 ^ 3 : Nat) : Int) := by
    rw [bitfield_val]; push_cast; rfl
  have hsf2 : (bitfield 3 (setflags : Int)).val = setflags % 2 ^ 3 := Int.ofNat_inj.mp hsf
  rw [TransOp.init_eq]
  refine ⟨by decide, by decide, ?_, ?_, ?_, ?_, ?_, ?_, ?_, ?_,
    bitfield_val _ _, bitfield_val _ _, bitfield_val _ _, bitfield_val _ _, bitfield_val _ _,
    bitfield_val _ _, hsf2, bitfield_val _ _⟩
  · intro h0 h1; exact bitfield_val_of_range 7 opcode h0 (by omega)
  · intro h0 h1; exact bitfield_val_of_range 7 rd h0 (by omega)
  · intro h0 h1; exact bitfield_val_of_range 7 ra h0 (by omega)
  · intro h0 h1; exact bitfield_val_of_range 7 rb h0 (by omega)
  · intro h0 h1; exact bitfield_val_of_range 7 rc h0 (by omega)
  · intro h0 h1; exact bitfield_val_of_range 2 size h0 (by omega)
  · intro h; show (bitfield 3 (setflags : Int)).val = setflags
    rw [hsf2]; omega
  · intro h0 h1; exact bitfield_val_of_range 8 memid h0 (by omega)

/-! ## Theorems: bit operations on 64-bit words -/

/-- The index that `lsbindex64` gives for a word that is not 0 is the index of its
lowest set bit. -/
theorem lsbindex64Aux_spec (fuel n : Nat) (h0 : n ≠ 0) (hlt : n < 2 ^ fuel) :
    n.testBit (lsbindex64Aux fuel n) = true
      ∧ ∀ j, j < lsbindex64Aux fuel n → n.testBit j = false := by
  induction fuel generalizing n with
  | zero => simp at hlt; exact absurd hlt h0
  | succ fuel ih =>
    simp only [lsbindex64Aux]
    by_cases hodd : n % 2 = 1
    · simp only [hodd, if_true]
      refine ⟨by simp [Nat.testBit_zero, hodd], fun j hj => absurd hj (Nat.not_lt_zero j)⟩
    · simp only [hodd, if_false]
      have hn2 : n / 2 ≠ 0 := by omega
      have hlt2 : n / 2 < 2 ^ fuel := by rw [Nat.pow_succ] at hlt; omega
      obtain ⟨h1, h2⟩ := ih (n / 2) hn2 hlt2
      refine ⟨by rw [Nat.testBit_succ]; exact h1, ?_⟩
      intro j hj
      cases j with
      | zero => simp [Nat.testBit_zero]; omega
      | succ j => rw [Nat.testBit_succ]; exact h2 j (by omega)

/-- The lowest set bit of a 64-bit word that is not 0. -/
theorem lsbindex64_spec (n : Nat) (h0 : n ≠ 0) (hlt : n < 2 ^ 64) :
    n.testBit (lsbindex64 n) = true ∧ ∀ j, j < lsbindex64 n → n.testBit j = false :=
  lsbindex64Aux_spec 64 n h0 hlt

/-- The bits of the complement of a 64-bit word. -/
theorem W64_not_testBit (x j : Nat) (h : x < 2 ^ 64) :
    (W64_not x).testBit j = (decide (j < 64) && !x.testBit j) := by
  have : W64_not x = 2 ^ 64 - (x + 1) := by simp only [W64_not]; omega
  rw [this, Nat.testBit_two_pow_sub_succ h]

/-- A word below `2^n` has no bit set at `n` or above. -/
theorem testBit_false_of_lt (x n j : Nat) (h : x < 2 ^ n) (hj : n ≤ j) :
    x.testBit j = false :=
  Nat.testBit_lt_two_pow (Nat.lt_of_lt_of_le h (Nat.pow_le_pow_right (by decide) hj))

/-- A set bit of a word below `2^n` has an index below `n`. -/
theorem lt_of_testBit (x n j : Nat) (h : x < 2 ^ n) (hj : x.testBit j = true) : j < n := by
  by_contra hge
  rw [testBit_false_of_lt x n j h (by omega)] at hj
  cases hj

/-- The bits of `ALL_FREE`: the bits of the slots. -/
theorem ChunkHashtableBlock.ALL_FREE_testBit (entries_per_chunk j : Nat) :
    (ChunkHashtableBlock.ALL_FREE entries_per_chunk).testBit j
      = decide (j < entries_per_chunk) := by
  simp only [ChunkHashtableBlock.ALL_FREE, Nat.one_shiftLeft, Nat.testBit_two_pow_sub_one]

/-- The bits of the word `match` before the free slots are masked out. -/
theorem ChunkHashtableBlock.matchbits_testBit {T : Type} [DecidableEq T]
    (entries_per_chunk : Nat) (c : ChunkHashtableBlock T) (entry : T) (j : Nat) :
    (c.matchbits entries_per_chunk entry).testBit j
      = (decide (j < entries_per_chunk) && decide (c.data j = entry)) := by
  induction entries_per_chunk with
  | zero => simp [ChunkHashtableBlock.matchbits]
  | succ n ih =>
    have hstep : c.matchbits (n + 1) entry
        = c.matchbits n entry ||| ((if c.data n = entry then 1 else 0) <<< n) := by
      simp only [ChunkHashtableBlock.matchbits, List.range_succ, List.foldl_append,
        List.foldl_cons, List.foldl_nil]
    rw [hstep, Nat.testBit_or, ih, Nat.testBit_shiftLeft]
    by_cases hjn : j = n
    · subst hjn
      by_cases hd : c.data j = entry <;> simp [hd]
    · by_cases hlt : j < n
      · have h1 : ¬ j ≥ n := by omega
        have h2 : j < n + 1 := by omega
        simp [hlt, h1, h2]
      · have h1 : j ≥ n := by omega
        have h2 : ¬ j < n + 1 := by omega
        have h3 : j - n = (j - n - 1) + 1 := by omega
        by_cases hd : c.data n = entry
        · simp only [hd, if_true, hlt, h1, h2, decide_True, decide_False, Bool.false_and,
            Bool.true_and, Bool.false_or]
          rw [h3, Nat.testBit_succ]
          simp
        · simp [hd, hlt, h2]

/-! ## Theorems: the chunks of a ChunkHashtable -/

/-- The bits of the word `match` of `operator ()` after the free slots are masked
out: the occupied slots that hold the entry. -/
theorem ChunkHashtableBlock.match_testBit {T : Type} [DecidableEq T]
    (entries_per_chunk : Nat) (c : ChunkHashtableBlock T) (entry : T) (j : Nat)
    (hepc : entries_per_chunk ≤ 64) (hf : c.freemap < 2 ^ 64) :
    (c.matchbits entries_per_chunk entry &&& W64_not c.freemap).testBit j
      = (decide (j < entries_per_chunk) && decide (c.data j = entry)
          && !c.freemap.testBit j) := by
  rw [Nat.testBit_and, ChunkHashtableBlock.matchbits_testBit, W64_not_testBit _ _ hf]
  by_cases hj : j < entries_per_chunk
  · have h64 : j < 64 := by omega
    simp [hj, h64]
  · simp [hj]

/-- The word `match` of `operator ()` is a 64-bit word. -/
theorem ChunkHashtableBlock.match_lt {T : Type} [DecidableEq T]
    (entries_per_chunk : Nat) (c : ChunkHashtableBlock T) (entry : T) :
    c.matchbits entries_per_chunk entry &&& W64_not c.freemap < 2 ^ 64 := by
  apply Nat.and_lt_two_pow
  simp only [W64_not]
  omega

/-- The slot that the lookup of a chunk returns is the lowest occupied slot that
holds the entry. -/
theorem ChunkHashtableBlock.lookup_eq_some {T : Type} [DecidableEq T]
    (entries_per_chunk : Nat) (c : ChunkHashtableBlock T) (entry : T) (idx : Nat)
    (hepc : entries_per_chunk ≤ 64) (hf : c.freemap < 2 ^ 64)
    (h : c.lookup entries_per_chunk entry = some idx) :
    idx < entries_per_chunk ∧ c.freemap.testBit idx = false ∧ c.data idx = entry
      ∧ ∀ j, j < idx → ¬ (c.freemap.testBit j = false ∧ c.data j = entry) := by
  simp only [ChunkHashtableBlock.lookup] at h
  by_cases hm : c.matchbits entries_per_chunk entry &&& W64_not c.freemap = 0
  · simp [hm] at h
  · simp only [ne_eq, hm, not_false_eq_true, if_true, Option.some.injEq] at h
    obtain ⟨h1, h2⟩ := lsbindex64_spec _ hm (ChunkHashtableBlock.match_lt _ c entry)
    rw [h] at h1 h2
    rw [ChunkHashtableBlock.match_testBit _ c entry idx hepc hf] at h1
    simp only [Bool.and_eq_true, decide_eq_true_eq, Bool.not_eq_true'] at h1
    refine ⟨h1.1.1, h1.2, h1.1.2, ?_⟩
    intro j hj hcon
    have := h2 j hj
    rw [ChunkHashtableBlock.match_testBit _ c entry j hepc hf] at this
    have hjl : j < entries_per_chunk := by omega
    simp [hjl, hcon.1, hcon.2] at this

/-- When the lookup of a chunk returns null, no occupied slot holds the entry. -/
theorem ChunkHashtableBlock.lookup_eq_none {T : Type} [DecidableEq T]
    (entries_per_chunk : Nat) (c : ChunkHashtableBlock T) (entry : T)
    (hepc : entries_per_chunk ≤ 64) (hf : c.freemap < 2 ^ 64)
    (h : c.lookup entries_per_chunk entry = none) :
    ¬ c.stores entries_per_chunk entry := by
  rintro ⟨j, hj, hfree, hdata⟩
  simp only [ChunkHashtableBlock.lookup] at h
  by_cases hm : c.matchbits entries_per_chunk entry &&& W64_not c.freemap = 0
  · have hb := ChunkHashtableBlock.match_testBit _ c entry j hepc hf
    rw [hm] at hb
    simp [hj, hfree, hdata] at hb
  · simp [hm] at h

/-- The lookup of a chunk finds an entry exactly when the chunk stores it. -/
theorem ChunkHashtableBlock.lookup_isSome_iff {T : Type} [DecidableEq T]
    (entries_per_chunk : Nat) (c : ChunkHashtableBlock T) (entry : T)
    (hepc : entries_per_chunk ≤ 64) (hf : c.freemap < 2 ^ 64) :
    (c.lookup entries_per_chunk entry).isSome = true ↔ c.stores entries_per_chunk entry := by
  constructor
  · intro h
    cases hl : c.lookup entries_per_chunk entry with
    | none => rw [hl] at h; cases h
    | some idx =>
      obtain ⟨h1, h2, h3, _⟩ := ChunkHashtableBlock.lookup_eq_some _ c entry idx hepc hf hl
      exact ⟨idx, h1, h2, h3⟩
  · intro h
    cases hl : c.lookup entries_per_chunk entry with
    | none => exact absurd h (ChunkHashtableBlock.lookup_eq_none _ c entry hepc hf hl)
    | some idx => rfl

/-- The method `add` of a chunk that is not full and keeps its `freemap` within the
bits of its slots: it returns true, takes the lowest free slot `idx`, clears the bit
of that slot and stores the entry there. -/
theorem ChunkHashtableBlock.add_spec {T : Type} (entries_per_chunk : Nat)
    (c : ChunkHashtableBlock T) (entry : T) (hepc : entries_per_chunk ≤ 64)
    (hf : c.freemap < 2 ^ entries_per_chunk) (h0 : c.freemap ≠ 0) :
    ∃ idx, idx < entries_per_chunk ∧ c.freemap.testBit idx = true
      ∧ (∀ j, j < idx → c.freemap.testBit j = false)
      ∧ (c.add entries_per_chunk entry).1 = true
      ∧ (c.add entries_per_chunk entry).2.data = Function.update c.data idx entry
      ∧ (∀ j, (c.add entries_per_chunk entry).2.freemap.testBit j
          = (c.freemap.testBit j && decide (j ≠ idx)))
      ∧ (c.add entries_per_chunk entry).2.freemap < 2 ^ entries_per_chunk := by
  have h64 : c.freemap < 2 ^ 64 :=
    Nat.lt_of_lt_of_le hf (Nat.pow_le_pow_right (by decide) hepc)
  obtain ⟨h1, h2⟩ := lsbindex64_spec c.freemap h0 h64
  have hidx : lsbindex64 c.freemap < entries_per_chunk := lt_of_testBit _ _ _ hf h1
  have hadd : c.add entries_per_chunk entry
      = (true, ⟨c.freemap &&& W64_not (1 <<< lsbindex64 c.freemap),
          Function.update c.data (lsbindex64 c.freemap) entry⟩) := by
    simp only [ChunkHashtableBlock.add]
    rw [if_neg]
    intro hor
    rcases hor with h | h
    · exact h0 h
    · omega
  have hpow : (1 <<< lsbindex64 c.freemap) < 2 ^ 64 := by
    rw [Nat.one_shiftLeft]
    exact Nat.pow_lt_pow_right (by decide) (by omega)
  refine ⟨lsbindex64 c.freemap, hidx, h1, h2, by rw [hadd], by rw [hadd], ?_, ?_⟩
  · intro j
    rw [hadd]
    show (c.freemap &&& W64_not (1 <<< lsbindex64 c.freemap)).testBit j = _
    rw [Nat.testBit_and, W64_not_testBit _ _ hpow, Nat.one_shiftLeft, Nat.testBit_two_pow]
    by_cases hb : c.freemap.testBit j = true
    · have hj64 : j < 64 := lt_of_testBit _ _ _ h64 hb
      by_cases hji : j = lsbindex64 c.freemap
      · simp [hb, hj64, hji]
      · have hji2 : ¬ lsbindex64 c.freemap = j := fun h => hji h.symm
        simp [hb, hj64, hji, hji2]
    · simp [hb]
  · rw [hadd]
    show c.freemap &&& W64_not (1 <<< lsbindex64 c.freemap) < 2 ^ entries_per_chunk
    exact Nat.lt_of_le_of_lt Nat.and_le_left hf

/-- The method `remove` of a chunk that stores the entry in slot `idx`, the slot its
lookup returns: the bit of that slot is set, nothing else changes. -/
theorem ChunkHashtableBlock.remove_some {T : Type} [DecidableEq T]
    (entries_per_chunk : Nat) (c : ChunkHashtableBlock T) (entry : T) (idx : Nat)
    (h : c.lookup entries_per_chunk entry = some idx) :
    c.remove entries_per_chunk entry
      = (decide (c.freemap ||| (1 <<< idx) = ChunkHashtableBlock.ALL_FREE entries_per_chunk),
          ⟨c.freemap ||| (1 <<< idx), c.data⟩) := by
  simp only [ChunkHashtableBlock.remove, h]

/-- The method `remove` of a chunk in which the lookup finds nothing: the chunk is
unchanged. -/
theorem ChunkHashtableBlock.remove_none {T : Type} [DecidableEq T]
    (entries_per_chunk : Nat) (c : ChunkHashtableBlock T) (entry : T)
    (h : c.lookup entries_per_chunk entry = none) :
    c.remove entries_per_chunk entry
      = (decide (c.freemap = ChunkHashtableBlock.ALL_FREE entries_per_chunk), c) := by
  simp only [ChunkHashtableBlock.remove, h]

/-- A word below `2^n` other than `2^n - 1` has a clear bit below `n`. -/
theorem exists_clear_bit (x n : Nat) (hlt : x < 2 ^ n) (hne : x ≠ 2 ^ n - 1) :
    ∃ i, i < n ∧ x.testBit i = false := by
  by_contra hcon
  apply hne
  apply Nat.eq_of_testBit_eq
  intro i
  rw [Nat.testBit_two_pow_sub_one]
  by_cases hi : i < n
  · have : x.testBit i = true := by
      cases hb : x.testBit i with
      | true => rfl
      | false => exact absurd ⟨i, hi, hb⟩ hcon
    simp [this, hi]
  · simp [hi, testBit_false_of_lt x n i hlt (by omega)]

/-! ## Theorems: ChunkHashtable -/

/-- A chunk just constructed can take an entry: its `freemap` is within the bits of
its slots and is not 0. -/
theorem ChunkHashtableBlock.new_freemap {T : Type} [Zero T] (entries_per_chunk : Nat)
    (h1 : 1 ≤ entries_per_chunk) :
    (ChunkHashtableBlock.new entries_per_chunk : ChunkHashtableBlock T).freemap
        < 2 ^ entries_per_chunk
      ∧ (ChunkHashtableBlock.new entries_per_chunk : ChunkHashtableBlock T).freemap ≠ 0 := by
  have hpos : 0 < 2 ^ entries_per_chunk := Nat.pos_pow_of_pos _ (by decide)
  have hge : 2 ≤ 2 ^ entries_per_chunk := by
    calc 2 = 2 ^ 1 := rfl
      _ ≤ 2 ^ entries_per_chunk := Nat.pow_le_pow_right (by decide) h1
  simp only [ChunkHashtableBlock.new, ChunkHashtableBlock.ALL_FREE, Nat.one_shiftLeft]
  omega

/-- After `add` a chunk has an occupied slot: its `freemap` is not `ALL_FREE`. -/
theorem ChunkHashtableBlock.add_not_all_free {T : Type} (entries_per_chunk : Nat)
    (c : ChunkHashtableBlock T) (entry : T) (hepc : entries_per_chunk ≤ 64)
    (hf : c.freemap < 2 ^ entries_per_chunk) (h0 : c.freemap ≠ 0) :
    (c.add entries_per_chunk entry).1 = true
      ∧ (c.add entries_per_chunk entry).2.freemap < 2 ^ entries_per_chunk
      ∧ (c.add entries_per_chunk entry).2.freemap
          ≠ ChunkHashtableBlock.ALL_FREE entries_per_chunk := by
  obtain ⟨idx, hidx, _, _, hok, _, hbits, hlt⟩ :=
    ChunkHashtableBlock.add_spec entries_per_chunk c entry hepc hf h0
  refine ⟨hok, hlt, ?_⟩
  intro heq
  have h1 := hbits idx
  rw [heq, ChunkHashtableBlock.ALL_FREE_testBit] at h1
  simp [hidx] at h1

/-- The chunks that the loop of `remove` leaves in a chain keep their `freemap`
within the bits of their slots and are not all free. -/
theorem ChunkHashtable.removeloop_good {T : Type} [DecidableEq T] (entries_per_chunk : Nat)
    (entry : T) (chain : List (ChunkHashtableBlock T)) (hepc : entries_per_chunk ≤ 64)
    (h : ∀ c ∈ chain, c.freemap < 2 ^ entries_per_chunk) :
    ∀ c ∈ ChunkHashtable.removeloop entries_per_chunk entry chain,
      c.freemap < 2 ^ entries_per_chunk
        ∧ c.freemap ≠ ChunkHashtableBlock.ALL_FREE entries_per_chunk := by
  induction chain with
  | nil => intro c hc; simp [ChunkHashtable.removeloop] at hc
  | cons chunk next ih =>
    have hchunk := h chunk (List.mem_cons_self _ _)
    have h64 : chunk.freemap < 2 ^ 64 :=
      Nat.lt_of_lt_of_le hchunk (Nat.pow_le_pow_right (by decide) hepc)
    have ihn := ih (fun c hc => h c (List.mem_cons_of_mem _ hc))
    intro c hc
    simp only [ChunkHashtable.removeloop] at hc
    cases hl : chunk.lookup entries_per_chunk entry with
    | none =>
      rw [ChunkHashtableBlock.remove_none _ chunk entry hl] at hc
      by_cases hall : chunk.freemap = ChunkHashtableBlock.ALL_FREE entries_per_chunk
      · simp only [hall, decide_True, if_true] at hc
        exact ihn c hc
      · simp only [hall, decide_False] at hc
        rcases List.mem_cons.mp hc with rfl | hmem
        · exact ⟨hchunk, hall⟩
        · exact ihn c hmem
    | some idx =>
      rw [ChunkHashtableBlock.remove_some _ chunk entry idx hl] at hc
      obtain ⟨hidx, _, _, _⟩ :=
        ChunkHashtableBlock.lookup_eq_some _ chunk entry idx hepc h64 hl
      by_cases hall : chunk.freemap ||| (1 <<< idx)
          = ChunkHashtableBlock.ALL_FREE entries_per_chunk
      · simp only [hall, decide_True, if_true] at hc
        exact ihn c hc
      · simp only [hall, decide_False] at hc
        rcases List.mem_cons.mp hc with rfl | hmem
        · refine ⟨?_, hall⟩
          apply Nat.or_lt_two_pow hchunk
          rw [Nat.one_shiftLeft]
          exact Nat.pow_lt_pow_right (by decide) hidx
        · exact ihn c hmem

/-- The tables in which every linked chunk keeps its `freemap` within the bits of
its slots and has an occupied slot are closed under `add`, which does not abort on
them, and under `remove`. -/
theorem ChunkHashtable.call_good {T : Type} [Zero T] [DecidableEq T] (setof : T → Nat)
    (entries_per_chunk : Nat) (h1 : 1 ≤ entries_per_chunk) (h2 : entries_per_chunk ≤ 64)
    (ht : ChunkHashtable T) (c : ChunkHashtableCall T)
    (hgood : ∀ s, ∀ chunk ∈ ht.sets s, chunk.freemap < 2 ^ entries_per_chunk
      ∧ chunk.freemap ≠ ChunkHashtableBlock.ALL_FREE entries_per_chunk) :
    ∃ ht1, ht.call setof entries_per_chunk c = some ht1
      ∧ ∀ s, ∀ chunk ∈ ht1.sets s, chunk.freemap < 2 ^ entries_per_chunk
          ∧ chunk.freemap ≠ ChunkHashtableBlock.ALL_FREE entries_per_chunk := by
  have hupd : ∀ (chain : List (ChunkHashtableBlock T)) (a : Nat),
      (∀ chunk ∈ chain, chunk.freemap < 2 ^ entries_per_chunk
        ∧ chunk.freemap ≠ ChunkHashtableBlock.ALL_FREE entries_per_chunk) →
      ∀ s, ∀ chunk ∈ Function.update ht.sets a chain s,
        chunk.freemap < 2 ^ entries_per_chunk
          ∧ chunk.freemap ≠ ChunkHashtableBlock.ALL_FREE entries_per_chunk := by
    intro chain a hchain s chunk hmem
    by_cases hs : s = a
    · subst hs; rw [Function.update_same] at hmem; exact hchain chunk hmem
    · rw [Function.update_noteq hs] at hmem; exact hgood s chunk hmem
  have hbase : ∀ (base : ChunkHashtableBlock T) (next : List (ChunkHashtableBlock T)) (entry : T),
      base.freemap < 2 ^ entries_per_chunk → base.freemap ≠ 0 →
      (∀ chunk ∈ next, chunk.freemap < 2 ^ entries_per_chunk
        ∧ chunk.freemap ≠ ChunkHashtableBlock.ALL_FREE entries_per_chunk) →
      ∃ ht1, ht.addbase setof entries_per_chunk entry base next = some ht1
        ∧ ∀ s, ∀ chunk ∈ ht1.sets s, chunk.freemap < 2 ^ entries_per_chunk
            ∧ chunk.freemap ≠ ChunkHashtableBlock.ALL_FREE entries_per_chunk := by
    intro base next entry hf h0 hnext
    obtain ⟨hok, hlt, hne⟩ :=
      ChunkHashtableBlock.add_not_all_free entries_per_chunk base entry h2 hf h0
    have hres : ht.addbase setof entries_per_chunk entry base next
        = some ⟨ht.count, Function.update ht.sets (setof entry)
            ((base.add entries_per_chunk entry).2 :: next)⟩ := by
      simp only [ChunkHashtable.addbase, hok, if_true]
    refine ⟨_, hres, ?_⟩
    apply hupd
    intro chunk hmem
    rcases List.mem_cons.mp hmem with rfl | hmem2
    · exact ⟨hlt, hne⟩
    · exact hnext chunk hmem2
  cases c with
  | add entry =>
    obtain ⟨hnew1, hnew2⟩ :=
      ChunkHashtableBlock.new_freemap (T := T) entries_per_chunk h1
    simp only [ChunkHashtable.call, ChunkHashtable.add]
    cases hchain : ht.sets (setof entry) with
    | nil =>
      exact hbase _ [] entry hnew1 hnew2 (fun chunk hmem => by cases hmem)
    | cons base next =>
      have hall : ∀ chunk ∈ base :: next, chunk.freemap < 2 ^ entries_per_chunk
          ∧ chunk.freemap ≠ ChunkHashtableBlock.ALL_FREE entries_per_chunk := by
        intro chunk hmem
        exact hgood (setof entry) chunk (by rw [hchain]; exact hmem)
      by_cases hfull : base.full = true
      · simp only [hfull, if_true]
        exact hbase _ (base :: next) entry hnew1 hnew2 hall
      · simp only [hfull, if_false]
        have h0 : base.freemap ≠ 0 := by
          simpa [ChunkHashtableBlock.full] using hfull
        exact hbase base next entry (hall base (List.mem_cons_self _ _)).1 h0
          (fun chunk hmem => hall chunk (List.mem_cons_of_mem _ hmem))
  | remove entry =>
    refine ⟨_, rfl, ?_⟩
    apply hupd
    exact ChunkHashtable.removeloop_good entries_per_chunk entry _ h2
      (fun chunk hmem => (hgood _ chunk hmem).1)

/-- No sequence of calls aborts on a table whose chunks keep their `freemap` within
the bits of their slots and have an occupied slot each, and the table it leaves is
of that kind. -/
theorem ChunkHashtable.calls_good {T : Type} [Zero T] [DecidableEq T] (setof : T → Nat)
    (entries_per_chunk : Nat) (h1 : 1 ≤ entries_per_chunk) (h2 : entries_per_chunk ≤ 64)
    (cs : List (ChunkHashtableCall T)) (ht : ChunkHashtable T)
    (hgood : ∀ s, ∀ chunk ∈ ht.sets s, chunk.freemap < 2 ^ entries_per_chunk
      ∧ chunk.freemap ≠ ChunkHashtableBlock.ALL_FREE entries_per_chunk) :
    ∃ ht1, ht.calls setof entries_per_chunk cs = some ht1
      ∧ ∀ s, ∀ chunk ∈ ht1.sets s, chunk.freemap < 2 ^ entries_per_chunk
          ∧ chunk.freemap ≠ ChunkHashtableBlock.ALL_FREE entries_per_chunk := by
  induction cs generalizing ht with
  | nil => exact ⟨ht, rfl, hgood⟩
  | cons c cs ih =>
    obtain ⟨ht1, hcall, hgood1⟩ :=
      ChunkHashtable.call_good setof entries_per_chunk h1 h2 ht c hgood
    obtain ⟨ht2, hcalls, hgood2⟩ := ih ht1 hgood1
    exact ⟨ht2, by simp only [ChunkHashtable.calls, hcall, Option.some_bind, hcalls], hgood2⟩

/-- C14: every ChunkHashtable reached from the empty table by a sequence of `add` and
`remove` (no call of which aborts, for `entries_per_chunk` from 1 to 63) has an
occupied slot in every chunk linked into a set: a chunk whose last occupied slot a
`remove` frees is unlinked in that call. -/
theorem C14_no_empty_chunk_stays_linked {T : Type} [Zero T] [DecidableEq T]
    (setof : T → Nat) (entries_per_chunk : Nat) (cs : List (ChunkHashtableCall T))
    (h1 : 1 ≤ entries_per_chunk) (h2 : entries_per_chunk ≤ 63) :
    ∃ ht, ChunkHashtable.reached setof entries_per_chunk cs = some ht
      ∧ ∀ s, ∀ chunk ∈ ht.sets s,
          ∃ i, i < entries_per_chunk ∧ chunk.freemap.testBit i = false := by
  obtain ⟨ht, hreach, hgood⟩ := ChunkHashtable.calls_good setof entries_per_chunk h1
    (by omega) cs ChunkHashtable.init (fun s chunk hmem => by cases hmem)
  refine ⟨ht, hreach, ?_⟩
  intro s chunk hmem
  obtain ⟨hlt, hne⟩ := hgood s chunk hmem
  apply exists_clear_bit _ _ hlt
  simpa [ChunkHashtableBlock.ALL_FREE, Nat.one_shiftLeft] using hne

/-- Witness of C14: with 2 entries per chunk, after the example calls and
`remove(7)` the one chunk left has slot 1 occupied and slot 0 free. -/
theorem C14_no_empty_chunk_stays_linked_witness :
    (1 ≤ 2) ∧ (2 ≤ 63)
      ∧ (ChunkHashtable.reached (fun _ => 0) 2
          (ChunkHashtable.sample_calls ++ [.remove 7])).map
            (fun ht => (ht.sets 0).map fun chunk => chunk.freemap) = some [1]
      ∧ ∃ ht, ChunkHashtable.reached (fun _ => 0) 2
            (ChunkHashtable.sample_calls ++ [.remove 7]) = some ht
          ∧ ∀ s, ∀ chunk ∈ ht.sets s, ∃ i, i < 2 ∧ chunk.freemap.testBit i = false :=
  ⟨by decide, by decide, by decide,
    C14_no_empty_chunk_stays_linked (fun _ => 0) 2
      (ChunkHashtable.sample_calls ++ [.remove 7]) (by decide) (by decide)⟩

/-- The lookup of the table finds the entry exactly when a chunk of the chain stores
it. -/
theorem ChunkHashtable.lookuploop_isSome_iff {T : Type} [DecidableEq T]
    (entries_per_chunk : Nat) (entry : T) (pos : Nat) (chain : List (ChunkHashtableBlock T))
    (hepc : entries_per_chunk ≤ 64) (h : ∀ c ∈ chain, c.freemap < 2 ^ 64) :
    (ChunkHashtable.lookuploop entries_per_chunk entry pos chain).isSome = true
      ↔ ∃ c ∈ chain, c.stores entries_per_chunk entry := by
  induction chain generalizing pos with
  | nil => simp [ChunkHashtable.lookuploop]
  | cons chunk next ih =>
    have h64 := h chunk (List.mem_cons_self _ _)
    have ihn := ih (pos + 1) (fun c hc => h c (List.mem_cons_of_mem _ hc))
    simp only [ChunkHashtable.lookuploop]
    cases hl : chunk.lookup entries_per_chunk entry with
    | some idx =>
      have hst := (ChunkHashtableBlock.lookup_isSome_iff _ chunk entry hepc h64).mp
        (by rw [hl]; rfl)
      simp only [Option.isSome_some, true_iff]
      exact ⟨chunk, List.mem_cons_self _ _, hst⟩
    | none =>
      have hnst := ChunkHashtableBlock.lookup_eq_none _ chunk entry hepc h64 hl
      simp only
      rw [ihn]
      constructor
      · rintro ⟨c, hc, hs⟩
        exact ⟨c, List.mem_cons_of_mem _ hc, hs⟩
      · rintro ⟨c, hc, hs⟩
        rcases List.mem_cons.mp hc with rfl | hmem
        · exact absurd hs hnst
        · exact ⟨c, hmem, hs⟩

/-- After `add` the chunk stores the entry, in the slot that was its lowest free
slot, and it stores whatever it stored before. -/
theorem ChunkHashtableBlock.add_stores {T : Type} (entries_per_chunk : Nat)
    (c : ChunkHashtableBlock T) (entry : T) (hepc : entries_per_chunk ≤ 64)
    (hf : c.freemap < 2 ^ entries_per_chunk) (h0 : c.freemap ≠ 0) :
    (c.add entries_per_chunk entry).2.stores entries_per_chunk entry
      ∧ ∀ e2, c.stores entries_per_chunk e2 →
          (c.add entries_per_chunk entry).2.stores entries_per_chunk e2 := by
  obtain ⟨idx, hidx, hset, _, _, hdata, hbits, _⟩ :=
    ChunkHashtableBlock.add_spec entries_per_chunk c entry hepc hf h0
  constructor
  · refine ⟨idx, hidx, ?_, ?_⟩
    · rw [hbits]; simp
    · rw [hdata, Function.update_same]
  · rintro e2 ⟨j, hj, hfree, hd⟩
    have hne : j ≠ idx := by
      intro h; rw [h, hset] at hfree; cases hfree
    refine ⟨j, hj, ?_, ?_⟩
    · rw [hbits, hfree]; rfl
    · rw [hdata, Function.update_noteq hne]; exact hd

/-- C15: on a ChunkHashtable whose chunks keep their `freemap` within the bits of
their slots (`entries_per_chunk` from 1 to 63), `add(e)` does not abort; after it the
lookup `operator()(e)` returns a slot (not null) whose content equals `e`, and every
entry that the lookup found before the add is still found — also when a new chunk
is allocated because the head chunk is full. -/
theorem C15_add_then_lookup_finds {T : Type} [Zero T] [DecidableEq T] (setof : T → Nat)
    (entries_per_chunk : Nat) (ht : ChunkHashtable T) (e : T)
    (h1 : 1 ≤ entries_per_chunk) (h2 : entries_per_chunk ≤ 63)
    (hwf : ht.wellformed entries_per_chunk) :
    ∃ ht1, ht.add setof entries_per_chunk e = some ht1
      ∧ (∃ slot, ht1.lookup setof entries_per_chunk e = some slot
          ∧ ht1.content (setof e) slot = some e)
      ∧ ∀ e2, (ht.lookup setof entries_per_chunk e2).isSome = true →
          (ht1.lookup setof entries_per_chunk e2).isSome = true := by
  have hepc : entries_per_chunk ≤ 64 := by omega
  have hpow : 2 ^ entries_per_chunk ≤ 2 ^ 64 := Nat.pow_le_pow_right (by decide) hepc
  have hbase : ∀ (base : ChunkHashtableBlock T) (next : List (ChunkHashtableBlock T)),
      base.freemap < 2 ^ entries_per_chunk → base.freemap ≠ 0 →
      (∀ c ∈ next, c.freemap < 2 ^ entries_per_chunk) →
      (∀ e2, (∃ c ∈ ht.sets (setof e), c.stores entries_per_chunk e2) →
        ∃ c ∈ (base.add entries_per_chunk e).2 :: next, c.stores entries_per_chunk e2) →
      ∃ ht1, ht.addbase setof entries_per_chunk e base next = some ht1
        ∧ (∃ slot, ht1.lookup setof entries_per_chunk e = some slot
            ∧ ht1.content (setof e) slot = some e)
        ∧ ∀ e2, (ht.lookup setof entries_per_chunk e2).isSome = true →
            (ht1.lookup setof entries_per_chunk e2).isSome = true := by
    intro base next hf h0 hnext hkeep
    obtain ⟨hok, hlt, _⟩ :=
      ChunkHashtableBlock.add_not_all_free entries_per_chunk base e hepc hf h0
    obtain ⟨hst, _⟩ := ChunkHashtableBlock.add_stores entries_per_chunk base e hepc hf h0
    have hres : ht.addbase setof entries_per_chunk e base next
        = some ⟨ht.count, Function.update ht.sets (setof e)
            ((base.add entries_per_chunk e).2 :: next)⟩ := by
      simp only [ChunkHashtable.addbase, hok, if_true]
    have hlt64 : (base.add entries_per_chunk e).2.freemap < 2 ^ 64 := by omega
    refine ⟨_, hres, ?_, ?_⟩
    · obtain ⟨idx, hidx⟩ := Option.isSome_iff_exists.mp
        ((ChunkHashtableBlock.lookup_isSome_iff _ _ e hepc hlt64).mpr hst)
      obtain ⟨_, _, hd, _⟩ := ChunkHashtableBlock.lookup_eq_some _ _ e idx hepc hlt64 hidx
      refine ⟨(0, idx), ?_, ?_⟩
      · show ChunkHashtable.lookuploop entries_per_chunk e 0
          (Function.update ht.sets (setof e) _ (setof e)) = _
        rw [Function.update_same]
        simp only [ChunkHashtable.lookuploop, hidx]
      · show ((Function.update ht.sets (setof e) _ (setof e))[0]?).map _ = _
        rw [Function.update_same]
        simp [hd]
    · intro e2 hfound
      show (ChunkHashtable.lookuploop entries_per_chunk e2 0
        (Function.update ht.sets (setof e) _ (setof e2))).isSome = true
      by_cases hs : setof e2 = setof e
      · rw [hs, Function.update_same]
        rw [ChunkHashtable.lookuploop_isSome_iff _ _ _ _ hepc]
        · apply hkeep
          have hf2 : (ChunkHashtable.lookuploop entries_per_chunk e2 0
              (ht.sets (setof e))).isSome = true := by rw [← hs]; exact hfound
          exact (ChunkHashtable.lookuploop_isSome_iff _ _ _ _ hepc
            (fun c hc => Nat.lt_of_lt_of_le (hwf _ c hc) hpow)).mp hf2
        · intro c hc
          rcases List.mem_cons.mp hc with rfl | hmem
          · exact hlt64
          · exact Nat.lt_of_lt_of_le (hnext c hmem) hpow
      · rw [Function.update_noteq hs]
        exact hfound
  obtain ⟨hnew1, hnew2⟩ := ChunkHashtableBlock.new_freemap (T := T) entries_per_chunk h1
  simp only [ChunkHashtable.add]
  cases hchain : ht.sets (setof e) with
  | nil =>
    apply hbase _ [] hnew1 hnew2 (fun c hc => by cases hc)
    rintro e2 ⟨c, hc, _⟩
    rw [hchain] at hc
    cases hc
  | cons base next =>
    have hall : ∀ c ∈ base :: next, c.freemap < 2 ^ entries_per_chunk := by
      intro c hc
      exact hwf (setof e) c (by rw [hchain]; exact hc)
    by_cases hfull : base.full = true
    · simp only [hfull, if_true]
      apply hbase _ (base :: next) hnew1 hnew2 hall
      rintro e2 ⟨c, hc, hs⟩
      rw [hchain] at hc
      exact ⟨c, List.mem_cons_of_mem _ hc, hs⟩
    · simp only [hfull, if_false]
      have h0 : base.freemap ≠ 0 := by
        simpa [ChunkHashtableBlock.full] using hfull
      have hfb := hall base (List.mem_cons_self _ _)
      apply hbase base next hfb h0 (fun c hc => hall c (List.mem_cons_of_mem _ hc))
      rintro e2 ⟨c, hc, hs⟩
      rw [hchain] at hc
      rcases List.mem_cons.mp hc with rfl | hmem
      · exact ⟨_, List.mem_cons_self _ _,
          (ChunkHashtableBlock.add_stores entries_per_chunk c e hepc hfb h0).2 e2 hs⟩
      · exact ⟨c, List.mem_cons_of_mem _ hmem, hs⟩

/-- The chunks of the example table keep their `freemap` within two bits. -/
theorem ChunkHashtable.sample_wellformed : ChunkHashtable.sample.wellformed 2 := by
  intro s chunk hmem
  simp only [ChunkHashtable.sample] at hmem
  by_cases hs : s = 0
  · simp only [hs, if_true, List.mem_cons, List.mem_singleton, List.not_mem_nil,
      or_false] at hmem
    rcases hmem with rfl | rfl <;> decide
  · simp [hs] at hmem

/-- Witness of C15: `add(9)` on the example table, whose head chunk has a free
slot. -/
theorem C15_add_then_lookup_finds_witness :
    (1 ≤ 2) ∧ (2 ≤ 63) ∧ ChunkHashtable.sample.wellformed 2
      ∧ ∃ ht1, ChunkHashtable.sample.add (fun _ => 0) 2 9 = some ht1
          ∧ (∃ slot, ht1.lookup (fun _ => 0) 2 9 = some slot
              ∧ ht1.content 0 slot = some 9)
          ∧ ∀ e2, (ChunkHashtable.sample.lookup (fun _ => 0) 2 e2).isSome = true →
              (ht1.lookup (fun _ => 0) 2 e2).isSome = true :=
  ⟨by decide, by decide, ChunkHashtable.sample_wellformed,
    C15_add_then_lookup_finds (fun _ => 0) 2 ChunkHashtable.sample 9 (by decide) (by decide)
      ChunkHashtable.sample_wellformed⟩

/-- Two predicates that differ at one index only, where the first holds and the
second does not, differ by one in their counts below `n`. -/
theorem countP_range_succ_of_differ (n idx : Nat) (p q : Nat → Bool) (hidx : idx < n)
    (hp : p idx = true) (hq : q idx = false) (hsame : ∀ i, i ≠ idx → p i = q i) :
    (List.range n).countP p = (List.range n).countP q + 1 := by
  induction n with
  | zero => exact absurd hidx (Nat.not_lt_zero _)
  | succ n ih =>
    rw [List.range_succ, List.countP_append, List.countP_append]
    by_cases hn : idx = n
    · subst hn
      have hc : (List.range idx).countP p = (List.range idx).countP q := by
        apply List.countP_congr
        intro i hi
        have : i ≠ idx := by
          have := List.mem_range.mp hi
          omega
        rw [hsame i this]
      simp [hc, hp, hq, List.countP_cons]
    · have hlt : idx < n := by omega
      have hnn : p n = q n := hsame n (fun h => hn h.symm)
      rw [ih hlt]
      simp only [List.countP_cons, List.countP_nil, hnn]
      omega

/-- The occurrences of an entry in a chunk are not 0 exactly when the chunk stores
the entry. -/
theorem ChunkHashtableBlock.occurrences_pos_iff {T : Type} [DecidableEq T]
    (entries_per_chunk : Nat) (c : ChunkHashtableBlock T) (entry : T) :
    0 < c.occurrences entries_per_chunk entry ↔ c.stores entries_per_chunk entry := by
  simp only [ChunkHashtableBlock.occurrences, List.countP_pos_iff, List.mem_range,
    Bool.and_eq_true, Bool.not_eq_true', decide_eq_true_eq, ChunkHashtableBlock.stores]

/-- A chunk that is all free holds no occurrence of any entry. -/
theorem ChunkHashtableBlock.occurrences_all_free {T : Type} [DecidableEq T]
    (entries_per_chunk : Nat) (c : ChunkHashtableBlock T) (entry : T)
    (h : c.freemap = ChunkHashtableBlock.ALL_FREE entries_per_chunk) :
    c.occurrences entries_per_chunk entry = 0 := by
  simp only [ChunkHashtableBlock.occurrences, List.countP_eq_zero, List.mem_range]
  intro i hi
  rw [h, ChunkHashtableBlock.ALL_FREE_testBit]
  simp [hi]

/-- What `remove(entry)` does to the occurrences in a chunk: those of `entry` drop by
one when the chunk stores `entry` and are 0 otherwise, and those of any other entry
stay. -/
theorem ChunkHashtableBlock.remove_occurrences {T : Type} [DecidableEq T]
    (entries_per_chunk : Nat) (c : ChunkHashtableBlock T) (entry : T)
    (hepc : entries_per_chunk ≤ 64) (hf : c.freemap < 2 ^ 64) :
    (∀ e2, e2 ≠ entry →
        (c.remove entries_per_chunk entry).2.occurrences entries_per_chunk e2
          = c.occurrences entries_per_chunk e2)
      ∧ (c.remove entries_per_chunk entry).2.occurrences entries_per_chunk entry
          + (if (c.lookup entries_per_chunk entry).isSome then 1 else 0)
          = c.occurrences entries_per_chunk entry := by
  cases hl : c.lookup entries_per_chunk entry with
  | none =>
    rw [ChunkHashtableBlock.remove_none _ c entry hl]
    exact ⟨fun _ _ => rfl, rfl⟩
  | some idx =>
    rw [ChunkHashtableBlock.remove_some _ c entry idx hl]
    obtain ⟨hidx, hfree, hdata, _⟩ :=
      ChunkHashtableBlock.lookup_eq_some _ c entry idx hepc hf hl
    have hbit : ∀ j, (c.freemap ||| (1 <<< idx)).testBit j
        = (c.freemap.testBit j || decide (idx = j)) := by
      intro j
      rw [Nat.testBit_or, Nat.one_shiftLeft, Nat.testBit_two_pow]
    constructor
    · intro e2 hne
      simp only [ChunkHashtableBlock.occurrences]
      apply List.countP_congr
      intro i _
      rw [hbit]
      by_cases hi : idx = i
      · subst hi
        have : ¬ c.data idx = e2 := by rw [hdata]; exact fun h => hne h.symm
        simp [this]
      · simp [hi]
    · simp only [Option.isSome_some, if_true, ChunkHashtableBlock.occurrences]
      symm
      apply countP_range_succ_of_differ _ idx _ _ hidx
      · simp [hfree, hdata]
      · rw [hbit]; simp
      · intro i hi
        rw [hbit]
        have : ¬ idx = i := fun h => hi h.symm
        simp [this]

/-- A chunk for which `remove` returns true is all free after the call. -/
theorem ChunkHashtableBlock.remove_true {T : Type} [DecidableEq T]
    (entries_per_chunk : Nat) (c : ChunkHashtableBlock T) (entry : T)
    (h : (c.remove entries_per_chunk entry).1 = true) :
    (c.remove entries_per_chunk entry).2.freemap
      = ChunkHashtableBlock.ALL_FREE entries_per_chunk := by
  cases hl : c.lookup entries_per_chunk entry with
  | none =>
    rw [ChunkHashtableBlock.remove_none _ c entry hl] at h ⊢
    simpa using h
  | some idx =>
    rw [ChunkHashtableBlock.remove_some _ c entry idx hl] at h ⊢
    simpa using h

/-- What the loop of `remove(entry)` does to the occurrences in a chain: those of
`entry` drop by the number of chunks that store `entry`, those of any other entry
stay. -/
theorem ChunkHashtable.removeloop_occurrences {T : Type} [DecidableEq T]
    (entries_per_chunk : Nat) (entry : T) (chain : List (ChunkHashtableBlock T))
    (hepc : entries_per_chunk ≤ 64) (h : ∀ c ∈ chain, c.freemap < 2 ^ 64) :
    (∀ e2, e2 ≠ entry →
        ((ChunkHashtable.removeloop entries_per_chunk entry chain).map
            fun c => c.occurrences entries_per_chunk e2).sum
          = (chain.map fun c => c.occurrences entries_per_chunk e2).sum)
      ∧ ((ChunkHashtable.removeloop entries_per_chunk entry chain).map
            fun c => c.occurrences entries_per_chunk entry).sum
          + chain.countP (fun c => (c.lookup entries_per_chunk entry).isSome)
          = (chain.map fun c => c.occurrences entries_per_chunk entry).sum := by
  induction chain with
  | nil => exact ⟨fun _ _ => rfl, rfl⟩
  | cons chunk next ih =>
    obtain ⟨ih1, ih2⟩ := ih (fun c hc => h c (List.mem_cons_of_mem _ hc))
    obtain ⟨hc1, hc2⟩ := ChunkHashtableBlock.remove_occurrences entries_per_chunk chunk entry
      hepc (h chunk (List.mem_cons_self _ _))
    by_cases hflag : (chunk.remove entries_per_chunk entry).1 = true
    · have hfree := ChunkHashtableBlock.remove_true _ chunk entry hflag
      constructor
      · intro e2 hne
        have hz := ChunkHashtableBlock.occurrences_all_free entries_per_chunk _ e2 hfree
        rw [hc1 e2 hne] at hz
        simp only [ChunkHashtable.removeloop, hflag, if_true, List.map_cons, List.sum_cons]
        rw [ih1 e2 hne, hz, Nat.zero_add]
      · have hz := ChunkHashtableBlock.occurrences_all_free entries_per_chunk _ entry hfree
        simp only [ChunkHashtable.removeloop, hflag, if_true, List.map_cons, List.sum_cons,
          List.countP_cons]
        omega
    · constructor
      · intro e2 hne
        simp only [ChunkHashtable.removeloop, hflag, Bool.false_eq_true, if_false,
          List.map_cons, List.sum_cons]
        rw [ih1 e2 hne, hc1 e2 hne]
      · simp only [ChunkHashtable.removeloop, hflag, Bool.false_eq_true, if_false,
          List.map_cons, List.sum_cons, List.countP_cons]
        omega

/-- The loop of `remove(entry)` leaves a chain as it is when no chunk of the chain
stores `entry` and none is all free. -/
theorem ChunkHashtable.removeloop_eq_self {T : Type} [DecidableEq T]
    (entries_per_chunk : Nat) (entry : T) (chain : List (ChunkHashtableBlock T))
    (hepc : entries_per_chunk ≤ 64) (h : ∀ c ∈ chain, c.freemap < 2 ^ 64)
    (hns : ∀ c ∈ chain, ¬ c.stores entries_per_chunk entry)
    (hne : ∀ c ∈ chain, c.freemap ≠ ChunkHashtableBlock.ALL_FREE entries_per_chunk) :
    ChunkHashtable.removeloop entries_per_chunk entry chain = chain := by
  induction chain with
  | nil => rfl
  | cons chunk next ih =>
    have hl : chunk.lookup entries_per_chunk entry = none := by
      cases hl : chunk.lookup entries_per_chunk entry with
      | none => rfl
      | some idx =>
        exact absurd ((ChunkHashtableBlock.lookup_isSome_iff _ chunk entry hepc
          (h chunk (List.mem_cons_self _ _))).mp (by rw [hl]; rfl))
          (hns chunk (List.mem_cons_self _ _))
    simp only [ChunkHashtable.removeloop, ChunkHashtableBlock.remove_none _ chunk entry hl,
      hne chunk (List.mem_cons_self _ _), decide_False, Bool.false_eq_true, if_false]
    rw [ih (fun c hc => h c (List.mem_cons_of_mem _ hc))
      (fun c hc => hns c (List.mem_cons_of_mem _ hc))
      (fun c hc => hne c (List.mem_cons_of_mem _ hc))]

/-- C16 (as stated) fails when two chunks store the entry: with 2 entries per chunk,
after `add(7)`, `add(8)`, `add(7)` the entry 7 is stored twice, in two chunks of its
set, and `remove(7)` leaves no occurrence of 7. -/
theorem C16_remove_frees_a_slot_in_each_chunk :
    (ChunkHashtable.reached (fun _ => 0) 2 ChunkHashtable.sample_calls).map
        (fun ht => ht.occurrences 2 0 7) = some 2
      ∧ (ChunkHashtable.reached (fun _ => 0) 2 ChunkHashtable.sample_calls).map
        (fun ht => (ht.remove (fun _ => 0) 2 7).occurrences 2 0 7) = some 0 := by
  refine ⟨by decide, by decide⟩

/-- C16 (as amended): `remove(e)` frees one slot that holds `e` in every chunk of the
set of `e` that stores `e`: the stored occurrences of `e` drop by the number of those
chunks — by exactly one when a single chunk stores `e`, as when `e` is stored once —
and if `e` is not stored (and no chunk is all free) nothing changes; in every case
the other sets and the stored occurrences of every entry other than `e` are
unchanged. -/
theorem C16_remove_frees_one_slot_per_chunk {T : Type} [DecidableEq T] (setof : T → Nat)
    (entries_per_chunk : Nat) (ht : ChunkHashtable T) (e : T)
    (h2 : entries_per_chunk ≤ 63) (hwf : ht.wellformed entries_per_chunk) :
    (∀ s, s ≠ setof e → (ht.remove setof entries_per_chunk e).sets s = ht.sets s)
      ∧ (∀ e2, e2 ≠ e → ∀ s,
          (ht.remove setof entries_per_chunk e).occurrences entries_per_chunk s e2
            = ht.occurrences entries_per_chunk s e2)
      ∧ (ht.remove setof entries_per_chunk e).occurrences entries_per_chunk (setof e) e
          + (ht.sets (setof e)).countP (fun c => (c.lookup entries_per_chunk e).isSome)
          = ht.occurrences entries_per_chunk (setof e) e
      ∧ (ht.occurrences entries_per_chunk (setof e) e = 1 →
          (ht.remove setof entries_per_chunk e).occurrences entries_per_chunk (setof e) e = 0)
      ∧ ((∀ c ∈ ht.sets (setof e), ¬ c.stores entries_per_chunk e) →
          (∀ c ∈ ht.sets (setof e),
            c.freemap ≠ ChunkHashtableBlock.ALL_FREE entries_per_chunk) →
          ht.remove setof entries_per_chunk e = ht) := by
  have hepc : entries_per_chunk ≤ 64 := by omega
  have hpow : 2 ^ entries_per_chunk ≤ 2 ^ 64 := Nat.pow_le_pow_right (by decide) hepc
  have h64 : ∀ c ∈ ht.sets (setof e), c.freemap < 2 ^ 64 :=
    fun c hc => Nat.lt_of_lt_of_le (hwf _ c hc) hpow
  obtain ⟨hr1, hr2⟩ := ChunkHashtable.removeloop_occurrences entries_per_chunk e
    (ht.sets (setof e)) hepc h64
  have hsets : ∀ s, (ht.remove setof entries_per_chunk e).sets s
      = Function.update ht.sets (setof e)
          (ChunkHashtable.removeloop entries_per_chunk e (ht.sets (setof e))) s :=
    fun s => rfl
  have hocc : (ht.remove setof entries_per_chunk e).occurrences entries_per_chunk (setof e) e
      + (ht.sets (setof e)).countP (fun c => (c.lookup entries_per_chunk e).isSome)
      = ht.occurrences entries_per_chunk (setof e) e := by
    simp only [ChunkHashtable.occurrences, hsets, Function.update_same]
    exact hr2
  refine ⟨?_, ?_, hocc, ?_, ?_⟩
  · intro s hs
    rw [hsets, Function.update_noteq hs]
  · intro e2 hne s
    simp only [ChunkHashtable.occurrences, hsets]
    by_cases hs : s = setof e
    · subst hs; rw [Function.update_same]; exact hr1 e2 hne
    · rw [Function.update_noteq hs]
  · intro hone
    have hpos : 0 < (ht.sets (setof e)).countP
        (fun c => (c.lookup entries_per_chunk e).isSome) := by
      rw [List.countP_pos_iff]
      have hsum : 0 < ((ht.sets (setof e)).map
          fun c => c.occurrences entries_per_chunk e).sum := by
        have : ht.occurrences entries_per_chunk (setof e) e
            = ((ht.sets (setof e)).map fun c => c.occurrences entries_per_chunk e).sum := rfl
        omega
      obtain ⟨n, hn, hnpos⟩ := List.exists_lt_of_sum_lt (l := (ht.sets (setof e)))
        (f := fun _ => 0) (g := fun c => c.occurrences entries_per_chunk e)
        (by simpa using hsum)
      exact ⟨n, hn, (ChunkHashtableBlock.lookup_isSome_iff _ n e hepc (h64 n hn)).mpr
        ((ChunkHashtableBlock.occurrences_pos_iff _ n e).mp hnpos)⟩
    omega
  · intro hns hne
    have heq := ChunkHashtable.removeloop_eq_self entries_per_chunk e (ht.sets (setof e))
      hepc h64 hns hne
    show (⟨ht.count, Function.update ht.sets (setof e)
      (ChunkHashtable.removeloop entries_per_chunk e (ht.sets (setof e)))⟩ : ChunkHashtable T)
      = ht
    rw [heq, Function.update_eq_self]

/-- Witness of C16: `remove(8)` on the example table, one chunk of which stores 8. -/
theorem C16_remove_frees_one_slot_per_chunk_witness :
    (2 ≤ 63) ∧ ChunkHashtable.sample.wellformed 2
      ∧ ChunkHashtable.sample.occurrences 2 0 8 = 1
      ∧ (ChunkHashtable.sample.remove (fun _ => 0) 2 8).occurrences 2 0 8 = 0 :=
  ⟨by decide, ChunkHashtable.sample_wellformed, by decide,
    (C16_remove_frees_one_slot_per_chunk (fun _ => 0) 2 ChunkHashtable.sample 8 (by decide)
      ChunkHashtable.sample_wellformed).2.2.2.1 (by decide)⟩

/-! ## Theorems: lookups within one page, and the slots of a chunk -/

/-- C26: for two addresses `v1`, `v2` of the same 4096-byte page, `virt_to_pte(v2)`
right after `virt_to_pte(v1)` walks nothing, changes nothing and returns the entry that
the first call returned; when the first call missed, that entry is
`page_table_walk(v1, cr3 >> 12)`, the walk of the first address. -/
theorem C26_same_page_lookup_hits {R : Type} (walk : Nat → Nat → Level1PTE)
    (ctx : Context R) (v1 v2 : Nat) (hpage : v1 / 4096 = v2 / 4096) :
    ((ctx.virt_to_pte walk v1).ctx.virt_to_pte walk v2).walks = []
      ∧ ((ctx.virt_to_pte walk v1).ctx.virt_to_pte walk v2).pte
          = (ctx.virt_to_pte walk v1).pte
      ∧ ((ctx.virt_to_pte walk v1).ctx.virt_to_pte walk v2).ctx
          = (ctx.virt_to_pte walk v1).ctx
      ∧ (if ctx.cached_pte_virt ((v1 >>> 12) % 16) = 4096 * (v1 / 4096) then
          (ctx.virt_to_pte walk v1).pte = ctx.cached_pte ((v1 >>> 12) % 16)
        else
          (ctx.virt_to_pte walk v1).walks = [(v1, ctx.cr3 >>> 12)]
            ∧ (ctx.virt_to_pte walk v1).pte = walk v1 (ctx.cr3 >>> 12)) := by
  have hs : v1 >>> 12 = v1 / 4096 := by simp [Nat.shiftRight_eq_div_pow]
  rw [hs]
  have htag := (Context.virt_to_pte_tag walk ctx v1).1
  have hhit : (ctx.virt_to_pte walk v1).ctx.cached_pte_virt ((v2 / 4096) % 16)
      = 4096 * (v2 / 4096) := by rw [← hpage]; exact htag
  rw [Context.virt_to_pte_hit walk _ v2 hhit]
  refine ⟨rfl, ?_, rfl, ?_⟩
  · rw [← hpage]
    by_cases h : ctx.cached_pte_virt ((v1 / 4096) % 16) = 4096 * (v1 / 4096)
    · rw [Context.virt_to_pte_hit walk ctx v1 h]
    · rw [Context.virt_to_pte_miss walk ctx v1 h]
      simp
  · split
    · next h => rw [Context.virt_to_pte_hit walk ctx v1 h]
    · next h => rw [Context.virt_to_pte_miss walk ctx v1 h]; exact ⟨rfl, rfl⟩

/-- Witness of C26: the addresses `0x7123` and `0x7ff0` in a cold context. -/
theorem C26_same_page_lookup_hits_witness :
    (0x7123 / 4096 = 0x7ff0 / 4096)
      ∧ (((Context.cold 0x5000).virt_to_pte offset_walk 0x7123).ctx.virt_to_pte offset_walk
          0x7ff0).walks = [] :=
  ⟨by decide,
    (C26_same_page_lookup_hits offset_walk (Context.cold 0x5000) 0x7123 0x7ff0 (by decide)).1⟩

/-- A word below `2^n` is `2^n - 1` exactly when all its bits below `n` are set. -/
theorem eq_all_ones_iff (x n : Nat) (hlt : x < 2 ^ n) :
    x = 2 ^ n - 1 ↔ ∀ i, i < n → x.testBit i = true := by
  constructor
  · intro h i hi
    rw [h, Nat.testBit_two_pow_sub_one]
    simp [hi]
  · intro h
    by_contra hne
    obtain ⟨i, hi, hb⟩ := exists_clear_bit x n hlt hne
    rw [h i hi] at hb
    cases hb

/-- C27: in a chunk whose `freemap` is within the bits of its slots
(`entries_per_chunk` at most 63), slot `i` being occupied when bit `i` of `freemap` is
0: `add(e)` on a chunk that is not full stores `e` in the lowest free slot, marks that
slot and no other occupied and returns true, and on a full chunk returns false and
changes nothing; `operator()(e)` returns the lowest occupied slot that holds `e`, and
null exactly when no occupied slot holds `e`, whatever the free slots contain;
`remove(e)` returns true exactly when no slot is occupied afterwards. -/
theorem C27_chunk_slots_follow_freemap {T : Type} [DecidableEq T]
    (entries_per_chunk : Nat) (c : ChunkHashtableBlock T) (e : T)
    (hepc : entries_per_chunk ≤ 63) (hf : c.freemap < 2 ^ entries_per_chunk) :
    (c.full = false →
        ∃ idx, idx < entries_per_chunk ∧ c.freemap.testBit idx = true
          ∧ (∀ j, j < idx → c.freemap.testBit j = false)
          ∧ (c.add entries_per_chunk e).1 = true
          ∧ (c.add entries_per_chunk e).2.data = Function.update c.data idx e
          ∧ ∀ j, (c.add entries_per_chunk e).2.freemap.testBit j
              = (c.freemap.testBit j && decide (j ≠ idx)))
      ∧ (c.full = true → c.add entries_per_chunk e = (false, c))
      ∧ (∀ idx, c.lookup entries_per_chunk e = some idx ↔
          (idx < entries_per_chunk ∧ c.freemap.testBit idx = false ∧ c.data idx = e
            ∧ ∀ j, j < idx → ¬ (c.freemap.testBit j = false ∧ c.data j = e)))
      ∧ (c.lookup entries_per_chunk e = none ↔
          ¬ ∃ i, i < entries_per_chunk ∧ c.freemap.testBit i = false ∧ c.data i = e)
      ∧ ((c.remove entries_per_chunk e).1 = true ↔
          ∀ i, i < entries_per_chunk →
            (c.remove entries_per_chunk e).2.freemap.testBit i = true) := by
  have h64 : entries_per_chunk ≤ 64 := by omega
  have hf64 : c.freemap < 2 ^ 64 :=
    Nat.lt_of_lt_of_le hf (Nat.pow_le_pow_right (by decide) h64)
  have hall : ChunkHashtableBlock.ALL_FREE entries_per_chunk = 2 ^ entries_per_chunk - 1 := by
    simp only [ChunkHashtableBlock.ALL_FREE, Nat.one_shiftLeft]
  refine ⟨?_, ?_, ?_, ?_, ?_⟩
  · intro hfull
    have h0 : c.freemap ≠ 0 := by simpa [ChunkHashtableBlock.full] using hfull
    obtain ⟨idx, h1, h2, h3, h4, h5, h6, _⟩ :=
      ChunkHashtableBlock.add_spec entries_per_chunk c e h64 hf h0
    exact ⟨idx, h1, h2, h3, h4, h5, h6⟩
  · intro hfull
    have h0 : c.freemap = 0 := by simpa [ChunkHashtableBlock.full] using hfull
    simp [ChunkHashtableBlock.add, h0]
  · intro idx
    constructor
    · exact ChunkHashtableBlock.lookup_eq_some _ c e idx h64 hf64
    · rintro ⟨h1, h2, h3, h4⟩
      cases hl : c.lookup entries_per_chunk e with
      | none =>
        exact absurd ⟨idx, h1, h2, h3⟩
          (ChunkHashtableBlock.lookup_eq_none _ c e h64 hf64 hl)
      | some k =>
        obtain ⟨k1, k2, k3, k4⟩ := ChunkHashtableBlock.lookup_eq_some _ c e k h64 hf64 hl
        have : k = idx := by
          rcases Nat.lt_trichotomy k idx with hlt | heq | hgt
          · exact absurd ⟨k2, k3⟩ (h4 k hlt)
          · exact heq
          · exact absurd ⟨h2, h3⟩ (k4 idx hgt)
        rw [this]
  · constructor
    · exact ChunkHashtableBlock.lookup_eq_none _ c e h64 hf64
    · intro hns
      cases hl : c.lookup entries_per_chunk e with
      | none => rfl
      | some k =>
        exact absurd ((ChunkHashtableBlock.lookup_isSome_iff _ c e h64 hf64).mp
          (by rw [hl]; rfl)) hns
  · cases hl : c.lookup entries_per_chunk e with
    | none =>
      rw [ChunkHashtableBlock.remove_none _ c e hl]
      simp only [decide_eq_true_eq, hall]
      exact eq_all_ones_iff _ _ hf
    | some idx =>
      rw [ChunkHashtableBlock.remove_some _ c e idx hl]
      obtain ⟨hidx, _, _, _⟩ := ChunkHashtableBlock.lookup_eq_some _ c e idx h64 hf64 hl
      simp only [decide_eq_true_eq, hall]
      apply eq_all_ones_iff
      apply Nat.or_lt_two_pow hf
      rw [Nat.one_shiftLeft]
      exact Nat.pow_lt_pow_right (by decide) hidx

/-- Witness of C27: the example chunk, whose free slot 1 still holds the zero of its
construction; the lookup of 0 returns null. -/
theorem C27_chunk_slots_follow_freemap_witness :
    (2 ≤ 63) ∧ ChunkHashtableBlock.sample.freemap < 2 ^ 2
      ∧ ChunkHashtableBlock.sample.data 1 = 0
      ∧ (ChunkHashtableBlock.sample.lookup 2 0 = none ↔
          ¬ ∃ i, i < 2 ∧ ChunkHashtableBlock.sample.freemap.testBit i = false
            ∧ ChunkHashtableBlock.sample.data i = 0) :=
  ⟨by decide, by decide, by decide,
    (C27_chunk_slots_follow_freemap 2 ChunkHashtableBlock.sample 0 (by decide)
      (by decide)).2.2.2.1⟩

/-! ## Theorems: segment descriptors -/

/-- The conversion to `W64` of an `int` that is not negative. -/
theorem int_to_W64_natCast (n : Nat) (h : n < 2 ^ 64) : int_to_W64 (n : Int) = n := by
  unfold int_to_W64
  have h1 : ((n : Int) % 2 ^ 64) = (n : Int) := by omega
  rw [h1]; simp

/-- The conversion to `W64` of a negative `int`: sign extension. -/
theorem int_to_W64_neg (n : Nat) (h0 : 0 < n) (h : n ≤ 2 ^ 64) :
    int_to_W64 (-(n : Int)) = 2 ^ 64 - n := by
  unfold int_to_W64
  have h1 : ((-(n : Int)) % 2 ^ 64) = ((2 ^ 64 - n : Nat) : Int) := by omega
  rw [h1]; simp

/-- The `int` sum `b0 + (b1 << 16) + (b2 << 24)` of three fields of 16, 8 and 8
bits: the 32-bit value they spell, read as a signed number. -/
theorem int_sum_of_fields (b0 b1 b2 : Nat) (h0 : b0 < 2 ^ 16) (h1 : b1 < 2 ^ 8)
    (h2 : b2 < 2 ^ 8) :
    int_add (int_add (b0 : Int) (int_shl (b1 : Int) 16)) (int_shl (b2 : Int) 24)
      = if b2 < 2 ^ 7 then ((b0 + b1 * 2 ^ 16 + b2 * 2 ^ 24 : Nat) : Int)
        else ((b0 + b1 * 2 ^ 16 + b2 * 2 ^ 24 : Nat) : Int) - 2 ^ 32 := by
  have e1 : int_shl (b1 : Int) 16 = (b1 : Int) * 2 ^ 16 :=
    wrap32_of_range _ (by omega) (by omega)
  have e2 : int_add (b0 : Int) ((b1 : Int) * 2 ^ 16) = (b0 : Int) + (b1 : Int) * 2 ^ 16 :=
    wrap32_of_range _ (by omega) (by omega)
  rw [e1, e2]
  by_cases hb : b2 < 2 ^ 7
  · have e3 : int_shl (b2 : Int) 24 = (b2 : Int) * 2 ^ 24 :=
      wrap32_of_range _ (by omega) (by omega)
    rw [e3, if_pos hb]
    have e4 : int_add ((b0 : Int) + (b1 : Int) * 2 ^ 16) ((b2 : Int) * 2 ^ 24)
        = (b0 : Int) + (b1 : Int) * 2 ^ 16 + (b2 : Int) * 2 ^ 24 :=
      wrap32_of_range _ (by omega) (by omega)
    rw [e4]; push_cast; rfl
  · have e3 : int_shl (b2 : Int) 24 = (b2 : Int) * 2 ^ 24 - 2 ^ 32 := by
      unfold int_shl wrap32; omega
    rw [e3, if_neg hb]
    have e4 : int_add ((b0 : Int) + (b1 : Int) * 2 ^ 16) ((b2 : Int) * 2 ^ 24 - 2 ^ 32)
        = (b0 : Int) + (b1 : Int) * 2 ^ 16 + ((b2 : Int) * 2 ^ 24 - 2 ^ 32) :=
      wrap32_of_range _ (by omega) (by omega)
    rw [e4]; push_cast; ring

/-- The base read back after `setbase(addr)`: `addr` itself below `2^31`, and `addr`
with the upper 32 bits set from `2^31` on. -/
theorem SegmentDescriptor.getbase_setbase (d : SegmentDescriptor) (addr : Nat)
    (h : addr < 2 ^ 32) :
    (d.setbase addr).map SegmentDescriptor.getbase =
      some (if addr < 2 ^ 31 then addr else addr + (2 ^ 64 - 2 ^ 32)) := by
  have h0 : addr >>> 32 = 0 := by
    rw [Nat.shiftRight_eq_div_pow]; omega
  simp only [SegmentDescriptor.setbase, h0, if_true, Option.map_some', Option.some.injEq,
    SegmentDescriptor.getbase, bitfield_of_nat, lowbits, bits, Nat.shiftRight_eq_div_pow]
  rw [int_sum_of_fields _ _ _ (by omega) (by omega) (by omega)]
  have hsum : addr % 2 ^ 16 % 2 ^ 16 + addr / 2 ^ 16 % 2 ^ 8 % 2 ^ 8 * 2 ^ 16
      + addr / 2 ^ 24 % 2 ^ 8 % 2 ^ 8 * 2 ^ 24 = addr := by omega
  rw [hsum]
  by_cases hlt : addr < 2 ^ 31
  · have hb : addr / 2 ^ 24 % 2 ^ 8 % 2 ^ 8 < 2 ^ 7 := by omega
    rw [if_pos hlt, if_pos hb]
    exact int_to_W64_natCast _ (by omega)
  · have hb : ¬ addr / 2 ^ 24 % 2 ^ 8 % 2 ^ 8 < 2 ^ 7 := by omega
    rw [if_neg hlt, if_neg hb]
    have e : (addr : Int) - 2 ^ 32 = -((2 ^ 32 - addr : Nat) : Int) := by omega
    rw [e, int_to_W64_neg _ (by omega) (by omega)]; omega

/-- `setbase(addr)` fails its assertion exactly from `2^32` on. -/
theorem SegmentDescriptor.setbase_eq_none (d : SegmentDescriptor) (addr : Nat) :
    d.setbase addr = none ↔ 2 ^ 32 ≤ addr := by
  unfold SegmentDescriptor.setbase
  rw [Nat.shiftRight_eq_div_pow]
  by_cases h : addr / 2 ^ 32 = 0
  · simp only [h, if_true]
    constructor
    · intro h1; cases h1
    · intro h1; omega
  · simp only [h, if_false, true_iff]
    omega

/-- C29, at the address `0x80000000`: after `setbase(0x80000000)` on the all-zero
descriptor, `getbase()` returns `0xffffffff80000000`, not `0x80000000`: the `int`
sum `base0 + (base1 << 16) + (base2 << 24)` is negative when bit 31 of the address
is set, and its conversion to `W64` sets the upper 32 bits. -/
theorem C29_getbase_sign_extends :
    (SegmentDescriptor.zero.setbase 0x80000000).map SegmentDescriptor.getbase
      = some 0xffffffff80000000 := by
  rw [SegmentDescriptor.getbase_setbase _ _ (by norm_num)]
  norm_num

/-- The `int` sum `l0 + (l1 << 16)` of two fields of 16 and 4 bits, as a `W64`: the
20-bit value they spell. -/
theorem int_sum_of_limit_fields (l0 l1 : Nat) (h0 : l0 < 2 ^ 16) (h1 : l1 < 2 ^ 4) :
    int_to_W64 (int_add (l0 : Int) (int_shl (l1 : Int) 16)) = l0 + l1 * 2 ^ 16 := by
  have e1 : int_shl (l1 : Int) 16 = (l1 : Int) * 2 ^ 16 :=
    wrap32_of_range _ (by omega) (by omega)
  have e2 : int_add (l0 : Int) ((l1 : Int) * 2 ^ 16) = (l0 : Int) + (l1 : Int) * 2 ^ 16 :=
    wrap32_of_range _ (by omega) (by omega)
  have e3 : (l0 : Int) + (l1 : Int) * 2 ^ 16 = ((l0 + l1 * 2 ^ 16 : Nat) : Int) := by
    push_cast; rfl
  rw [e1, e2, e3]
  exact int_to_W64_natCast _ (by omega)

/-- The limit read back after `setlimit(size)`, below and from `2^20`. -/
theorem SegmentDescriptor.getlimit_setlimit (d : SegmentDescriptor) (size : Nat)
    (hsize : size ≤ 2 ^ 32 - 4096) :
    (size < 2 ^ 20 → (d.setlimit size).g.val = 0 ∧ (d.setlimit size).getlimit = size) ∧
    (2 ^ 20 ≤ size → (d.setlimit size).g.val = 1 ∧
      (d.setlimit size).getlimit = 4096 * ((size + 4095) / 4096)) := by
  by_cases hlt : size < 2 ^ 20
  · have hg : ¬ (size ≥ 1 <<< 20) := by
      rw [Nat.one_shiftLeft]; omega
    refine ⟨fun _ => ?_, fun h => absurd hlt (by omega)⟩
    simp only [SegmentDescriptor.setlimit, SegmentDescriptor.getlimit, hg, if_false,
      bitfield_of_nat, lowbits, bits, Nat.shiftRight_eq_div_pow]
    refine ⟨by norm_num, ?_⟩
    simp only [Nat.zero_mod, ne_eq, not_true_eq_false, if_false]
    rw [int_sum_of_limit_fields _ _ (by omega) (by omega)]
    omega
  · have hg : size ≥ 1 <<< 20 := by
      rw [Nat.one_shiftLeft]; omega
    refine ⟨fun h => absurd h hlt, fun _ => ?_⟩
    have h1 : (1 % 2 ^ 1 : Nat) ≠ 0 := by norm_num
    simp only [SegmentDescriptor.setlimit, SegmentDescriptor.getlimit, hg, if_true,
      bitfield_of_nat, h1, ne_eq, not_false_eq_true]
    refine ⟨by norm_num, ?_⟩
    simp only [lowbits, bits, Nat.shiftRight_eq_div_pow, ceil, floor, Nat.shiftLeft_eq]
    have hq : (size + (4096 - 1)) % 2 ^ 64 = size + 4095 := by omega
    rw [hq]
    have hq2 : (size + 4095 - (size + 4095) % 4096) / 2 ^ 12 = (size + 4095) / 4096 := by
      omega
    rw [hq2, int_sum_of_limit_fields _ _ (by omega) (by omega)]
    omega

/-- C30: after `setlimit(size)` on any descriptor, `getlimit()` is `size` and `g` is 0
for `size < 2^20`; and for `2^20 ≤ size ≤ 2^32 - 4096`, `g` is 1 and `getlimit()` is
the least multiple of 4096 that is at least `size`; in both ranges
`getlimit() ≥ size` and `getlimit() - size < 4096`. -/
theorem C30_limit_round_trip (d : SegmentDescriptor) (size : Nat)
    (hsize : size ≤ 2 ^ 32 - 4096) :
    (size < 2 ^ 20 → (d.setlimit size).g.val = 0 ∧ (d.setlimit size).getlimit = size) ∧
    (2 ^ 20 ≤ size → (d.setlimit size).g.val = 1 ∧
      (d.setlimit size).getlimit = 4096 * ((size + 4095) / 4096) ∧
      (d.setlimit size).getlimit % 4096 = 0 ∧
      ∀ m, m % 4096 = 0 → size ≤ m → (d.setlimit size).getlimit ≤ m) ∧
    size ≤ (d.setlimit size).getlimit ∧ (d.setlimit size).getlimit - size < 4096 := by
  have key := SegmentDescriptor.getlimit_setlimit d size hsize
  by_cases hlt : size < 2 ^ 20
  · obtain ⟨hg, hl⟩ := key.1 hlt
    refine ⟨fun _ => ⟨hg, hl⟩, fun h => absurd hlt (by omega), ?_, ?_⟩ <;> omega
  · obtain ⟨hg, hl⟩ := key.2 (by omega)
    refine ⟨fun h => absurd h hlt, fun _ => ⟨hg, hl, ?_, ?_⟩, ?_, ?_⟩
    · omega
    · intro m hm hle; omega
    · omega
    · omega

/-- C30 at the sizes `0xfffff` and `0x100001`, on the all-zero descriptor: the first
is read back exactly, the second is read back as `0x101000`. -/
theorem C30_limit_round_trip_witness :
    (SegmentDescriptor.zero.setlimit 0xfffff).getlimit = 0xfffff ∧
    (SegmentDescriptor.zero.setlimit 0x100001).getlimit = 0x101000 ∧
    (SegmentDescriptor.zero.setlimit 0x100001).g.val = 1 :=
  ⟨((C30_limit_round_trip SegmentDescriptor.zero 0xfffff (by norm_num)).1 (by norm_num)).2,
   ((C30_limit_round_trip SegmentDescriptor.zero 0x100001 (by norm_num)).2.1
      (by norm_num)).2.1,
   ((C30_limit_round_trip SegmentDescriptor.zero 0x100001 (by norm_num)).2.1
      (by norm_num)).1⟩

/-! ## Theorems: the entry count of a Hashtable and `getentries` -/

/-- Adding to a wrapped `int` and wrapping: the sum, wrapped once. -/
theorem wrap32_wrap32_add (x d : Int) : wrap32 (wrap32 x + d) = wrap32 (x + d) := by
  unfold wrap32; omega

/-- Replacing the chain of one set of the array changes the number of stored entries
by the difference of the lengths of the chains. -/
theorem Hashtable.stored_length_update {K T : Type} (setcount : Nat) (ht : Hashtable K T)
    (i : Nat) (hi : i < setcount) (chain : List (KeyValuePair K T)) (count : Int) :
    (Hashtable.stored setcount ⟨Function.update ht.sets i chain, count⟩).length
        + (ht.sets i).length
      = (ht.stored setcount).length + chain.length := by
  simp only [Hashtable.stored]
  induction setcount with
  | zero => omega
  | succ n ih =>
    simp only [List.range_succ, List.flatMap_append, List.flatMap_cons, List.flatMap_nil,
      List.append_nil, List.length_append]
    by_cases hn : i = n
    · subst hn
      have hsame : List.flatMap (List.range i) (Function.update ht.sets i chain)
          = List.flatMap (List.range i) ht.sets := by
        apply List.flatMap_congr
        intro j hj
        have hji : j ≠ i := by
          have := List.mem_range.mp hj; omega
        rw [Function.update_noteq hji]
      rw [hsame, Function.update_same]; omega
    · have hlt : i < n := by omega
      have := ih hlt
      rw [Function.update_noteq (Ne.symm hn)]
      omega

/-- Unlinking the entry found takes exactly one entry out of the chain. -/
theorem Hashtable.unlink_length {K T : Type} (km : HashtableKeyManager K) (key : K)
    (chain : List (KeyValuePair K T)) (entry : KeyValuePair K T)
    (h : Hashtable.findlink km key chain = some entry) :
    (Hashtable.unlink km key chain).length + 1 = chain.length := by
  induction chain with
  | nil => simp [Hashtable.findlink] at h
  | cons e next ih =>
    simp only [Hashtable.findlink] at h
    simp only [Hashtable.unlink]
    cases he : km.equal e.key key with
    | true => simp
    | false =>
      simp only [he, Bool.false_eq_true, if_false] at h
      simp only [Bool.false_eq_true, if_false, List.length_cons]
      have := ih h
      omega

/-- Assigning a value keeps the length of a chain. -/
theorem Hashtable.assignvalue_length {K T : Type} (km : HashtableKeyManager K) (key : K)
    (value : T) (chain : List (KeyValuePair K T)) :
    (Hashtable.assignvalue km key value chain).length = chain.length := by
  have h := congrArg List.length (Hashtable.assignvalue_keys km key value chain)
  simpa using h

/-- After `clear()` no entry is stored. -/
theorem Hashtable.stored_clear {K T : Type} (setcount : Nat) (ht : Hashtable K T) :
    (ht.clear setcount).stored setcount = [] := by
  simp only [Hashtable.stored, Hashtable.clear, List.flatMap_eq_nil_iff, List.mem_range]
  intro i hi
  simp [hi]

/-- One call keeps `count` equal to the number of stored entries as an `int`, and
only `add` can store one more entry. -/
theorem Hashtable.call_count {K T : Type} [Zero T] (km : HashtableKeyManager K)
    (setcount : Nat) (hset : 1 ≤ setcount) (ht : Hashtable K T) (c : HashtableCall K T)
    (h : ht.count = wrap32 ((ht.stored setcount).length : Int)) :
    (ht.call km setcount c).count
        = wrap32 (((ht.call km setcount c).stored setcount).length : Int)
      ∧ ((ht.call km setcount c).stored setcount).length
          ≤ (ht.stored setcount).length + (if c.is_add then 1 else 0) := by
  cases c with
  | add key value =>
    have hlt := Hashtable.setof_lt km setcount key hset
    simp only [Hashtable.call, Hashtable.add, Hashtable.findentry, HashtableCall.is_add,
      if_true]
    cases hf : Hashtable.findlink km key (ht.sets (Hashtable.setof km setcount key)) with
    | some entry =>
      have hl := Hashtable.stored_length_update setcount ht _ hlt
        (Hashtable.assignvalue km key value (ht.sets (Hashtable.setof km setcount key)))
        ht.count
      rw [Hashtable.assignvalue_length] at hl
      show ht.count = wrap32 ((Hashtable.stored setcount ⟨_, ht.count⟩).length : Int) ∧
        (Hashtable.stored setcount ⟨_, ht.count⟩).length ≤ _
      generalize (Hashtable.stored setcount ⟨Function.update ht.sets
          (Hashtable.setof km setcount key)
          (Hashtable.assignvalue km key value (ht.sets (Hashtable.setof km setcount key))),
          ht.count⟩).length = n1 at hl ⊢
      have e : n1 = (ht.stored setcount).length := by omega
      rw [e]; exact ⟨h, by omega⟩
    | none =>
      have hl := Hashtable.stored_length_update setcount ht _ hlt
        (Hashtable.addto ⟨key, value⟩ (ht.sets (Hashtable.setof km setcount key)))
        (wrap32 (ht.count + 1))
      simp only [Hashtable.addto, List.length_cons] at hl
      show wrap32 (ht.count + 1)
          = wrap32 ((Hashtable.stored setcount ⟨_, wrap32 (ht.count + 1)⟩).length : Int) ∧
        (Hashtable.stored setcount ⟨_, wrap32 (ht.count + 1)⟩).length ≤ _
      simp only [Hashtable.addto]
      generalize (Hashtable.stored setcount ⟨Function.update ht.sets
          (Hashtable.setof km setcount key)
          (⟨key, value⟩ :: ht.sets (Hashtable.setof km setcount key)),
          wrap32 (ht.count + 1)⟩).length = n1 at hl ⊢
      have e : n1 = (ht.stored setcount).length + 1 := by omega
      rw [e, h, wrap32_wrap32_add]
      exact ⟨by push_cast; rfl, by omega⟩
  | remove key =>
    have hlt := Hashtable.setof_lt km setcount key hset
    simp only [Hashtable.call, Hashtable.remove, Hashtable.findentry, HashtableCall.is_add]
    cases hf : Hashtable.findlink km key (ht.sets (Hashtable.setof km setcount key)) with
    | none => exact ⟨h, by simp⟩
    | some entry =>
      have hl := Hashtable.stored_length_update setcount ht _ hlt
        (Hashtable.unlink km key (ht.sets (Hashtable.setof km setcount key)))
        (wrap32 (ht.count - 1))
      have hu := Hashtable.unlink_length km key _ entry hf
      show wrap32 (ht.count - 1)
          = wrap32 ((Hashtable.stored setcount ⟨_, wrap32 (ht.count - 1)⟩).length : Int) ∧
        (Hashtable.stored setcount ⟨_, wrap32 (ht.count - 1)⟩).length ≤ _
      generalize (Hashtable.stored setcount ⟨Function.update ht.sets
          (Hashtable.setof km setcount key)
          (Hashtable.unlink km key (ht.sets (Hashtable.setof km setcount key))),
          wrap32 (ht.count - 1)⟩).length = n1 at hl ⊢
      have e : (ht.stored setcount).length = n1 + 1 := by omega
      have e2 : ht.count - 1 = wrap32 ((n1 : Int) + 1) + (-1) := by
        rw [h, e]; push_cast; ring
      rw [e2, wrap32_wrap32_add]
      refine ⟨?_, by omega⟩
      congr 1; ring
  | clear =>
    simp only [Hashtable.call, Hashtable.stored_clear, List.length_nil, HashtableCall.is_add]
    exact ⟨by simp [Hashtable.clear, wrap32], by omega⟩
/-- In a table reached from the empty table, `count` is the number of stored entries
as an `int`, and at most one entry is stored for each `add` call. -/
theorem Hashtable.reached_count {K T : Type} [Zero T] (km : HashtableKeyManager K)
    (setcount : Nat) (hset : 1 ≤ setcount) (cs : List (HashtableCall K T)) :
    (Hashtable.reached km setcount cs).count
        = wrap32 (((Hashtable.reached km setcount cs).stored setcount).length : Int)
      ∧ ((Hashtable.reached km setcount cs).stored setcount).length
          ≤ cs.countP HashtableCall.is_add := by
  induction cs using List.reverseRecOn with
  | nil =>
    simp only [Hashtable.reached, List.foldl_nil, List.countP_nil]
    have : (Hashtable.stored setcount (Hashtable.empty : Hashtable K T)) = [] := by
      simp [Hashtable.stored, Hashtable.empty]
    rw [this]
    exact ⟨by simp [Hashtable.empty, wrap32], by simp⟩
  | append_singleton cs c ih =>
    have hr : Hashtable.reached km setcount (cs ++ [c])
        = (Hashtable.reached km setcount cs).call km setcount c := by
      simp [Hashtable.reached, List.foldl_append]
    rw [hr]
    have hc := Hashtable.call_count km setcount hset _ c ih.1
    refine ⟨hc.1, ?_⟩
    rw [List.countP_append, List.countP_singleton]
    have := hc.2
    have := ih.2
    omega

/-- One call keeps every entry linked in the set of its key. -/
theorem Hashtable.call_linked {K T : Type} [Zero T] (km : HashtableKeyManager K)
    (setcount : Nat) (ht : Hashtable K T) (c : HashtableCall K T)
    (h : ∀ i, ∀ e ∈ ht.sets i, Hashtable.setof km setcount e.key = i) :
    ∀ i, ∀ e ∈ (ht.call km setcount c).sets i, Hashtable.setof km setcount e.key = i := by
  have upd : ∀ (j : Nat) (chain : List (KeyValuePair K T)),
      (∀ e ∈ chain, Hashtable.setof km setcount e.key = j) →
      ∀ i, ∀ e ∈ Function.update ht.sets j chain i, Hashtable.setof km setcount e.key = i := by
    intro j chain hc i e he
    by_cases hj : i = j
    · subst hj; rw [Function.update_same] at he; exact hc e he
    · rw [Function.update_noteq hj] at he; exact h i e he
  cases c with
  | add key value =>
    simp only [Hashtable.call, Hashtable.add, Hashtable.findentry]
    cases hf : Hashtable.findlink km key (ht.sets (Hashtable.setof km setcount key)) with
    | some entry =>
      apply upd
      intro e he
      have hk : e.key ∈ (Hashtable.assignvalue km key value
          (ht.sets (Hashtable.setof km setcount key))).map (fun e => e.key) :=
        List.mem_map_of_mem _ he
      rw [Hashtable.assignvalue_keys] at hk
      obtain ⟨e2, he2, hke⟩ := List.mem_map.mp hk
      rw [← hke]; exact h _ e2 he2
    | none =>
      apply upd
      intro e he
      rcases List.mem_cons.mp he with rfl | hmem
      · rfl
      · exact h _ e hmem
  | remove key =>
    simp only [Hashtable.call, Hashtable.remove, Hashtable.findentry]
    cases hf : Hashtable.findlink km key (ht.sets (Hashtable.setof km setcount key)) with
    | none => exact h
    | some entry =>
      apply upd
      intro e he
      exact h _ e ((Hashtable.unlink_sublist km key _).subset he)
  | clear =>
    intro i e he
    have he2 : e ∈ (if i < setcount then [] else ht.sets i) := he
    by_cases hi : i < setcount
    · simp [hi] at he2
    · simp only [hi, if_false] at he2; exact h i e he2

/-- In a table reached from the empty table every entry is linked in the set of its
key. -/
theorem Hashtable.reached_linked {K T : Type} [Zero T] (km : HashtableKeyManager K)
    (setcount : Nat) (cs : List (HashtableCall K T)) :
    ∀ i, ∀ e ∈ (Hashtable.reached km setcount cs).sets i,
      Hashtable.setof km setcount e.key = i := by
  induction cs using List.reverseRecOn with
  | nil => intro i e he; simp [Hashtable.reached, Hashtable.empty] at he
  | append_singleton cs c ih =>
    have hr : Hashtable.reached km setcount (cs ++ [c])
        = (Hashtable.reached km setcount cs).call km setcount c := by
      simp [Hashtable.reached, List.foldl_append]
    rw [hr]
    exact Hashtable.call_linked km setcount _ c ih


/-- The conjunction with the complement of zero leaves an `int` as it is. -/
theorem int_land_lnot_zero (x : Int) : Int.land x (Int.lnot 0) = x := by
  cases x with
  | ofNat m =>
    show ((Nat.ldiff m 0 : Nat) : Int) = (m : Int)
    congr 1
    simp [Nat.ldiff, Nat.bitwise_zero_right]
  | negSucc m =>
    show Int.negSucc (m ||| 0) = Int.negSucc m
    rw [Nat.or_zero]

/-- The array that `getentries()` starts from when `count` is not positive: the
pointer `data` is `NULL`. -/
theorem dynarray.init_resize_nonpos {T : Type} (count : Int) (h : count ≤ 0) :
    (dynarray.init count 1 : Option (dynarray T)).bind (fun a0 => a0.resize count)
      = some ⟨none, count, 0, 1⟩ := by
  unfold dynarray.init dynarray.reserve
  rw [if_pos (by show count ≤ 0; exact h)]
  show dynarray.resize _ count = _
  unfold dynarray.resize
  rw [if_neg (by show ¬ count > 0; omega)]
  rfl

/-- The array that `getentries()` starts from when `count` is positive: `count`
elements, none of them assigned. -/
theorem dynarray.init_resize {T : Type} (count : Int) (h0 : 0 < count)
    (h31 : count < 2 ^ 31) :
    (dynarray.init count 1 : Option (dynarray T)).bind (fun a0 => a0.resize count)
      = some ⟨some ⟨count.toNat, fun _ => none⟩, count, count, 1⟩ := by
  have hn : Int.land (wrap32 (count + wrap32 (1 - 1))) (Int.lnot (wrap32 (1 - 1)))
      = count := by
    have hz : wrap32 (1 - 1) = 0 := by decide
    rw [hz, int_land_lnot_zero, Int.add_zero]
    exact wrap32_of_range _ (by omega) (by omega)
  have hw : int_to_W64 count = count.toNat := by
    unfold int_to_W64
    rw [Int.emod_eq_of_lt (by omega) (by omega)]
  have hinit : (dynarray.init count 1 : Option (dynarray T))
      = some ⟨some ⟨count.toNat, fun _ => none⟩, 0, count, 1⟩ := by
    unfold dynarray.init dynarray.reserve
    rw [if_neg (by show ¬ count ≤ 0; omega)]
    simp only [hn, hw]
    have h00 : int_to_W64 0 = 0 := by decide
    have hpos : ¬ count.toNat ≤ 0 := by omega
    simp only [renew, h00, hpos, if_false, if_true, Option.map_some']
  rw [hinit]
  show dynarray.resize _ count = _
  unfold dynarray.resize
  rw [if_pos (by show count > 0; omega)]
  unfold dynarray.reserve
  rw [if_pos (by show count ≤ count; omega)]
  rfl

/-- The loop of `getentries()` along two chains, one after the other. -/
theorem Hashtable.getentries_chain_append {K T : Type} (count : Int)
    (l1 l2 : List (KeyValuePair K T)) (st : dynarray (KeyValuePair K T) × Int) :
    Hashtable.getentries_chain count (l1 ++ l2) st
      = (Hashtable.getentries_chain count l1 st).bind
          (Hashtable.getentries_chain count l2) := by
  induction l1 generalizing st with
  | nil => rfl
  | cons e l ih =>
    obtain ⟨a, n⟩ := st
    simp only [List.cons_append, Hashtable.getentries_chain]
    split
    · cases a.set n ⟨e.key, e.value⟩ with
      | none => rfl
      | some a1 => exact ih _
    · rfl

/-- The loops of `getentries()` over the sets run along the stored entries. -/
theorem Hashtable.getentries_loop {K T : Type} (count : Int)
    (sets : Nat → List (KeyValuePair K T)) (is : List Nat)
    (st : dynarray (KeyValuePair K T) × Int) :
    is.foldlM (fun st i => Hashtable.getentries_chain count (sets i) st) st
      = Hashtable.getentries_chain count (is.flatMap sets) st := by
  induction is generalizing st with
  | nil => rfl
  | cons i is ih =>
    rw [List.foldlM_cons, List.flatMap_cons, Hashtable.getentries_chain_append]
    show (Hashtable.getentries_chain count (sets i) st).bind _ = _
    congr 1
    funext st1
    exact ih st1

/-- The loop of `getentries()` along a chain that fits below `count` and in the
array: every entry is copied, in order, from the index `m` on. -/
theorem Hashtable.getentries_chain_some {K T : Type} (count : Int) (hc : count < 2 ^ 31)
    (l : List (KeyValuePair K T)) (c : Nat) (f : Nat → Option (KeyValuePair K T))
    (len res g : Int) (m : Nat)
    (h : ((m + l.length : Nat) : Int) ≤ count) (hsize : m + l.length ≤ c) :
    Hashtable.getentries_chain count l (⟨some ⟨c, f⟩, len, res, g⟩, (m : Int))
      = some (⟨some ⟨c, fun i => if m ≤ i ∧ i < m + l.length then l[i - m]? else f i⟩,
                len, res, g⟩, ((m + l.length : Nat) : Int)) := by
  induction l generalizing f m with
  | nil =>
    have hd : (fun i => if m ≤ i ∧ i < m + ([] : List (KeyValuePair K T)).length
        then ([] : List (KeyValuePair K T))[i - m]? else f i) = f := by
      funext i
      have : ¬ (m ≤ i ∧ i < m + ([] : List (KeyValuePair K T)).length) := by
        simp only [List.length_nil]; omega
      simp only [this, if_false]
    rw [hd]
    rfl
  | cons e l ih =>
    have hlt : (m : Int) < count := by
      simp only [List.length_cons] at h; push_cast at h; omega
    have hw : wrap32 ((m : Int) + 1) = ((m + 1 : Nat) : Int) := by
      rw [wrap32_of_range _ (by omega) (by omega)]; push_cast; rfl
    have hin : 0 ≤ (m : Int) ∧ (m : Int).toNat < c := by
      simp only [List.length_cons] at hsize
      constructor
      · omega
      · rw [Int.toNat_ofNat]; omega
    have hset : dynarray.set (⟨some ⟨c, f⟩, len, res, g⟩ : dynarray (KeyValuePair K T))
        (m : Int) ⟨e.key, e.value⟩
        = some ⟨some ⟨c, Function.update f m (some ⟨e.key, e.value⟩)⟩, len, res, g⟩ := by
      simp only [dynarray.set]
      rw [if_pos hin]
      simp only [Int.toNat_ofNat]
    simp only [Hashtable.getentries_chain, hlt, if_true, hw, hset, Option.some_bind]
    have h2 : ((m + 1 + l.length : Nat) : Int) ≤ count := by
      simp only [List.length_cons] at h; push_cast at h ⊢; omega
    have h3 : m + 1 + l.length ≤ c := by
      simp only [List.length_cons] at hsize; omega
    rw [ih _ (m + 1) h2 h3]
    have e1 : m + 1 + l.length = m + (e :: l).length := by
      simp only [List.length_cons]; omega
    refine congrArg some (Prod.ext ?_ ?_)
    · refine congrArg (fun d => dynarray.mk (some (heap_array.mk c d)) len res g) ?_
      funext i
      by_cases hi : i = m
      · subst hi
        have c1 : ¬ (i + 1 ≤ i ∧ i < i + 1 + l.length) := by omega
        have c2 : i ≤ i ∧ i < i + (e :: l).length := by
          simp only [List.length_cons]; omega
        simp only [c1, c2, if_false, if_true,
          Function.update_same, Nat.sub_self, List.getElem?_cons_zero]
        simp
      · by_cases hin : m + 1 ≤ i ∧ i < m + 1 + l.length
        · have c2 : m ≤ i ∧ i < m + (e :: l).length := by
            simp only [List.length_cons]; omega
          have e2 : i - m = (i - (m + 1)) + 1 := by omega
          simp only [hin, c2, and_self, if_true]
          rw [e2, List.getElem?_cons_succ]
        · have c2 : ¬ (m ≤ i ∧ i < m + (e :: l).length) := by
            simp only [List.length_cons]; omega
          simp only [hin, c2, if_false]
          rw [Function.update_noteq hi]
    · show ((m + 1 + l.length : Nat) : Int) = ((m + (e :: l).length : Nat) : Int)
      rw [e1]

/-- The loop of `getentries()` fails its assertion at the first entry when the
index has reached `count`. -/
theorem Hashtable.getentries_chain_none {K T : Type} (count : Int)
    (l : List (KeyValuePair K T)) (hl : l ≠ []) (a : dynarray (KeyValuePair K T)) (n : Int)
    (h : ¬ n < count) :
    Hashtable.getentries_chain count l (a, n) = none := by
  cases l with
  | nil => exact absurd rfl hl
  | cons e l => simp only [Hashtable.getentries_chain, h, if_false]

/-- The array `getentries()` returns when `count` is the number of stored entries:
its length is `count` and its first `count` elements are the stored entries, in
order. -/
theorem Hashtable.getentries_eq {K T : Type} (setcount : Nat) (ht : Hashtable K T)
    (hc : ht.count = ((ht.stored setcount).length : Int)) (h31 : ht.count < 2 ^ 31) :
    ∃ a, ht.getentries setcount = some a ∧ a.length = ht.count
      ∧ (List.range (ht.stored setcount).length).map (fun i : Nat => a.get (i : Int))
          = (ht.stored setcount).map some := by
  unfold Hashtable.getentries
  simp only [Hashtable.getentries_loop]
  show ∃ a, Option.bind _ (fun a => Option.map Prod.fst
      (Hashtable.getentries_chain ht.count (ht.stored setcount) (a, ((0 : Nat) : Int))))
        = some a ∧ _
  by_cases h0 : ht.count = 0
  · have hnil : ht.stored setcount = [] := by
      apply List.eq_nil_of_length_eq_zero
      omega
    rw [dynarray.init_resize_nonpos _ (by omega), hnil]
    exact ⟨_, rfl, rfl, rfl⟩
  · have hpos : 0 < ht.count := by omega
    have hrun := Hashtable.getentries_chain_some ht.count h31 (ht.stored setcount)
      ht.count.toNat (fun _ => none) ht.count ht.count 1 0
      (by rw [hc]; push_cast; omega) (by omega)
    rw [dynarray.init_resize ht.count hpos h31, Option.some_bind, hrun]
    refine ⟨_, rfl, rfl, ?_⟩
    apply List.ext_getElem
    · simp
    · intro n h1 h2
      have hn : n < (ht.stored setcount).length := by simpa using h1
      have hn2 : 0 ≤ (n : Int) ∧ (n : Int).toNat < ht.count.toNat := by
        constructor
        · omega
        · rw [Int.toNat_ofNat]; omega
      simp only [List.getElem_map, List.getElem_range, dynarray.get]
      rw [if_pos hn2]
      simp only [Int.toNat_ofNat, Nat.zero_le, Nat.zero_add, hn, and_self, if_true,
        Nat.sub_zero]
      exact List.getElem?_eq_getElem hn

/-- The table reached by `add(0, 0)`, `add(1, 0)`, ..., `add(n-1, 0)` with `W64` keys
stores `n` entries, with the keys below `n`. -/
theorem Hashtable.reached_adds (n : Nat) :
    ((Hashtable.reached HashtableKeyManager.forW64 64
        (List.map (fun k => HashtableCall.add k (0 : Nat)) (List.range n))).stored 64).length
        = n
      ∧ ∀ i, ∀ e ∈ (Hashtable.reached HashtableKeyManager.forW64 64
          (List.map (fun k => HashtableCall.add k (0 : Nat)) (List.range n))).sets i,
          e.key < n := by
  induction n with
  | zero =>
    constructor
    · have h0 : (Hashtable.stored 64 (Hashtable.empty : Hashtable Nat Nat)) = [] := by
        simp [Hashtable.stored, Hashtable.empty]
      show (Hashtable.stored 64 (Hashtable.empty : Hashtable Nat Nat)).length = 0
      rw [h0]; rfl
    · intro i e he; simp [Hashtable.reached, Hashtable.empty] at he
  | succ n ih =>
    obtain ⟨ih1, ih2⟩ := ih
    have hr : Hashtable.reached HashtableKeyManager.forW64 64
        (List.map (fun k => HashtableCall.add k (0 : Nat)) (List.range (n + 1)))
        = ((Hashtable.reached HashtableKeyManager.forW64 64
            (List.map (fun k => HashtableCall.add k (0 : Nat)) (List.range n))).add
            HashtableKeyManager.forW64 64 n 0).2 := by
      simp [Hashtable.reached, List.range_succ, List.foldl_append, Hashtable.call]
    rw [hr]
    generalize Hashtable.reached HashtableKeyManager.forW64 64
      (List.map (fun k => HashtableCall.add k (0 : Nat)) (List.range n)) = ht at ih1 ih2
    have hlt := Hashtable.setof_lt HashtableKeyManager.forW64 64 n (by decide)
    have hf : Hashtable.findlink HashtableKeyManager.forW64 n
        (ht.sets (Hashtable.setof HashtableKeyManager.forW64 64 n)) = none := by
      apply Hashtable.findlink_eq_none
      intro e he
      have := ih2 _ e he
      show decide (e.key = n) = false
      exact decide_eq_false (by omega)
    simp only [Hashtable.add, Hashtable.findentry, hf, Hashtable.addto]
    have hl := Hashtable.stored_length_update 64 ht _ hlt
      (⟨n, 0⟩ :: ht.sets (Hashtable.setof HashtableKeyManager.forW64 64 n))
      (wrap32 (ht.count + 1))
    simp only [List.length_cons] at hl
    constructor
    · omega
    · intro i e he
      have he2 : e ∈ Function.update ht.sets (Hashtable.setof HashtableKeyManager.forW64 64 n)
          (⟨n, 0⟩ :: ht.sets (Hashtable.setof HashtableKeyManager.forW64 64 n)) i := he
      by_cases hi : i = Hashtable.setof HashtableKeyManager.forW64 64 n
      · rw [hi, Function.update_same] at he2
        rcases List.mem_cons.mp he2 with rfl | hmem
        · exact Nat.lt_succ_self _
        · exact Nat.lt_succ_of_lt (ih2 _ e hmem)
      · rw [Function.update_noteq hi] at he2
        exact Nat.lt_succ_of_lt (ih2 _ e he2)

/-- C28 does not hold for every sequence of calls: after `2^31` calls of `add` with
the distinct `W64` keys `0 .. 2^31 - 1` on a table of 64 sets, `2^31` entries are
stored but the `int` `count` has wrapped to `-2^31`, and `getentries()` fails its
assertion `n < count`. -/
theorem C28_count_wraps_after_many_adds :
    (Hashtable.reached HashtableKeyManager.forW64 64
        (List.map (fun k => HashtableCall.add k (0 : Nat)) (List.range 2147483648))).count
        = -2147483648
      ∧ ((Hashtable.reached HashtableKeyManager.forW64 64
          (List.map (fun k => HashtableCall.add k (0 : Nat)) (List.range 2147483648))).stored
            64).length = 2147483648
      ∧ (Hashtable.reached HashtableKeyManager.forW64 64
          (List.map (fun k => HashtableCall.add k (0 : Nat))
            (List.range 2147483648))).getentries 64 = none := by
  have hlen := (Hashtable.reached_adds 2147483648).1
  have hcount := (Hashtable.reached_count HashtableKeyManager.forW64 64 (by decide)
    (List.map (fun k => HashtableCall.add k (0 : Nat)) (List.range 2147483648))).1
  generalize Hashtable.reached HashtableKeyManager.forW64 64
    (List.map (fun k => HashtableCall.add k (0 : Nat)) (List.range 2147483648)) = ht
    at hlen hcount ⊢
  rw [hlen] at hcount
  have hc : ht.count = -2147483648 := by
    rw [hcount]; unfold wrap32; norm_num
  refine ⟨hc, hlen, ?_⟩
  unfold Hashtable.getentries
  simp only [Hashtable.getentries_loop]
  rw [hc, dynarray.init_resize_nonpos _ (by norm_num), Option.some_bind]
  have hne : List.flatMap (List.range 64) ht.sets ≠ [] := by
    intro h0
    have : (ht.stored 64).length = 0 := by
      show (List.flatMap (List.range 64) ht.sets).length = 0
      rw [h0]; rfl
    omega
  rw [Hashtable.getentries_chain_none _ _ hne _ _ (by norm_num)]
  rfl

/-- C28, for sequences with fewer than `2^31` calls of `add`: in the `Hashtable`
reached from the empty table by such a sequence of `add`, `remove` and `clear`,
`count` is the number of stored entries, every entry is linked in the set selected
by the low bits of the hash of its key, and `getentries()` returns (its assertion
does not fail) an array of length `count` whose elements `a[0]` to `a[count - 1]`
are the stored entries, one for each. -/
theorem C28_count_is_number_of_entries {K T : Type} [Zero T] (km : HashtableKeyManager K)
    (setcount : Nat) (hset : 1 ≤ setcount) (cs : List (HashtableCall K T))
    (hadds : cs.countP HashtableCall.is_add < 2 ^ 31) :
    (Hashtable.reached km setcount cs).count
        = (((Hashtable.reached km setcount cs).stored setcount).length : Int)
      ∧ (∀ i, ∀ e ∈ (Hashtable.reached km setcount cs).sets i,
          lowbits (int_to_W64 (km.hash e.key)) (log2 setcount) = i)
      ∧ ∃ a, (Hashtable.reached km setcount cs).getentries setcount = some a
          ∧ a.length = (Hashtable.reached km setcount cs).count
          ∧ (List.range ((Hashtable.reached km setcount cs).stored setcount).length).map
              (fun i : Nat => a.get (i : Int))
            = ((Hashtable.reached km setcount cs).stored setcount).map some := by
  obtain ⟨h1, h2⟩ := Hashtable.reached_count km setcount hset cs
  have hc : (Hashtable.reached km setcount cs).count
      = (((Hashtable.reached km setcount cs).stored setcount).length : Int) := by
    rw [h1]; exact wrap32_of_range _ (by omega) (by omega)
  refine ⟨hc, Hashtable.reached_linked km setcount cs, ?_⟩
  exact Hashtable.getentries_eq setcount _ hc (by rw [hc]; omega)

/-- C28 on the example calls (four `add`, one `remove`): two entries are stored,
`count` is 2, and `getentries()` returns an array of length 2. -/
theorem C28_count_is_number_of_entries_witness :
    (1 ≤ 64) ∧ Hashtable.sample_calls.countP HashtableCall.is_add < 2 ^ 31
      ∧ (Hashtable.reached HashtableKeyManager.forW64 64 Hashtable.sample_calls).count = 2
      ∧ (((Hashtable.reached HashtableKeyManager.forW64 64 Hashtable.sample_calls).stored
          64).length : Int)
          = (Hashtable.reached HashtableKeyManager.forW64 64 Hashtable.sample_calls).count
      ∧ (((Hashtable.reached HashtableKeyManager.forW64 64
            Hashtable.sample_calls).getentries 64).map fun a => a.length) = some 2 := by
  have h := C28_count_is_number_of_entries HashtableKeyManager.forW64 64 (by decide)
    Hashtable.sample_calls (by decide)
  have hc : (Hashtable.reached HashtableKeyManager.forW64 64 Hashtable.sample_calls).count
      = 2 := by decide
  refine ⟨by decide, by decide, hc, h.1.symm, ?_⟩
  obtain ⟨a, ha, hlen, _⟩ := h.2.2
  rw [ha, Option.map_some', hlen, hc]

/-- The `count` of a table reached from the empty table is an `int`. -/
theorem Hashtable.reached_count_range {K T : Type} [Zero T] (km : HashtableKeyManager K)
    (setcount : Nat) (hset : 1 ≤ setcount) (cs : List (HashtableCall K T)) :
    -2 ^ 31 ≤ (Hashtable.reached km setcount cs).count
      ∧ (Hashtable.reached km setcount cs).count < 2 ^ 31 := by
  rw [(Hashtable.reached_count km setcount hset cs).1]
  unfold wrap32
  omega

/-- The table reached by `add(0, 0)`, ..., `add(n, 0)` with `W64` keys holds the
key `n`, added last, with the value 0. -/
theorem Hashtable.reached_adds_last (m n : Nat) (hm : m = n + 1) :
    (Hashtable.reached HashtableKeyManager.forW64 64
        (List.map (fun k => HashtableCall.add k (0 : Nat)) (List.range m))).findentry
      HashtableKeyManager.forW64 64 n = some ⟨n, 0⟩ := by
  subst hm
  have hr : Hashtable.reached HashtableKeyManager.forW64 64
      (List.map (fun k => HashtableCall.add k (0 : Nat)) (List.range (n + 1)))
      = ((Hashtable.reached HashtableKeyManager.forW64 64
          (List.map (fun k => HashtableCall.add k (0 : Nat)) (List.range n))).add
          HashtableKeyManager.forW64 64 n 0).2 := by
    simp [Hashtable.reached, List.range_succ, List.foldl_append, Hashtable.call]
  rw [hr]
  have ih2 := (Hashtable.reached_adds n).2
  generalize Hashtable.reached HashtableKeyManager.forW64 64
    (List.map (fun k => HashtableCall.add k (0 : Nat)) (List.range n)) = ht at ih2
  have hf : Hashtable.findlink HashtableKeyManager.forW64 n
      (ht.sets (Hashtable.setof HashtableKeyManager.forW64 64 n)) = none := by
    apply Hashtable.findlink_eq_none
    intro e he
    have := ih2 _ e he
    show decide (e.key = n) = false
    exact decide_eq_false (by omega)
  simp only [Hashtable.add, Hashtable.findentry, hf, Hashtable.addto, Function.update_same,
    Hashtable.findlink]
  have hrefl : HashtableKeyManager.forW64.equal n n = true := decide_eq_true rfl
  rw [if_pos hrefl]


/-- The `count` after `remove(key)` when `findentry(key)` finds an entry. -/
theorem Hashtable.remove_count_of_findentry {K T : Type} [Zero T]
    (km : HashtableKeyManager K) (setcount : Nat) (ht : Hashtable K T) (key : K)
    (e : KeyValuePair K T) (h : ht.findentry km setcount key = some e) :
    (ht.remove km setcount key).2.count = wrap32 (ht.count - 1) := by
  simp only [Hashtable.remove, h]

/-- The result of `get(key)` when `findentry(key)` finds an entry. -/
theorem Hashtable.get_of_findentry {K T : Type}
    (km : HashtableKeyManager K) (setcount : Nat) (ht : Hashtable K T) (key : K)
    (e : KeyValuePair K T) (h : ht.findentry km setcount key = some e) :
    ht.get km setcount key = some e.value := by
  simp only [Hashtable.get, h]

/-- C13 does not hold for every table: after `2^31` calls of `add` with the distinct
`W64` keys `0 .. 2^31 - 1` on a table of 64 sets, the key `2^31 - 1` is present and
`count` is `-2^31`, the least `int`; `remove(2^31 - 1)` returns its value and makes
`count` the greatest `int`, `2^31 - 1`, which is not `count - 1`. -/
theorem C13_remove_wraps_count_at_least_int :
    (Hashtable.reached HashtableKeyManager.forW64 64
        (List.map (fun k => HashtableCall.add k (0 : Nat)) (List.range 2147483648))).get
        HashtableKeyManager.forW64 64 2147483647 = some 0
      ∧ (Hashtable.reached HashtableKeyManager.forW64 64
        (List.map (fun k => HashtableCall.add k (0 : Nat)) (List.range 2147483648))).count
        = -2147483648
      ∧ ((Hashtable.reached HashtableKeyManager.forW64 64
          (List.map (fun k => HashtableCall.add k (0 : Nat)) (List.range 2147483648))).remove
            HashtableKeyManager.forW64 64 2147483647).2.count = 2147483647
      ∧ ((Hashtable.reached HashtableKeyManager.forW64 64
          (List.map (fun k => HashtableCall.add k (0 : Nat)) (List.range 2147483648))).remove
            HashtableKeyManager.forW64 64 2147483647).2.count
          ≠ (Hashtable.reached HashtableKeyManager.forW64 64
              (List.map (fun k => HashtableCall.add k (0 : Nat))
                (List.range 2147483648))).count - 1 := by
  have hlen := (Hashtable.reached_adds 2147483648).1
  have hcount := (Hashtable.reached_count HashtableKeyManager.forW64 64 (by decide)
    (List.map (fun k => HashtableCall.add k (0 : Nat)) (List.range 2147483648))).1
  have hfind : (Hashtable.reached HashtableKeyManager.forW64 64
      (List.map (fun k => HashtableCall.add k (0 : Nat)) (List.range 2147483648))).findentry
      HashtableKeyManager.forW64 64 2147483647 = some ⟨2147483647, 0⟩ :=
    Hashtable.reached_adds_last 2147483648 2147483647 (by norm_num)
  generalize Hashtable.reached HashtableKeyManager.forW64 64
    (List.map (fun k => HashtableCall.add k (0 : Nat)) (List.range 2147483648)) = ht
    at hlen hcount hfind ⊢
  rw [hlen] at hcount
  have hc : ht.count = -2147483648 := by
    rw [hcount]; unfold wrap32; norm_num
  have hrem := Hashtable.remove_count_of_findentry _ _ ht _ _ hfind
  have hget := Hashtable.get_of_findentry _ _ ht _ _ hfind
  have hw : wrap32 (-2147483648 - 1) = 2147483647 := by decide
  rw [hc, hw] at hrem
  refine ⟨hget, hc, hrem, ?_⟩
  rw [hrem, hc]
  decide

/-! ## Theorems: bit vectors -/

/-- The bits of a left-shifted word. -/
theorem W64_shl_testBit (x n t : Nat) :
    (W64_shl x n).testBit t
      = (decide (t < 64) && (decide (n % 64 ≤ t) && x.testBit (t - n % 64))) := by
  simp only [W64_shl, Nat.testBit_mod_two_pow, Nat.testBit_shiftLeft, ge_iff_le]

/-- The bits of a right-shifted word. -/
theorem W64_shr_testBit (x n t : Nat) :
    (W64_shr x n).testBit t = x.testBit (n % 64 + t) := by
  simp only [W64_shr, Nat.testBit_shiftRight]

/-- A left-shifted word is a 64-bit word. -/
theorem W64_shl_lt (x n : Nat) : W64_shl x n < 2 ^ 64 :=
  Nat.mod_lt _ (by decide)

/-- The mask of an index is the power of two of its bit number. -/
theorem bitvecbase.maskof_eq (index : Nat) : bitvecbase.maskof index = 2 ^ (index % 64) := by
  have h : index % 64 < 64 := Nat.mod_lt _ (by decide)
  simp only [bitvecbase.maskof, bitvecbase.bitof, BITS_PER_WORD, W64_shl, Nat.mod_mod,
    Nat.one_shiftLeft]
  exact Nat.mod_eq_of_lt (Nat.pow_lt_pow_right (by decide) h)

/-- The mask of an index is a 64-bit word. -/
theorem bitvecbase.maskof_lt (index : Nat) : bitvecbase.maskof index < 2 ^ 64 := by
  rw [bitvecbase.maskof_eq]
  exact Nat.pow_lt_pow_right (by decide) (Nat.mod_lt _ (by decide))

/-- Whether `a & (1 << t)` is not zero: bit `t` of `a`. -/
theorem and_two_pow_ne_zero (a t : Nat) : ((a &&& 2 ^ t) != 0) = a.testBit t := by
  cases h : a.testBit t with
  | false =>
    have h0 : a &&& 2 ^ t = 0 := by
      apply Nat.eq_of_testBit_eq
      intro i
      simp only [Nat.testBit_and, Nat.testBit_two_pow, Nat.zero_testBit]
      by_cases hi : t = i
      · subst hi; simp [h]
      · simp [hi]
    simp [h0]
  | true =>
    have h1 : (a &&& 2 ^ t).testBit t = true := by
      simp only [Nat.testBit_and, Nat.testBit_two_pow, h]; simp
    have h0 : a &&& 2 ^ t ≠ 0 := by
      intro h0; rw [h0] at h1; simp at h1
    simp [h0]

/-- The number of words of a vector with at least one bit. -/
theorem BITVEC_WORDS_spec (N : Nat) (h : 1 ≤ N) :
    1 ≤ BITVEC_WORDS N ∧ N ≤ 64 * BITVEC_WORDS N ∧ 64 * (BITVEC_WORDS N - 1) < N := by
  have hN : ¬ N < 1 := by omega
  simp only [BITVEC_WORDS, BITS_PER_WORD, hN, if_false]
  omega

/-- The word of an index inside the words of a vector. -/
theorem bitvec.getword_eq {N : Nat} (x : bitvec N) (k : Nat)
    (hk : k < 64 * BITVEC_WORDS N) : x.getword k = x.w (k / 64) := by
  unfold bitvec.getword
  by_cases h0 : BITVEC_WORDS N = 0
  · omega
  · by_cases h1 : BITVEC_WORDS N = 1
    · have : k / 64 = 0 := by omega
      rw [if_neg h0, if_pos h1, this]; rfl
    · simp only [h0, h1, if_false, bitvecbase.getword, bitvecbase.wordof, BITS_PER_WORD]

/-- The assignment to the word of an index inside the words of a vector. -/
theorem bitvec.setword_eq {N : Nat} (x : bitvec N) (k v : Nat)
    (hk : k < 64 * BITVEC_WORDS N) : x.setword k v = ⟨Function.update x.w (k / 64) v⟩ := by
  unfold bitvec.setword
  by_cases h0 : BITVEC_WORDS N = 0
  · omega
  · by_cases h1 : BITVEC_WORDS N = 1
    · have : k / 64 = 0 := by omega
      rw [if_neg h0, if_pos h1, this]
    · simp only [h0, h1, if_false, bitvecbase.wordof, BITS_PER_WORD]

/-- The method `test` reads the bit of the index. -/
theorem bitvec.test_eq_bit {N : Nat} (x : bitvec N) (k : Nat)
    (hk : k < 64 * BITVEC_WORDS N) : x.test k = x.bit k := by
  simp only [bitvec.test, bitvec.bit, bitvec.getword_eq x k hk, bitvecbase.maskof_eq,
    and_two_pow_ne_zero]

/-- An index below `N` is inside the words of the vector. -/
theorem bitvec.index_lt {N : Nat} (k : Nat) (hk : k < N) : k < 64 * BITVEC_WORDS N := by
  have := BITVEC_WORDS_spec N (by omega)
  omega

/-- The bits of a vector after the word of the index `i` has been assigned. -/
theorem bitvec.bit_update {N : Nat} (x : bitvec N) (i v j : Nat) :
    bitvec.bit (⟨Function.update x.w (i / 64) v⟩ : bitvec N) j
      = if j / 64 = i / 64 then v.testBit (j % 64) else x.bit j := by
  unfold bitvec.bit
  by_cases h : j / 64 = i / 64
  · rw [if_pos h, h]
    show (Function.update x.w (i / 64) v (i / 64)).testBit (j % 64) = _
    rw [Function.update_same]
  · rw [if_neg h]
    show (Function.update x.w (i / 64) v (j / 64)).testBit (j % 64) = _
    rw [Function.update_noteq h]

/-- C24: for indices `i, j < N` of a `bitvec<N>`: after `set(i)` `test(i)` is true,
after `reset(i)` it is false, after `assign(i, b)` it is `b != 0`, after `invert(i)`
it is negated; and in each case `test(j)` is unchanged for every `j ≠ i`. -/
theorem C24_single_bit_operations {N : Nat} (x : bitvec N) (i j : Nat) (b : Int)
    (hi : i < N) (hj : j < N) :
    (x.set i).test i = true ∧ (x.reset i).test i = false
      ∧ (x.assign i b).test i = decide (b ≠ 0)
      ∧ (x.invert i).test i = !x.test i
      ∧ (j ≠ i → (x.set i).test j = x.test j ∧ (x.reset i).test j = x.test j
          ∧ (x.assign i b).test j = x.test j ∧ (x.invert i).test j = x.test j) := by
  have hi2 := bitvec.index_lt i hi
  have hj2 := bitvec.index_lt j hj
  have hm : 2 ^ (i % 64) < 2 ^ 64 := by
    rw [← bitvecbase.maskof_eq]; exact bitvecbase.maskof_lt i
  have hset : ∀ k, k < 64 * BITVEC_WORDS N → (x.set i).test k
      = if k / 64 = i / 64 then (x.bit k || decide (i % 64 = k % 64)) else x.bit k := by
    intro k hk
    rw [bitvec.test_eq_bit _ k hk, bitvec.set, bitvec.setword_eq x i _ hi2,
      bitvec.bit_update, bitvec.getword_eq x i hi2]
    by_cases h : k / 64 = i / 64
    · simp only [h, if_true, Nat.testBit_or, bitvecbase.maskof_eq, Nat.testBit_two_pow,
        bitvec.bit]
    · simp only [h, if_false]
  have hreset : ∀ k, k < 64 * BITVEC_WORDS N → (x.reset i).test k
      = if k / 64 = i / 64 then (x.bit k && !decide (i % 64 = k % 64)) else x.bit k := by
    intro k hk
    rw [bitvec.test_eq_bit _ k hk, bitvec.reset, bitvec.setword_eq x i _ hi2,
      bitvec.bit_update, bitvec.getword_eq x i hi2]
    by_cases h : k / 64 = i / 64
    · have hk64 : k % 64 < 64 := Nat.mod_lt _ (by decide)
      simp only [h, if_true, Nat.testBit_and, W64_not_testBit _ _ hm, bitvecbase.maskof_eq,
        Nat.testBit_two_pow, bitvec.bit, hk64, decide_True, Bool.true_and]
    · simp only [h, if_false]
  have hinvert : ∀ k, k < 64 * BITVEC_WORDS N → (x.invert i).test k
      = if k / 64 = i / 64 then (x.bit k ^^ decide (i % 64 = k % 64)) else x.bit k := by
    intro k hk
    rw [bitvec.test_eq_bit _ k hk, bitvec.invert, bitvec.setword_eq x i _ hi2,
      bitvec.bit_update, bitvec.getword_eq x i hi2]
    by_cases h : k / 64 = i / 64
    · simp only [h, if_true, Nat.testBit_xor, bitvecbase.maskof_eq, Nat.testBit_two_pow,
        bitvec.bit]
    · simp only [h, if_false]
  have hassign : x.assign i b = if b ≠ 0 then x.set i else x.reset i := by
    unfold bitvec.assign bitvec.set bitvec.reset; rfl
  have hti := bitvec.test_eq_bit x i hi2
  have htj := bitvec.test_eq_bit x j hj2
  refine ⟨?_, ?_, ?_, ?_, ?_⟩
  · rw [hset i hi2]; simp
  · rw [hreset i hi2]; simp
  · rw [hassign]
    by_cases hb : b = 0
    · simp only [hb, ne_eq, not_true_eq_false, if_false, decide_False]
      rw [hreset i hi2]; simp
    · simp only [hb, ne_eq, not_false_eq_true, if_true, decide_True]
      rw [hset i hi2]; simp
  · rw [hinvert i hi2, hti]; simp
  · intro hne
    have hd : j / 64 = i / 64 → ¬ (i % 64 = j % 64) := by
      intro h1 h2; omega
    have hsj : (x.set i).test j = x.test j := by
      rw [hset j hj2, htj]
      by_cases h : j / 64 = i / 64
      · simp [h, hd h]
      · simp [h]
    have hrj : (x.reset i).test j = x.test j := by
      rw [hreset j hj2, htj]
      by_cases h : j / 64 = i / 64
      · simp [h, hd h]
      · simp [h]
    refine ⟨hsj, hrj, ?_, ?_⟩
    · rw [hassign]
      by_cases hb : b = 0
      · simp only [hb, ne_eq, not_true_eq_false, if_false]; exact hrj
      · simp only [hb, ne_eq, not_false_eq_true, if_true]; exact hsj
    · rw [hinvert j hj2, htj]
      by_cases h : j / 64 = i / 64
      · simp [h, hd h]
      · simp [h]

/-- A `foreach` loop whose body assigns `w[i]` a value that depends only on the
words from `i` upwards: every word below `n` gets the value computed from the
words before the loop. -/
theorem foreach_update (F : (Nat → Nat) → Nat → Nat)
    (hF : ∀ (w1 w2 : Nat → Nat) (i : Nat), (∀ j, i ≤ j → w1 j = w2 j) → F w1 i = F w2 i)
    (n : Nat) (w : Nat → Nat) :
    foreach n (fun w i => Function.update w i (F w i)) w
      = fun j => if j < n then F w j else w j := by
  induction n with
  | zero =>
    funext j
    simp [foreach]
  | succ n ih =>
    have hstep : foreach (n + 1) (fun w i => Function.update w i (F w i)) w
        = Function.update (foreach n (fun w i => Function.update w i (F w i)) w) n
            (F (foreach n (fun w i => Function.update w i (F w i)) w) n) := by
      simp only [foreach, List.range_succ, List.foldl_append, List.foldl_cons, List.foldl_nil]
    rw [hstep, ih]
    have hFn : F (fun j => if j < n then F w j else w j) n = F w n := by
      apply hF
      intro j hj
      have : ¬ j < n := by omega
      simp only [this, if_false]
    rw [hFn]
    funext j
    by_cases hj : j = n
    · subst hj; simp
    · rw [Function.update_noteq hj]
      by_cases hlt : j < n
      · have : j < n + 1 := by omega
        simp only [hlt, this, if_true]
      · have : ¬ j < n + 1 := by omega
        simp only [hlt, this, if_false]

/-- A `foreach` loop that clears the words `c`, `c + 1`, ..., `c + n - 1`. -/
theorem foreach_clear (c n : Nat) (w : Nat → Nat) :
    foreach n (fun w i => Function.update w (c + i) 0) w
      = fun j => if c ≤ j ∧ j < c + n then 0 else w j := by
  induction n with
  | zero =>
    funext j
    have : ¬ (c ≤ j ∧ j < c + 0) := by omega
    rw [if_neg this]
    rfl
  | succ n ih =>
    have hstep : foreach (n + 1) (fun w i => Function.update w (c + i) 0) w
        = Function.update (foreach n (fun w i => Function.update w (c + i) 0) w) (c + n) 0 := by
      simp only [foreach, List.range_succ, List.foldl_append, List.foldl_cons, List.foldl_nil]
    rw [hstep, ih]
    funext j
    by_cases hj : j = c + n
    · subst hj
      have : c ≤ c + n ∧ c + n < c + (n + 1) := by omega
      rw [if_pos this, Function.update_same]
    · rw [Function.update_noteq hj]
      by_cases hlt : c ≤ j ∧ j < c + n
      · have : c ≤ j ∧ j < c + (n + 1) := by omega
        rw [if_pos hlt, if_pos this]
      · have : ¬ (c ≤ j ∧ j < c + (n + 1)) := by omega
        rw [if_neg hlt, if_neg this]

/-- The loop of `shiftleftop` for a shift by whole words ends when `wshift ≥ 1`, and
moves every word from `wshift` up to `i`. -/
theorem bitvecbase.shiftleft_words_eq (wshift : Nat) (hws : 1 ≤ wshift) (i : Nat)
    (w : Nat → Nat) :
    bitvecbase.shiftleft_words wshift i w
      = some (fun j => if wshift ≤ j ∧ j ≤ i then w (j - wshift) else w j) := by
  induction i generalizing w with
  | zero =>
    have h0 : ¬ (0 ≥ wshift) := by omega
    simp only [bitvecbase.shiftleft_words, h0, if_false]
    congr 1
    funext j
    have : ¬ (wshift ≤ j ∧ j ≤ 0) := by omega
    simp only [this, if_false]
  | succ i ih =>
    simp only [bitvecbase.shiftleft_words]
    by_cases h : i + 1 ≥ wshift
    · simp only [h, if_true]
      rw [ih]
      congr 1
      funext j
      by_cases hj : j = i + 1
      · subst hj
        have c1 : ¬ (wshift ≤ i + 1 ∧ i + 1 ≤ i) := by omega
        have c2 : wshift ≤ i + 1 ∧ i + 1 ≤ i + 1 := by omega
        rw [if_neg c1, if_pos c2, Function.update_same]
      · by_cases hin : wshift ≤ j ∧ j ≤ i
        · have c2 : wshift ≤ j ∧ j ≤ i + 1 := by omega
          have hne : j - wshift ≠ i + 1 := by omega
          rw [if_pos hin, if_pos c2, Function.update_noteq hne]
        · have c2 : ¬ (wshift ≤ j ∧ j ≤ i + 1) := by omega
          rw [if_neg hin, if_neg c2, Function.update_noteq hj]
    · simp only [h, if_false]
      congr 1
      funext j
      have : ¬ (wshift ≤ j ∧ j ≤ i + 1) := by omega
      simp only [this, if_false]

/-- The loop of `shiftleftop` for a shift that is not by whole words combines, for
every word above `wshift` up to `i`, two words from before the loop. -/
theorem bitvecbase.shiftleft_bits_eq (wshift offset suboffset : Nat) (i : Nat)
    (w : Nat → Nat) :
    bitvecbase.shiftleft_bits wshift offset suboffset i w
      = fun j => if wshift < j ∧ j ≤ i then
          W64_shl (w (j - wshift)) offset ||| W64_shr (w (j - wshift - 1)) suboffset
        else w j := by
  induction i generalizing w with
  | zero =>
    simp only [bitvecbase.shiftleft_bits]
    funext j
    have : ¬ (wshift < j ∧ j ≤ 0) := by omega
    simp only [this, if_false]
  | succ i ih =>
    simp only [bitvecbase.shiftleft_bits]
    by_cases h : i + 1 > wshift
    · simp only [h, if_true]
      rw [ih]
      funext j
      by_cases hj : j = i + 1
      · subst hj
        have c1 : ¬ (wshift < i + 1 ∧ i + 1 ≤ i) := by omega
        have c2 : wshift < i + 1 ∧ i + 1 ≤ i + 1 := by omega
        rw [if_neg c1, if_pos c2, Function.update_same]
      · by_cases hin : wshift < j ∧ j ≤ i
        · have c2 : wshift < j ∧ j ≤ i + 1 := by omega
          have hne1 : j - wshift ≠ i + 1 := by omega
          have hne2 : j - wshift - 1 ≠ i + 1 := by omega
          rw [if_pos hin, if_pos c2, Function.update_noteq hne1,
            Function.update_noteq hne2]
        · have c2 : ¬ (wshift < j ∧ j ≤ i + 1) := by omega
          rw [if_neg hin, if_neg c2, Function.update_noteq hj]
    · simp only [h, if_false]
      funext j
      have : ¬ (wshift < j ∧ j ≤ i + 1) := by omega
      simp only [this, if_false]

/-- A `foreach` loop that clears the words below `n`. -/
theorem foreach_clear_low (n : Nat) (w : Nat → Nat) :
    foreach n (fun w i => Function.update w i 0) w = fun j => if j < n then 0 else w j :=
  foreach_update (fun _ _ => 0) (fun _ _ _ _ => rfl) n w

/-- The words after `shiftleftop(shift)` for a shift by whole words. -/
theorem bitvecbase.shiftleftop_words (N : Nat) (w : Nat → Nat) (shift : Nat)
    (h0 : shift ≠ 0) (hoff : shift % 64 = 0) :
    bitvecbase.shiftleftop N w shift
      = some (fun j => if j < shift / 64 then 0
          else if shift / 64 ≤ j ∧ j ≤ N - 1 then w (j - shift / 64) else w j) := by
  have hws : 1 ≤ shift / 64 := by omega
  simp only [bitvecbase.shiftleftop, BITS_PER_WORD, h0, ne_eq, not_false_eq_true, if_true,
    hoff, bitvecbase.shiftleft_words_eq _ hws, Option.map_some', foreach_clear_low]

/-- The words after `shiftleftop(shift)` for a shift that is not by whole words. -/
theorem bitvecbase.shiftleftop_bits (N : Nat) (w : Nat → Nat) (shift : Nat)
    (hoff : shift % 64 ≠ 0) :
    bitvecbase.shiftleftop N w shift
      = some (fun j => if j < shift / 64 then 0
          else if j = shift / 64 then W64_shl (w 0) (shift % 64)
          else if shift / 64 < j ∧ j ≤ N - 1 then
            W64_shl (w (j - shift / 64)) (shift % 64)
              ||| W64_shr (w (j - shift / 64 - 1)) (64 - shift % 64)
          else w j) := by
  have h0 : shift ≠ 0 := by
    intro h; rw [h] at hoff; exact hoff rfl
  simp only [bitvecbase.shiftleftop, BITS_PER_WORD, h0, ne_eq, not_false_eq_true, if_true,
    hoff, if_false, bitvecbase.shiftleft_bits_eq, Option.map_some', foreach_clear_low]
  congr 1
  funext j
  by_cases h1 : j < shift / 64
  · rw [if_pos h1, if_pos h1]
  · rw [if_neg h1, if_neg h1]
    by_cases h2 : j = shift / 64
    · have c0 : ¬ (shift / 64 < 0 ∧ 0 ≤ N - 1) := by omega
      rw [if_pos h2, h2, Function.update_same, if_neg c0]
    · rw [if_neg h2, Function.update_noteq h2]

/-- The bits after `shiftleftop(shift)` on `N ≥ 1` words of 64 bits, for a shift
below the number of bits: bit `k` is bit `k - shift` of the words before, and is
clear below `shift`. -/
theorem bitvecbase.shiftleftop_bit (N : Nat) (w : Nat → Nat) (shift : Nat)
    (hN : 1 ≤ N) (hs : shift < 64 * N) (hw : ∀ j, j < N → w j < 2 ^ 64) :
    ∃ w1, bitvecbase.shiftleftop N w shift = some w1
      ∧ (∀ j, N ≤ j → w1 j = w j)
      ∧ ∀ k, k < 64 * N → (w1 (k / 64)).testBit (k % 64)
          = (decide (shift ≤ k) && (w ((k - shift) / 64)).testBit ((k - shift) % 64)) := by
  by_cases h0 : shift = 0
  · refine ⟨w, by simp [bitvecbase.shiftleftop, h0], fun _ _ => rfl, ?_⟩
    intro k hk
    simp [h0]
  · by_cases hoff : shift % 64 = 0
    · refine ⟨_, bitvecbase.shiftleftop_words N w shift h0 hoff, ?_, ?_⟩
      · intro j hj
        have c1 : ¬ j < shift / 64 := by omega
        have c2 : ¬ (shift / 64 ≤ j ∧ j ≤ N - 1) := by omega
        simp only [c1, c2, if_false]
      · intro k hk
        by_cases h1 : k / 64 < shift / 64
        · have c : ¬ shift ≤ k := by omega
          simp [h1, c]
        · have c : shift ≤ k := by omega
          have c2 : shift / 64 ≤ k / 64 ∧ k / 64 ≤ N - 1 := by omega
          have e1 : (k - shift) / 64 = k / 64 - shift / 64 := by omega
          have e2 : (k - shift) % 64 = k % 64 := by omega
          simp only [h1, if_false, c2, and_self, if_true, c, decide_True, Bool.true_and, e1,
            e2]
    · refine ⟨_, bitvecbase.shiftleftop_bits N w shift hoff, ?_, ?_⟩
      · intro j hj
        have c1 : ¬ j < shift / 64 := by omega
        have c2 : ¬ j = shift / 64 := by omega
        have c3 : ¬ (shift / 64 < j ∧ j ≤ N - 1) := by omega
        simp only [c1, c2, c3, if_false]
      · intro k hk
        have ht : k % 64 < 64 := Nat.mod_lt _ (by decide)
        have ho : shift % 64 % 64 = shift % 64 := Nat.mod_mod _ _
        have hso : (64 - shift % 64) % 64 = 64 - shift % 64 := by omega
        by_cases h1 : k / 64 < shift / 64
        · have c : ¬ shift ≤ k := by omega
          simp [h1, c]
        · rw [if_neg h1]
          by_cases h2 : k / 64 = shift / 64
          · rw [if_pos h2, W64_shl_testBit, ho]
            by_cases h3 : shift % 64 ≤ k % 64
            · have c : shift ≤ k := by omega
              have e1 : (k - shift) / 64 = 0 := by omega
              have e2 : (k - shift) % 64 = k % 64 - shift % 64 := by omega
              simp only [ht, h3, c, decide_True, Bool.true_and, e1, e2]
            · have c : ¬ shift ≤ k := by omega
              simp only [ht, h3, c, decide_True, decide_False, Bool.true_and,
                Bool.false_and]
          · have c3 : shift / 64 < k / 64 ∧ k / 64 ≤ N - 1 := by omega
            have c : shift ≤ k := by omega
            rw [if_neg h2, if_pos c3, Nat.testBit_or, W64_shl_testBit, W64_shr_testBit, ho,
              hso]
            by_cases h3 : shift % 64 ≤ k % 64
            · have e1 : (k - shift) / 64 = k / 64 - shift / 64 := by omega
              have e2 : (k - shift) % 64 = k % 64 - shift % 64 := by omega
              have hz := testBit_false_of_lt (w (k / 64 - shift / 64 - 1)) 64
                (64 - shift % 64 + k % 64) (hw _ (by omega)) (by omega)
              simp only [ht, h3, c, decide_True, Bool.true_and, e1, e2, hz, Bool.or_false]
            · have e1 : (k - shift) / 64 = k / 64 - shift / 64 - 1 := by omega
              have e2 : (k - shift) % 64 = 64 - shift % 64 + k % 64 := by omega
              simp only [ht, h3, c, decide_True, decide_False, Bool.true_and, Bool.false_and,
                e1, e2, Bool.false_or]

/-- The index `limit` of `shiftrightop` for a shift by fewer words than the vector
has. -/
theorem bitvecbase.limit_eq (N wshift : Nat) (hN : N < 2 ^ 64) (hws : wshift < N) :
    size_t_sub (size_t_sub N wshift) 1 = N - wshift - 1
      ∧ size_t_sub N ((N - wshift - 1 + 1) % 2 ^ 64) = wshift := by
  simp only [size_t_sub]
  omega

/-- The words after `shiftrightop(shift)` for a shift by whole words. -/
theorem bitvecbase.shiftrightop_words (N : Nat) (w : Nat → Nat) (shift : Nat)
    (hN : N < 2 ^ 64) (hs : shift / 64 < N) (h0 : shift ≠ 0) (hoff : shift % 64 = 0) :
    bitvecbase.shiftrightop N w shift
      = some (fun j => if N - shift / 64 - 1 + 1 ≤ j ∧ j < N - shift / 64 - 1 + 1 + shift / 64
          then 0
          else if j < N - shift / 64 - 1 + 1 then w (j + shift / 64) else w j) := by
  obtain ⟨hl1, hl2⟩ := bitvecbase.limit_eq N (shift / 64) hN hs
  have hl3 : ¬ (N - shift / 64 - 1 = 2 ^ 64 - 1) := by omega
  have hloop := foreach_update (fun w i => w (i + shift / 64))
    (fun w1 w2 i h => h (i + shift / 64) (by omega)) (N - shift / 64 - 1 + 1) w
  simp only [bitvecbase.shiftrightop, BITS_PER_WORD, h0, ne_eq, not_false_eq_true, if_true,
    hoff, hl1, hl2, hl3, if_false, Option.map_some', hloop, foreach_clear]

/-- The words after `shiftrightop(shift)` for a shift that is not by whole words. -/
theorem bitvecbase.shiftrightop_bits (N : Nat) (w : Nat → Nat) (shift : Nat)
    (hN : N < 2 ^ 64) (hs : shift / 64 < N) (hoff : shift % 64 ≠ 0) :
    bitvecbase.shiftrightop N w shift
      = some (fun j => if N - shift / 64 - 1 + 1 ≤ j ∧ j < N - shift / 64 - 1 + 1 + shift / 64
          then 0
          else if j = N - shift / 64 - 1 then W64_shr (w (N - 1)) (shift % 64)
          else if j < N - shift / 64 - 1 then
            W64_shr (w (j + shift / 64)) (shift % 64)
              ||| W64_shl (w (j + shift / 64 + 1)) (64 - shift % 64)
          else w j) := by
  have h0 : shift ≠ 0 := by
    intro h; rw [h] at hoff; exact hoff rfl
  obtain ⟨hl1, hl2⟩ := bitvecbase.limit_eq N (shift / 64) hN hs
  have hloop := foreach_update
    (fun w i => W64_shr (w (i + shift / 64)) (shift % 64)
      ||| W64_shl (w (i + shift / 64 + 1)) (64 - shift % 64))
    (fun w1 w2 i h => by
      show W64_shr (w1 (i + shift / 64)) (shift % 64)
          ||| W64_shl (w1 (i + shift / 64 + 1)) (64 - shift % 64)
        = W64_shr (w2 (i + shift / 64)) (shift % 64)
          ||| W64_shl (w2 (i + shift / 64 + 1)) (64 - shift % 64)
      rw [h (i + shift / 64) (by omega), h (i + shift / 64 + 1) (by omega)])
    (N - shift / 64 - 1) w
  simp only [bitvecbase.shiftrightop, BITS_PER_WORD, h0, ne_eq, not_false_eq_true, if_true,
    hoff, hl1, hl2, if_false, Option.map_some', hloop, foreach_clear]
  refine congrArg some (funext fun j => ?_)
  by_cases h1 : N - shift / 64 - 1 + 1 ≤ j ∧ j < N - shift / 64 - 1 + 1 + shift / 64
  · rw [if_pos h1, if_pos h1]
  · rw [if_neg h1, if_neg h1]
    by_cases h2 : j = N - shift / 64 - 1
    · have c0 : ¬ (N - 1 < N - shift / 64 - 1) := by omega
      rw [if_pos h2, h2, Function.update_same, if_neg c0]
    · rw [if_neg h2, Function.update_noteq h2]

/-- The bits after `shiftrightop(shift)` on `N ≥ 1` words of 64 bits, for a shift
below the number of bits: bit `k` is bit `k + shift` of the words before, and is
clear when `k + shift` is not a bit of the words. -/
theorem bitvecbase.shiftrightop_bit (N : Nat) (w : Nat → Nat) (shift : Nat)
    (hN : 1 ≤ N) (hN64 : N < 2 ^ 64) (hs : shift < 64 * N)
    (hw : ∀ j, j < N → w j < 2 ^ 64) :
    ∃ w1, bitvecbase.shiftrightop N w shift = some w1
      ∧ (∀ j, N ≤ j → w1 j = w j)
      ∧ ∀ k, k < 64 * N → (w1 (k / 64)).testBit (k % 64)
          = (decide (k + shift < 64 * N)
              && (w ((k + shift) / 64)).testBit ((k + shift) % 64)) := by
  have hws : shift / 64 < N := by omega
  by_cases h0 : shift = 0
  · refine ⟨w, by simp [bitvecbase.shiftrightop, h0], fun _ _ => rfl, ?_⟩
    intro k hk
    simp [h0, hk]
  · by_cases hoff : shift % 64 = 0
    · refine ⟨_, bitvecbase.shiftrightop_words N w shift hN64 hws h0 hoff, ?_, ?_⟩
      · intro j hj
        have c1 : ¬ (N - shift / 64 - 1 + 1 ≤ j ∧ j < N - shift / 64 - 1 + 1 + shift / 64) := by
          omega
        have c2 : ¬ j < N - shift / 64 - 1 + 1 := by omega
        simp only [c1, c2, if_false]
      · intro k hk
        by_cases h1 : N - shift / 64 - 1 + 1 ≤ k / 64
            ∧ k / 64 < N - shift / 64 - 1 + 1 + shift / 64
        · have c : ¬ k + shift < 64 * N := by omega
          rw [if_pos h1]
          simp [c]
        · have c : k + shift < 64 * N := by omega
          have c2 : k / 64 < N - shift / 64 - 1 + 1 := by omega
          have e1 : (k + shift) / 64 = k / 64 + shift / 64 := by omega
          have e2 : (k + shift) % 64 = k % 64 := by omega
          rw [if_neg h1, if_pos c2]
          simp only [c, decide_True, Bool.true_and, e1, e2]
    · refine ⟨_, bitvecbase.shiftrightop_bits N w shift hN64 hws hoff, ?_, ?_⟩
      · intro j hj
        have c1 : ¬ (N - shift / 64 - 1 + 1 ≤ j ∧ j < N - shift / 64 - 1 + 1 + shift / 64) := by
          omega
        have c2 : ¬ j = N - shift / 64 - 1 := by omega
        have c3 : ¬ j < N - shift / 64 - 1 := by omega
        simp only [c1, c2, c3, if_false]
      · intro k hk
        have ht : k % 64 < 64 := Nat.mod_lt _ (by decide)
        have ho : shift % 64 % 64 = shift % 64 := Nat.mod_mod _ _
        have hso : (64 - shift % 64) % 64 = 64 - shift % 64 := by omega
        by_cases h1 : N - shift / 64 - 1 + 1 ≤ k / 64
            ∧ k / 64 < N - shift / 64 - 1 + 1 + shift / 64
        · have c : ¬ k + shift < 64 * N := by omega
          rw [if_pos h1]
          simp [c]
        · rw [if_neg h1]
          by_cases h2 : k / 64 = N - shift / 64 - 1
          · rw [if_pos h2, W64_shr_testBit, ho]
            by_cases h3 : shift % 64 + k % 64 < 64
            · have c : k + shift < 64 * N := by omega
              have e1 : (k + shift) / 64 = N - 1 := by omega
              have e2 : (k + shift) % 64 = shift % 64 + k % 64 := by omega
              simp only [c, decide_True, Bool.true_and, e1, e2]
            · have c : ¬ k + shift < 64 * N := by omega
              have hz := testBit_false_of_lt (w (N - 1)) 64 (shift % 64 + k % 64)
                (hw _ (by omega)) (by omega)
              simp only [c, decide_False, Bool.false_and, hz]
          · have c3 : k / 64 < N - shift / 64 - 1 := by omega
            have c : k + shift < 64 * N := by omega
            rw [if_neg h2, if_pos c3, Nat.testBit_or, W64_shl_testBit, W64_shr_testBit, ho,
              hso]
            by_cases h3 : shift % 64 + k % 64 < 64
            · have e1 : (k + shift) / 64 = k / 64 + shift / 64 := by omega
              have e2 : (k + shift) % 64 = shift % 64 + k % 64 := by omega
              have c4 : ¬ (64 - shift % 64 ≤ k % 64) := by omega
              simp only [ht, c, c4, decide_True, decide_False, Bool.true_and, Bool.false_and,
                e1, e2, Bool.or_false]
            · have e1 : (k + shift) / 64 = k / 64 + shift / 64 + 1 := by omega
              have e2 : (k + shift) % 64 = k % 64 - (64 - shift % 64) := by omega
              have c4 : 64 - shift % 64 ≤ k % 64 := by omega
              have hz := testBit_false_of_lt (w (k / 64 + shift / 64)) 64
                (shift % 64 + k % 64) (hw _ (by omega)) (by omega)
              simp only [ht, c, c4, decide_True, Bool.true_and, e1, e2, hz, Bool.false_or]

/-- The number of words of a vector with at least one bit, as a quotient. -/
theorem BITVEC_WORDS_eq (N : Nat) (h : 1 ≤ N) : BITVEC_WORDS N = (N + 63) / 64 := by
  have hN : ¬ N < 1 := by omega
  simp only [BITVEC_WORDS, BITS_PER_WORD, hN, if_false]
  omega

/-- The bits of a vector given by its words. -/
theorem bitvec.bit_mk {N : Nat} (w : Nat → Nat) (k : Nat) :
    bitvec.bit (⟨w⟩ : bitvec N) k = (w (k / 64)).testBit (k % 64) := rfl

/-- The method `sanitize()` on a vector with at least one word assigns the top
word. -/
theorem bitvec.sanitize_eq {N : Nat} (x : bitvec N) (hW : 1 ≤ BITVEC_WORDS N) :
    x.sanitize = ⟨Function.update x.w (BITVEC_WORDS N - 1)
      (bitvec_sanitizer (N % 64) (x.w (BITVEC_WORDS N - 1)))⟩ := by
  unfold bitvec.sanitize
  by_cases h0 : BITVEC_WORDS N = 0
  · omega
  · by_cases h1 : BITVEC_WORDS N = 1
    · rw [if_neg h0, if_pos h1, h1]; rfl
    · rw [if_neg h0, if_neg h1]; rfl

/-- The bits of a sanitized word: the bits below `extrabits`, or all bits for
`extrabits = 0`. -/
theorem bitvec_sanitizer_testBit (extrabits val t : Nat) (he : extrabits < 64)
    (ht : t < 64) :
    (bitvec_sanitizer extrabits val).testBit t
      = (val.testBit t && (decide (extrabits = 0) || decide (t < extrabits))) := by
  unfold bitvec_sanitizer
  by_cases h0 : extrabits = 0
  · simp [h0]
  · have hm : extrabits % 64 = extrabits := Nat.mod_eq_of_lt he
    have h1 : (W64_not 0).testBit (t - extrabits) = true := by
      rw [W64_not_testBit 0 _ (by decide)]
      have : t - extrabits < 64 := by omega
      simp [this]
    rw [if_neg h0, Nat.testBit_and, W64_not_testBit _ _ (W64_shl_lt _ _), W64_shl_testBit, hm,
      h1]
    by_cases hle : extrabits ≤ t
    · have : ¬ t < extrabits := by omega
      simp [ht, hle, h0, this]
    · have : t < extrabits := by omega
      simp [ht, hle, h0, this]

/-- The method `sanitize()` keeps the bits below `N` and clears the other bits of
the top word. -/
theorem bitvec.sanitize_bit {N : Nat} (x : bitvec N) (k : Nat)
    (hk : k < 64 * BITVEC_WORDS N) :
    x.sanitize.bit k = (x.bit k && decide (k < N)) := by
  have hN : 1 ≤ N := by
    by_contra h
    have : BITVEC_WORDS N = 0 := by simp [BITVEC_WORDS]; omega
    omega
  have hW := BITVEC_WORDS_eq N hN
  rw [bitvec.sanitize_eq x (by omega)]
  unfold bitvec.bit
  by_cases hj : k / 64 = BITVEC_WORDS N - 1
  · rw [hj]
    show (Function.update x.w (BITVEC_WORDS N - 1) _ (BITVEC_WORDS N - 1)).testBit _ = _
    rw [Function.update_same,
      bitvec_sanitizer_testBit _ _ _ (Nat.mod_lt _ (by decide)) (Nat.mod_lt _ (by decide))]
    congr 1
    by_cases h0 : N % 64 = 0
    · have : k < N := by omega
      simp [h0, this]
    · by_cases hlt : k < N
      · have : k % 64 < N % 64 := by omega
        simp [h0, this, hlt]
      · have : ¬ k % 64 < N % 64 := by omega
        simp [h0, this, hlt]
  · show (Function.update x.w (BITVEC_WORDS N - 1) _ (k / 64)).testBit _ = _
    rw [Function.update_noteq hj]
    have : k < N := by omega
    simp [this]

/-- After `resetop()` every bit of the words is clear. -/
theorem bitvec.resetop_bit {N : Nat} (x : bitvec N) (k : Nat)
    (hk : k < 64 * BITVEC_WORDS N) : x.resetop.bit k = false := by
  unfold bitvec.resetop bitvec.bit
  by_cases h0 : BITVEC_WORDS N = 0
  · omega
  · by_cases h1 : BITVEC_WORDS N = 1
    · have : k / 64 = 0 := by omega
      rw [if_neg h0, if_pos h1, this]
      show (Function.update x.w 0 0 0).testBit _ = false
      rw [Function.update_same]; exact Nat.zero_testBit _
    · rw [if_neg h0, if_neg h1]
      show (bitvecbase.resetop (BITVEC_WORDS N) x.w (k / 64)).testBit _ = false
      have hlt : k / 64 < BITVEC_WORDS N := by omega
      simp only [bitvecbase.resetop, foreach_clear_low, hlt, if_true, Nat.zero_testBit]

/-- The bits after `shiftleftop(shift)` of the base, for a shift below `N`. -/
theorem bitvec.shiftleftop_moves_bits {N : Nat} (x : bitvec N) (shift : Nat) (hs : shift < N)
    (hw : ∀ j, j < BITVEC_WORDS N → x.w j < 2 ^ 64) :
    ∃ r, x.shiftleftop shift = some r
      ∧ ∀ k, k < 64 * BITVEC_WORDS N →
          r.bit k = (decide (shift ≤ k) && x.bit (k - shift)) := by
  have hW := BITVEC_WORDS_eq N (by omega)
  unfold bitvec.shiftleftop
  by_cases h0 : BITVEC_WORDS N = 0
  · omega
  · by_cases h1 : BITVEC_WORDS N = 1
    · rw [if_neg h0, if_pos h1]
      refine ⟨⟨Function.update x.w 0 (W64_shl (x.w 0) shift)⟩, rfl, ?_⟩
      intro k hk
      have hk0 : k / 64 = 0 := by omega
      have hk1 : k % 64 = k := by omega
      have hs1 : shift % 64 = shift := by omega
      have e1 : (k - shift) / 64 = 0 := by omega
      have e2 : (k - shift) % 64 = k - shift := by omega
      have hk64 : k < 64 := by omega
      rw [bitvec.bit_mk, hk0, Function.update_same, W64_shl_testBit, hs1, hk1]
      unfold bitvec.bit
      rw [e1, e2]
      simp [hk64]
    · rw [if_neg h0, if_neg h1]
      obtain ⟨w1, he, _, hb⟩ := bitvecbase.shiftleftop_bit (BITVEC_WORDS N) x.w shift
        (by omega) (by omega) hw
      rw [he]
      exact ⟨_, rfl, hb⟩

/-- The bits after `shiftrightop(shift)` of the base, for a shift below `N`. -/
theorem bitvec.shiftrightop_moves_bits {N : Nat} (x : bitvec N) (shift : Nat) (hN : N < 2 ^ 64)
    (hs : shift < N) (hw : ∀ j, j < BITVEC_WORDS N → x.w j < 2 ^ 64) :
    ∃ r, x.shiftrightop shift = some r
      ∧ ∀ k, k < 64 * BITVEC_WORDS N →
          r.bit k = (decide (k + shift < 64 * BITVEC_WORDS N) && x.bit (k + shift)) := by
  have hW := BITVEC_WORDS_eq N (by omega)
  unfold bitvec.shiftrightop
  by_cases h0 : BITVEC_WORDS N = 0
  · omega
  · by_cases h1 : BITVEC_WORDS N = 1
    · rw [if_neg h0, if_pos h1]
      refine ⟨⟨Function.update x.w 0 (W64_shr (x.w 0) shift)⟩, rfl, ?_⟩
      intro k hk
      have hk0 : k / 64 = 0 := by omega
      have hk1 : k % 64 = k := by omega
      have hs1 : shift % 64 = shift := by omega
      rw [bitvec.bit_mk, hk0, Function.update_same, W64_shr_testBit, hs1, hk1]
      unfold bitvec.bit
      by_cases hlt : k + shift < 64
      · have e1 : (k + shift) / 64 = 0 := by omega
        have e2 : (k + shift) % 64 = shift + k := by omega
        have : k + shift < 64 * BITVEC_WORDS N := by omega
        simp only [this, decide_True, Bool.true_and, e1, e2]
      · have : ¬ k + shift < 64 * BITVEC_WORDS N := by omega
        have hz := testBit_false_of_lt (x.w 0) 64 (shift + k) (hw 0 (by omega)) (by omega)
        simp only [this, decide_False, Bool.false_and, hz]
    · rw [if_neg h0, if_neg h1]
      obtain ⟨w1, he, _, hb⟩ := bitvecbase.shiftrightop_bit (BITVEC_WORDS N) x.w shift
        (by omega) (by omega) (by omega) hw
      rw [he]
      exact ⟨_, rfl, hb⟩

/-- The example vector is sanitized. -/
theorem bitvec.sample_sanitized : bitvec.sample.sanitized := by
  have hW : BITVEC_WORDS 130 = 3 := by decide
  constructor
  · intro j hj
    rw [hW] at hj
    unfold bitvec.sample
    interval_cases j <;> norm_num
  · intro k hk hge
    rw [hW] at hk
    have hk2 : k / 64 = 2 := by omega
    unfold bitvec.bit bitvec.sample
    rw [hk2]
    exact testBit_false_of_lt 2 2 (k % 64) (by decide) (by omega)

/-- The shifts of a sanitized `bitvec<N>` `x` by an `int` `s` that is not negative:
for `s < N`, `x <<= s` and `x >>= s` end, bit `i < N` of `x <<= s` is bit `i - s` of
`x` for `s ≤ i` and is 0 for `i < s`, and bit `i < N` of `x >>= s` is bit `i + s` of
`x` for `i + s < N` and is 0 otherwise; for `s ≥ N` both give the vector with every
bit clear. -/
theorem bitvec.shifts_move_bits {N : Nat} (x : bitvec N) (s : Nat) (hN : N < 2 ^ 64)
    (hs31 : s < 2 ^ 31) (hx : x.sanitized) :
    (s < N →
        (∃ r, x.shiftleft_assign (s : Int) = some r
          ∧ ∀ i, i < N → r.test i = (decide (s ≤ i) && x.test (i - s)))
        ∧ ∃ r, x.shiftright_assign (s : Int) = some r
          ∧ ∀ i, i < N → r.test i = (decide (i + s < N) && x.test (i + s)))
      ∧ (N ≤ s →
        (∃ r, x.shiftleft_assign (s : Int) = some r ∧ ∀ i, i < N → r.test i = false)
        ∧ ∃ r, x.shiftright_assign (s : Int) = some r ∧ ∀ i, i < N → r.test i = false) := by
  have hcast : int_to_W64 (s : Int) = s := int_to_W64_natCast s (by omega)
  obtain ⟨hw, hbits⟩ := hx
  constructor
  · intro hs
    constructor
    · obtain ⟨r, hr, hb⟩ := bitvec.shiftleftop_moves_bits x s hs hw
      refine ⟨r.sanitize, ?_, ?_⟩
      · simp only [bitvec.shiftleft_assign, hcast, hs, if_true, hr, Option.map_some']
      · intro i hi
        have hi2 := bitvec.index_lt i hi
        rw [bitvec.test_eq_bit _ i hi2, bitvec.sanitize_bit _ i hi2, hb i hi2]
        by_cases hle : s ≤ i
        · rw [bitvec.test_eq_bit x (i - s) (by omega)]
          simp [hle, hi]
        · simp [hle]
    · obtain ⟨r, hr, hb⟩ := bitvec.shiftrightop_moves_bits x s hN hs hw
      refine ⟨r.sanitize, ?_, ?_⟩
      · simp only [bitvec.shiftright_assign, hcast, hs, if_true, hr, Option.map_some']
      · intro i hi
        have hi2 := bitvec.index_lt i hi
        rw [bitvec.test_eq_bit _ i hi2, bitvec.sanitize_bit _ i hi2, hb i hi2]
        by_cases hlt : i + s < N
        · have h2 := bitvec.index_lt (i + s) hlt
          rw [bitvec.test_eq_bit x (i + s) h2]
          simp [hlt, hi, h2]
        · by_cases h2 : i + s < 64 * BITVEC_WORDS N
          · rw [hbits (i + s) h2 (by omega)]
            simp [hlt]
          · simp [hlt, h2]
  · intro hs
    have hns : ¬ s < N := by omega
    constructor
    · refine ⟨x.resetop, ?_, ?_⟩
      · simp only [bitvec.shiftleft_assign, hcast, hns, if_false]
      · intro i hi
        have hi2 := bitvec.index_lt i hi
        rw [bitvec.test_eq_bit _ i hi2, bitvec.resetop_bit _ i hi2]
    · refine ⟨x.resetop, ?_, ?_⟩
      · simp only [bitvec.shiftright_assign, hcast, hns, if_false]
      · intro i hi
        have hi2 := bitvec.index_lt i hi
        rw [bitvec.test_eq_bit _ i hi2, bitvec.resetop_bit _ i hi2]

/-- The shifts of the example vector of 130 bits (three words) by 70, which is not a
multiple of the word size: bit 0 goes to bit 70 by `<<=`, bit 129 goes to bit 59 by
`>>=`. -/
theorem bitvec.shifts_move_bits_sample :
    (130 < 2 ^ 64) ∧ (70 < 2 ^ 31) ∧ bitvec.sample.sanitized
      ∧ ((∃ r, bitvec.sample.shiftleft_assign ((70 : Nat) : Int) = some r
          ∧ ∀ i, i < 130 → r.test i = (decide (70 ≤ i) && bitvec.sample.test (i - 70)))
        ∧ ∃ r, bitvec.sample.shiftright_assign ((70 : Nat) : Int) = some r
          ∧ ∀ i, i < 130 → r.test i = (decide (i + 70 < 130) && bitvec.sample.test (i + 70)))
      ∧ (bitvec.sample.shiftleft_assign 70).map (fun r => (r.test 69, r.test 70, r.test 71))
          = some (false, true, false)
      ∧ (bitvec.sample.shiftright_assign 70).map (fun r => (r.test 58, r.test 59, r.test 60))
          = some (false, true, false) :=
  ⟨by norm_num, by norm_num, bitvec.sample_sanitized,
    (bitvec.shifts_move_bits bitvec.sample 70 (by norm_num) (by norm_num)
      bitvec.sample_sanitized).1 (by decide),
    by decide, by decide⟩

/-- C23 fails at two inputs.  The operator `<<` passes its `size_t` shift to the
`int` parameter of `<<=`: on the `bitvec<8>` with only bit 0 set, the shift by
`2^32`, which is not below `N`, is a shift by 0 and gives the vector unchanged, bit
0 still set, and not the vector with every bit clear; so does `>>`.  And on the
`bitvec<8>` with the word `0x1ff` that `accum(0, 8, 0x1ff)` returns, `>>= 1` leaves
bit 7 set, although `7 + 1` is not below `N`: the bit comes from position 8. -/
theorem C23_shift_by_size_t_or_of_accum_result :
    (bitvec.init 8 1).test 0 = true
      ∧ ((bitvec.init 8 1).shiftleft 4294967296).map (fun r => r.test 0) = some true
      ∧ ((bitvec.init 8 1).shiftright 4294967296).map (fun r => r.test 0) = some true
      ∧ ((bitvec.init 8 1).shiftleft 4294967297).map (fun r => (r.test 0, r.test 1))
          = some (false, true)
      ∧ ((bitvec.init 8 0).accum 0 8 0x1ff).test 7 = true
      ∧ (((bitvec.init 8 0).accum 0 8 0x1ff).shiftright_assign 1).map (fun r => r.test 7)
          = some true := by
  decide

/-- C24 on the example vector of 130 bits, at the indices 64 and 129. -/
theorem C24_single_bit_operations_witness :
    (64 < 130) ∧ (129 < 130)
      ∧ (bitvec.sample.set 64).test 64 = true ∧ (bitvec.sample.reset 64).test 64 = false
      ∧ (bitvec.sample.reset 64).test 129 = bitvec.sample.test 129
      ∧ bitvec.sample.test 129 = true :=
  ⟨by decide, by decide,
    (C24_single_bit_operations bitvec.sample 64 129 0 (by decide) (by decide)).1,
    (C24_single_bit_operations bitvec.sample 64 129 0 (by decide) (by decide)).2.1,
    ((C24_single_bit_operations bitvec.sample 64 129 0 (by decide) (by decide)).2.2.2.2
      (by decide)).2.1,
    by decide⟩

/-- C21, on vectors of 128 bits (two words): `mask(0)` of the vector with only bit 0
set still has bit 0 set, and `mask(64)` of the vector with only bit 64 set still
has bit 64 set: `maskop` leaves the word of `count` as it is when `count` is a
multiple of 64.  On a vector of 64 bits (one word), `mask(64)` of the vector with
only bit 0 set has bit 0 clear. -/
theorem C21_mask_at_word_boundary :
    (bitvec.init 128 1).test 0 = true
      ∧ ((bitvec.init 128 1).mask 0).test 0 = true
      ∧ ((bitvec.init 128 0).set 64).test 64 = true
      ∧ (((bitvec.init 128 0).set 64).mask 64).test 64 = true
      ∧ (bitvec.init 64 1).test 0 = true
      ∧ ((bitvec.init 64 1).mask 64).test 0 = false := by
  decide

/-- C22, on the vector of 128 bits (two words) with no bit set:
`insert(60, 8, 0xff)`, a field that straddles the two words, sets the bits 60 to 63
and the bits 0 to 3 of the first word and no bit of the second word, so bit 64 is
clear and bit 0 is set. -/
theorem C22_insert_across_word_boundary :
    ((bitvec.init 128 0).insert 60 8 0xff).w 0 = 0xf00000000000000f
      ∧ ((bitvec.init 128 0).insert 60 8 0xff).w 1 = 0
      ∧ ((bitvec.init 128 0).insert 60 8 0xff).test 64 = false
      ∧ ((bitvec.init 128 0).insert 60 8 0xff).test 0 = true := by
  decide

/-- C25, on the vector of 8 bits with no bit set, which is sanitized:
`accum(0, 8, 0x1ff)` gives the word `0x1ff`, whose bit 8 is set, so the result is
not sanitized and its `popcount()` is 9; `insert(0, 8, 0x1ff)` gives `0xff`. -/
theorem C25_accum_sets_bit_above_size :
    (bitvec.init 8 0).sanitized
      ∧ ((bitvec.init 8 0).accum 0 8 0x1ff).w 0 = 0x1ff
      ∧ ((bitvec.init 8 0).accum 0 8 0x1ff).bit 8 = true
      ∧ ¬ ((bitvec.init 8 0).accum 0 8 0x1ff).sanitized
      ∧ ((bitvec.init 8 0).accum 0 8 0x1ff).popcount = 9
      ∧ ((bitvec.init 8 0).insert 0 8 0x1ff).w 0 = 0xff := by
  have hW : BITVEC_WORDS 8 = 1 := by decide
  have hw0 : (bitvec.init 8 0).w = fun _ => 0 := by
    funext j
    by_cases hj : j = 0
    · subst hj; decide
    · simp [bitvec.init, bitvec.sanitize, hW, Function.update_noteq hj]
  refine ⟨⟨?_, ?_⟩, by decide, by decide, ?_, by decide, by decide⟩
  · intro j _
    rw [hw0]; norm_num
  · intro k _ _
    unfold bitvec.bit
    rw [hw0]; exact Nat.zero_testBit _
  · intro h
    have h8 := h.2 8 (by decide) (by decide)
    have h9 : ((bitvec.init 8 0).accum 0 8 0x1ff).bit 8 = true := by decide
    rw [h9] at h8
    cases h8

/-! ## Theorems: flags, condition codes, names and opcode classes -/

/-- C40 fails: the constant `FLAG_NOT_WAIT_INV`, `0x08f5`, is not the union of
`FLAG_ZAPS`, `FLAG_CF` and `FLAG_OF`, which is `0x08d5`; it has bit 5 (`0x20`) set,
which none of the three masks has. -/
theorem C40_not_wait_inv_has_bit_five :
    FLAG_NOT_WAIT_INV ≠ (FLAG_ZAPS ||| FLAG_CF ||| FLAG_OF)
      ∧ FLAG_NOT_WAIT_INV.testBit 5 = true
      ∧ (FLAG_ZAPS ||| FLAG_CF ||| FLAG_OF).testBit 5 = false
      ∧ FLAG_NOT_WAIT_INV = 0x08f5 ∧ (FLAG_ZAPS ||| FLAG_CF ||| FLAG_OF) = 0x08d5 := by
  decide

/-- The bits of the flag masks: `FLAG_NOT_WAIT_INV` contains every bit of
`FLAG_ZAPS`, `FLAG_CF` and `FLAG_OF`, neither `FLAG_WAIT` nor `FLAG_INV`, and one
other bit, bit 5, which is no flag.  And
`FLAG_ZAPS = FLAG_ZF | FLAG_AF | FLAG_PF | FLAG_SF`,
`FLAG_SF_ZF = FLAG_SF | FLAG_ZF`. -/
theorem FLAG_NOT_WAIT_INV_bits :
    FLAG_NOT_WAIT_INV = (FLAG_ZAPS ||| FLAG_CF ||| FLAG_OF ||| 0x20)
      ∧ FLAG_NOT_WAIT_INV &&& (FLAG_ZAPS ||| FLAG_CF ||| FLAG_OF)
          = (FLAG_ZAPS ||| FLAG_CF ||| FLAG_OF)
      ∧ FLAG_NOT_WAIT_INV &&& FLAG_WAIT = 0 ∧ FLAG_NOT_WAIT_INV &&& FLAG_INV = 0
      ∧ FLAG_NOT_WAIT_INV ^^^ (FLAG_ZAPS ||| FLAG_CF ||| FLAG_OF) = 0x20
      ∧ FLAG_NOT_WAIT_INV = ((0xff ^^^ (FLAG_WAIT ||| FLAG_INV)) ||| FLAG_OF)
      ∧ (0x20 &&& (FLAG_CF ||| FLAG_INV ||| FLAG_PF ||| FLAG_WAIT ||| FLAG_AF ||| FLAG_ZF
          ||| FLAG_SF ||| FLAG_OF)) = 0
      ∧ FLAG_ZAPS = (FLAG_ZF ||| FLAG_AF ||| FLAG_PF ||| FLAG_SF)
      ∧ FLAG_SF_ZF = (FLAG_SF ||| FLAG_ZF) := by
  decide

/-- C39: `invert_cond` flips bit zero of a condition code: for every `c` in 0..15,
`invert_cond(c)` is in 0..15, differs from `c`, and `invert_cond(invert_cond(c))`
is `c`; it exchanges o/no, c/nc, e/ne, be/nbe, s/ns, p/np, l/nl and le/nle. -/
theorem C39_invert_cond_pairs :
    (∀ c : Fin 16,
        0 ≤ invert_cond ((c : Nat) : Int) ∧ invert_cond ((c : Nat) : Int) ≤ 15
          ∧ invert_cond ((c : Nat) : Int) ≠ ((c : Nat) : Int)
          ∧ invert_cond (invert_cond ((c : Nat) : Int)) = ((c : Nat) : Int)
          ∧ invert_cond ((c : Nat) : Int) = ((c : Nat) : Int) + 1 - 2 * (((c : Nat) : Int) % 2))
      ∧ invert_cond COND_o = COND_no ∧ invert_cond COND_no = COND_o
      ∧ invert_cond COND_c = COND_nc ∧ invert_cond COND_nc = COND_c
      ∧ invert_cond COND_e = COND_ne ∧ invert_cond COND_ne = COND_e
      ∧ invert_cond COND_be = COND_nbe ∧ invert_cond COND_nbe = COND_be
      ∧ invert_cond COND_s = COND_ns ∧ invert_cond COND_ns = COND_s
      ∧ invert_cond COND_p = COND_np ∧ invert_cond COND_np = COND_p
      ∧ invert_cond COND_l = COND_nl ∧ invert_cond COND_nl = COND_l
      ∧ invert_cond COND_le = COND_nle ∧ invert_cond COND_nle = COND_le := by
  decide

/-- The value of the macro `OPCLASS_FP`: its last operand. -/
theorem OPCLASS_FP_eq : OPCLASS_FP = OPCLASS_FP_CONVERTFP := rfl

/-- C32, on every table `opinfo`: the value of `OPCLASS_FP` is bit 25 alone, not the
union of the bits 19 to 25, so `isclass(op, OPCLASS_FP)` is
`isclass(op, OPCLASS_FP_CONVERTFP)`; it is false for an opcode of the class
`OPCLASS_FP_ALU` (opcode 65 of the example table). -/
theorem C32_opclass_fp_is_one_class :
    OPCLASS_FP = 1 <<< 25
      ∧ OPCLASS_FP ≠ (OPCLASS_FP_ALU ||| OPCLASS_FP_DIVSQRT ||| OPCLASS_FP_COMPARE
          ||| OPCLASS_FP_PERMUTE ||| OPCLASS_FP_CONVERTI2F ||| OPCLASS_FP_CONVERTF2I
          ||| OPCLASS_FP_CONVERTFP)
      ∧ (∀ (opinfo : Nat → OpcodeInfo) (opcode : Int),
          isclass opinfo opcode OPCLASS_FP = isclass opinfo opcode OPCLASS_FP_CONVERTFP)
      ∧ (opinfo_sample 65).opclass = OPCLASS_FP_ALU
      ∧ isclass opinfo_sample 65 OPCLASS_FP_ALU = some true
      ∧ isclass opinfo_sample 65 OPCLASS_FP = some false := by
  refine ⟨by decide, by decide, fun _ _ => rfl, by decide, by decide, by decide⟩

/-- The function `exception_name` reads its table inside only: `exception_names[e]`
below `EXCEPTION_COUNT`, and "Unknown" for every other value. -/
theorem exception_name_eq (exception_names : Nat → String) (e : Nat) :
    exception_name exception_names e
      = some (if e < EXCEPTION_COUNT then exception_names e else "Unknown") := by
  unfold exception_name array_read
  by_cases h : e < EXCEPTION_COUNT
  · have h2 : (0 : Int) ≤ (e : Int) ∧ (e : Int) < (EXCEPTION_COUNT : Int) := by
      constructor
      · exact Int.ofNat_nonneg e
      · exact_mod_cast h
    simp only [h, if_true, h2, and_self, Int.toNat_ofNat]
  · simp only [h, if_false]

/-- The function `nameof` on an opcode that is not negative: `opinfo[opcode].name`
below `OP_MAX_OPCODE`, and "INVALID" from there on. -/
theorem nameof_nonneg (opinfo : Nat → OpcodeInfo) (opcode : Nat) :
    nameof opinfo (opcode : Int)
      = some (if opcode < OP_MAX_OPCODE then (opinfo opcode).name else "INVALID") := by
  unfold nameof array_read
  by_cases h : opcode < OP_MAX_OPCODE
  · have h1 : (opcode : Int) < (OP_MAX_OPCODE : Int) := by exact_mod_cast h
    have h2 : (0 : Int) ≤ (opcode : Int) ∧ (opcode : Int) < (OP_MAX_OPCODE : Int) :=
      ⟨Int.ofNat_nonneg opcode, h1⟩
    simp only [h, h1, if_true, h2, and_self, Int.toNat_ofNat, Option.map_some']
  · have h1 : ¬ (opcode : Int) < (OP_MAX_OPCODE : Int) := by
      intro h1; exact h (by exact_mod_cast h1)
    simp only [h, h1, if_false]

/-- The function `nameof` on a negative opcode: the test `opcode < OP_MAX_OPCODE`
passes and `opinfo` is read before its first element. -/
theorem nameof_negative (opinfo : Nat → OpcodeInfo) (opcode : Int) (h : opcode < 0) :
    nameof opinfo opcode = none := by
  unfold nameof array_read
  have h1 : opcode < (OP_MAX_OPCODE : Int) := by
    have : (0 : Int) ≤ (OP_MAX_OPCODE : Int) := Int.ofNat_nonneg _
    omega
  have h2 : ¬ (0 ≤ opcode ∧ opcode < (OP_MAX_OPCODE : Int)) := by omega
  rw [if_pos h1, if_neg h2]
  rfl

/-- C33, at the opcode `-1`, on every table `opinfo`: `nameof(-1)` does not return
"INVALID"; it reads `opinfo[-1]`, outside the table.  (`exception_name`, whose
argument is unsigned, reads `exception_names` inside only.) -/
theorem C33_nameof_reads_before_the_table :
    (∀ opinfo : Nat → OpcodeInfo, nameof opinfo (-1) = none)
      ∧ (∀ opinfo : Nat → OpcodeInfo, nameof opinfo (-1) ≠ some "INVALID")
      ∧ nameof opinfo_sample 0 = some "nop"
      ∧ nameof opinfo_sample 94 = some "cvtf_s2d_hi"
      ∧ nameof opinfo_sample 95 = some "INVALID"
      ∧ ∀ (exception_names : Nat → String) (e : Nat),
          exception_name exception_names e
            = some (if e < EXCEPTION_COUNT then exception_names e else "Unknown") := by
  refine ⟨fun opinfo => nameof_negative opinfo (-1) (by decide), fun opinfo => ?_,
    by decide, by decide, by decide, exception_name_eq⟩
  rw [nameof_negative opinfo (-1) (by decide)]
  exact fun h => Option.noConfusion h

/-! ## Theorems: the segment descriptor cache and `tempbuf` -/

/-- The store of a bit-field into a bit-field of the same width keeps it. -/
theorem bitfield_of_nat_val (w : Nat) (x : Fin (2 ^ w)) : bitfield_of_nat w x.val = x := by
  apply Fin.ext
  show x.val % 2 ^ w = x.val
  exact Nat.mod_eq_of_lt x.isLt

/-- C38: assigning a `SegmentDescriptor` `d` to a `SegmentDescriptorCache` keeps
`selector` and sets `present = d.p`, `use64 = d.l`, `use32 = d.d`,
`supervisor = d.s`, `dpl = d.dpl`, `base = d.getbase()`, `limit = d.getlimit()`;
`flatten()` keeps `selector` and sets `present = 1`, `use64 = 1`, `use32 = 0`,
`supervisor = 0`, `dpl = 3`, `base = 0`, `limit = 2^64 - 1`. -/
theorem C38_cache_assign_and_flatten (self : SegmentDescriptorCache)
    (d : SegmentDescriptor) :
    (self.assign d).selector = self.selector
      ∧ (self.assign d).present = d.p ∧ (self.assign d).use64 = d.l
      ∧ (self.assign d).use32 = d.d ∧ (self.assign d).supervisor = d.s
      ∧ (self.assign d).dpl = d.dpl ∧ (self.assign d).base = d.getbase
      ∧ (self.assign d).limit = d.getlimit
      ∧ self.flatten.selector = self.selector
      ∧ self.flatten.present.val = 1 ∧ self.flatten.use64.val = 1
      ∧ self.flatten.use32.val = 0 ∧ self.flatten.supervisor.val = 0
      ∧ self.flatten.dpl.val = 3 ∧ self.flatten.base = 0
      ∧ self.flatten.limit = 2 ^ 64 - 1 := by
  have hv : ∀ (w x : Nat), (bitfield_of_nat w x).val = x % 2 ^ w := fun _ _ => rfl
  refine ⟨rfl, ?_, ?_, ?_, ?_, ?_, ?_, ?_, rfl, ?_, ?_, ?_, ?_, ?_, rfl, ?_⟩
  · show bitfield_of_nat 1 d.p.val = d.p
    exact bitfield_of_nat_val 1 d.p
  · show bitfield_of_nat 1 d.l.val = d.l
    exact bitfield_of_nat_val 1 d.l
  · show bitfield_of_nat 1 d.d.val = d.d
    exact bitfield_of_nat_val 1 d.d
  · show bitfield_of_nat 1 d.s.val = d.s
    exact bitfield_of_nat_val 1 d.s
  · show bitfield_of_nat 2 d.dpl.val = d.dpl
    exact bitfield_of_nat_val 2 d.dpl
  · simp only [SegmentDescriptorCache.assign]
  · simp only [SegmentDescriptorCache.assign]
  · show (bitfield_of_nat 1 1).val = 1
    rw [hv]; norm_num
  · show (bitfield_of_nat 1 1).val = 1
    rw [hv]; norm_num
  · show (bitfield_of_nat 1 0).val = 0
    rw [hv]; norm_num
  · show (bitfield_of_nat 1 0).val = 0
    rw [hv]; norm_num
  · show (bitfield_of_nat 2 3).val = 3
    rw [hv]; norm_num
  · show (0xffffffffffffffff : Nat) = 2 ^ 64 - 1
    norm_num

/-- The method `pop()` after `push(v)` returns the element after the one that
`push` stored, and the buffer has its former `data`. -/
theorem tempbuf.pop_push {T : Type} (b : tempbuf T) (v : T) :
    ((b.push v).2.pop).1 = b.mem (b.data + 1)
      ∧ ((b.push v).2.pop).2.data = b.data
      ∧ ((b.push v).2.pop).2.mem b.data = v := by
  refine ⟨?_, ?_, ?_⟩
  · show Function.update b.mem b.data v (b.data + 1) = b.mem (b.data + 1)
    exact Function.update_noteq (by omega) _ _
  · show b.data + 1 - 1 = b.data
    omega
  · show Function.update b.mem b.data v b.data = v
    exact Function.update_same _ _ _

/-- C34, on a fresh buffer with room for 512 elements, all zero: `push(7)` followed
by `pop()` returns 0, not 7 (the size is 0 again); and after the pushes of 1, 2 and
3 the three pops return 0, 3 and 2, not 3, 2 and 1: `pop()` returns the element
that `data` points to, one past the last one pushed, and moves `data` down after
that. -/
theorem C34_pop_returns_the_element_past_the_top :
    tempbuf.sample.size = 0 ∧ tempbuf.sample.size < tempbuf.sample.capacity
      ∧ ((tempbuf.sample.push 7).2.pop).1 = 0
      ∧ ((tempbuf.sample.push 7).2.pop).2.size = 0
      ∧ ((tempbuf.sample.shl 7).2.shr).1 = 0
      ∧ ((((tempbuf.sample.push 1).2.push 2).2.push 3).2.pop).1 = 0
      ∧ ((((tempbuf.sample.push 1).2.push 2).2.push 3).2.pop).2.pop.1 = 3
      ∧ ((((tempbuf.sample.push 1).2.push 2).2.push 3).2.pop).2.pop.2.pop.1 = 2 := by
  decide

/-! ## Theorems: control words -/

/-- The bitwise or of two `int`s that are not negative. -/
theorem int_lor_natCast (a b : Nat) : Int.lor (a : Int) (b : Int) = ((a ||| b : Nat) : Int) :=
  rfl

/-- The conversion to `W32` of an `int` that is not negative. -/
theorem int_to_W32_natCast (n : Nat) (h : n < 2 ^ 32) : int_to_W32 (n : Int) = n := by
  unfold int_to_W32
  have h1 : ((n : Int) % 2 ^ 32) = (n : Int) := by omega
  rw [h1]; simp

/-- The word that `make_mask_control_info` returns for three fields below 64. -/
theorem make_mask_control_info_eq (ms mc ds : Nat) (h1 : ms < 64) (h2 : mc < 64)
    (h3 : ds < 64) :
    make_mask_control_info (ms : Int) (mc : Int) (ds : Int) = ms + 64 * mc + 4096 * ds := by
  have e1 : int_shl (mc : Int) 6 = ((2 ^ 6 * mc : Nat) : Int) := by
    unfold int_shl
    rw [wrap32_of_range _ (by omega) (by omega)]; push_cast; ring
  have e2 : int_shl (ds : Int) 12 = ((2 ^ 12 * ds : Nat) : Int) := by
    unfold int_shl
    rw [wrap32_of_range _ (by omega) (by omega)]; push_cast; ring
  have o1 : ms ||| 2 ^ 6 * mc = 2 ^ 6 * mc + ms := by
    rw [Nat.lor_comm]; exact (Nat.mul_add_lt_is_or (by omega) mc).symm
  have o2 : (2 ^ 6 * mc + ms) ||| 2 ^ 12 * ds = 2 ^ 12 * ds + (2 ^ 6 * mc + ms) := by
    rw [Nat.lor_comm]; exact (Nat.mul_add_lt_is_or (by omega) ds).symm
  unfold make_mask_control_info
  rw [e1, e2, int_lor_natCast, int_lor_natCast, o1, o2, int_to_W32_natCast _ (by omega)]
  omega

/-- The value that the store of an integer puts into a bit-field. -/
theorem bitfield_value_lt (width : Nat) (v : Int) : (v % 2 ^ width).toNat < 2 ^ width := by
  have hpos : (0 : Int) < 2 ^ width := by positivity
  have h1 : 0 ≤ v % 2 ^ width := Int.emod_nonneg v (ne_of_gt hpos)
  have h2 : v % 2 ^ width < 2 ^ width := Int.emod_lt_of_pos v hpos
  have h3 : ((2 ^ width : Nat) : Int) = 2 ^ width := by push_cast; rfl
  exact (Int.toNat_lt h1).mpr (by rw [h3]; exact h2)

/-- The bits of a word after a store into one of its bit-fields. -/
theorem bitfield_write_testBit (data pos width : Nat) (v : Int) (j : Nat) :
    (bitfield_write data pos width v).testBit j
      = if pos ≤ j ∧ j < pos + width then (v % 2 ^ width).toNat.testBit (j - pos)
        else data.testBit j := by
  have hx := bitfield_value_lt width v
  unfold bitfield_write
  simp only [Nat.testBit_or, Nat.testBit_xor, Nat.testBit_and, Nat.testBit_shiftLeft,
    Nat.testBit_two_pow_sub_one, ge_iff_le]
  by_cases h1 : pos ≤ j
  · by_cases h2 : j < pos + width
    · have h3 : j - pos < width := by omega
      rw [if_pos ⟨h1, h2⟩]
      simp [h1, h3]
    · have h3 : ¬ j - pos < width := by omega
      have hz := testBit_false_of_lt _ width (j - pos) hx (by omega)
      rw [if_neg (fun h => h2 h.2)]
      simp [h1, h3, hz]
  · rw [if_neg (fun h => h1 h.1)]
    simp [h1]

/-- A bit-field read back after the store into it: the value stored. -/
theorem bitfield_read_write_same (data pos width : Nat) (v : Int) :
    bitfield_read (bitfield_write data pos width v) pos width = (v % 2 ^ width).toNat := by
  have hx := bitfield_value_lt width v
  apply Nat.eq_of_testBit_eq
  intro i
  unfold bitfield_read
  rw [Nat.testBit_mod_two_pow, Nat.testBit_shiftRight, bitfield_write_testBit]
  by_cases hi : i < width
  · have h : pos ≤ pos + i ∧ pos + i < pos + width := by omega
    have e : pos + i - pos = i := by omega
    rw [if_pos h, e]
    simp [hi]
  · rw [testBit_false_of_lt _ width i hx (by omega)]
    simp [hi]

/-- A bit-field read back after the store into another bit-field, which does not
overlap it: the value it had. -/
theorem bitfield_read_write_other (data pos width : Nat) (v : Int) (pos1 width1 : Nat)
    (h : pos1 + width1 ≤ pos ∨ pos + width ≤ pos1) :
    bitfield_read (bitfield_write data pos width v) pos1 width1
      = bitfield_read data pos1 width1 := by
  apply Nat.eq_of_testBit_eq
  intro i
  unfold bitfield_read
  rw [Nat.testBit_mod_two_pow, Nat.testBit_mod_two_pow, Nat.testBit_shiftRight,
    Nat.testBit_shiftRight, bitfield_write_testBit]
  by_cases hi : i < width1
  · have hn : ¬ (pos ≤ pos1 + i ∧ pos1 + i < pos + width) := by omega
    rw [if_neg hn]
  · simp [hi]

/-- The value stored into a bit-field of `width` bits by a value that fits. -/
theorem bitfield_value_natCast (width n : Nat) (h : n < 2 ^ width) :
    ((n : Int) % 2 ^ width).toNat = n := by
  have h3 : ((2 ^ width : Nat) : Int) = 2 ^ width := by push_cast; rfl
  have h1 : (n : Int) % 2 ^ width = (n : Int) := by
    apply Int.emod_eq_of_lt (Int.ofNat_nonneg n)
    rw [← h3]; exact_mod_cast h
  rw [h1]; simp

/-- C37: for `ms`, `mc`, `ds` in 0..63, `make_mask_control_info(ms, mc, ds)` is the
word with `ms` in the bits 0-5, `mc` in the bits 6-11, `ds` in the bits 12-17 and no
bit above; `MaskControlInfo` of that word has `info.ms = ms`, `info.mc = mc`,
`info.ds = ds`, the three fields that `MaskControlInfo(ms, mc, ds)` has; and
`PermbControlInfo(b7, ..., b0)` has nibble `k` of its word equal to `bk mod 16`, for
`k` in 0..7. -/
theorem C37_control_words (ms mc ds : Fin 64) (self : MaskControlInfo)
    (p : PermbControlInfo) (b7 b6 b5 b4 b3 b2 b1 b0 : Int) :
    make_mask_control_info (ms.val : Int) (mc.val : Int) (ds.val : Int)
        = ms.val + 2 ^ 6 * mc.val + 2 ^ 12 * ds.val
      ∧ make_mask_control_info (ms.val : Int) (mc.val : Int) (ds.val : Int) < 2 ^ 18
      ∧ (MaskControlInfo.init_data
          (make_mask_control_info (ms.val : Int) (mc.val : Int) (ds.val : Int))).ms = ms.val
      ∧ (MaskControlInfo.init_data
          (make_mask_control_info (ms.val : Int) (mc.val : Int) (ds.val : Int))).mc = mc.val
      ∧ (MaskControlInfo.init_data
          (make_mask_control_info (ms.val : Int) (mc.val : Int) (ds.val : Int))).ds = ds.val
      ∧ (self.init_fields (ms.val : Int) (mc.val : Int) (ds.val : Int)).ms = ms.val
      ∧ (self.init_fields (ms.val : Int) (mc.val : Int) (ds.val : Int)).mc = mc.val
      ∧ (self.init_fields (ms.val : Int) (mc.val : Int) (ds.val : Int)).ds = ds.val
      ∧ (p.init_fields b7 b6 b5 b4 b3 b2 b1 b0).nibble 0 = (b0 % 16).toNat
      ∧ (p.init_fields b7 b6 b5 b4 b3 b2 b1 b0).nibble 1 = (b1 % 16).toNat
      ∧ (p.init_fields b7 b6 b5 b4 b3 b2 b1 b0).nibble 2 = (b2 % 16).toNat
      ∧ (p.init_fields b7 b6 b5 b4 b3 b2 b1 b0).nibble 3 = (b3 % 16).toNat
      ∧ (p.init_fields b7 b6 b5 b4 b3 b2 b1 b0).nibble 4 = (b4 % 16).toNat
      ∧ (p.init_fields b7 b6 b5 b4 b3 b2 b1 b0).nibble 5 = (b5 % 16).toNat
      ∧ (p.init_fields b7 b6 b5 b4 b3 b2 b1 b0).nibble 6 = (b6 % 16).toNat
      ∧ (p.init_fields b7 b6 b5 b4 b3 b2 b1 b0).nibble 7 = (b7 % 16).toNat := by
  have h1 := ms.isLt
  have h2 := mc.isLt
  have h3 := ds.isLt
  have hmake := make_mask_control_info_eq ms.val mc.val ds.val h1 h2 h3
  have v1 := bitfield_value_natCast 6 ms.val (by omega)
  have v2 := bitfield_value_natCast 6 mc.val (by omega)
  have v3 := bitfield_value_natCast 6 ds.val (by omega)
  have e16 : ∀ b : Int, (b % 2 ^ 4).toNat = (b % 16).toNat := fun b => by norm_num
  refine ⟨by rw [hmake]; omega, by rw [hmake]; omega, ?_, ?_, ?_, ?_, ?_, ?_,
    ?_, ?_, ?_, ?_, ?_, ?_, ?_, ?_⟩
  · simp only [MaskControlInfo.init_data, MaskControlInfo.ms, bitfield_read, hmake,
      Nat.shiftRight_eq_div_pow]
    omega
  · simp only [MaskControlInfo.init_data, MaskControlInfo.mc, bitfield_read, hmake,
      Nat.shiftRight_eq_div_pow]
    omega
  · simp only [MaskControlInfo.init_data, MaskControlInfo.ds, bitfield_read, hmake,
      Nat.shiftRight_eq_div_pow]
    omega
  · simp only [MaskControlInfo.init_fields, MaskControlInfo.ms]
    rw [bitfield_read_write_other _ _ _ _ _ _ (by omega),
      bitfield_read_write_other _ _ _ _ _ _ (by omega), bitfield_read_write_same, v1]
  · simp only [MaskControlInfo.init_fields, MaskControlInfo.mc]
    rw [bitfield_read_write_other _ _ _ _ _ _ (by omega), bitfield_read_write_same, v2]
  · simp only [MaskControlInfo.init_fields, MaskControlInfo.ds]
    rw [bitfield_read_write_same, v3]
  · simp only [PermbControlInfo.init_fields, PermbControlInfo.nibble]
    rw [bitfield_read_write_other _ _ _ _ _ _ (by omega),
      bitfield_read_write_other _ _ _ _ _ _ (by omega),
      bitfield_read_write_other _ _ _ _ _ _ (by omega),
      bitfield_read_write_other _ _ _ _ _ _ (by omega),
      bitfield_read_write_other _ _ _ _ _ _ (by omega),
      bitfield_read_write_other _ _ _ _ _ _ (by omega),
      bitfield_read_write_other _ _ _ _ _ _ (by omega), bitfield_read_write_same, e16]
  · simp only [PermbControlInfo.init_fields, PermbControlInfo.nibble]
    rw [bitfield_read_write_other _ _ _ _ _ _ (by omega),
      bitfield_read_write_other _ _ _ _ _ _ (by omega),
      bitfield_read_write_other _ _ _ _ _ _ (by omega),
      bitfield_read_write_other _ _ _ _ _ _ (by omega),
      bitfield_read_write_other _ _ _ _ _ _ (by omega),
      bitfield_read_write_other _ _ _ _ _ _ (by omega), bitfield_read_write_same, e16]
  · simp only [PermbControlInfo.init_fields, PermbControlInfo.nibble]
    rw [bitfield_read_write_other _ _ _ _ _ _ (by omega),
      bitfield_read_write_other _ _ _ _ _ _ (by omega),
      bitfield_read_write_other _ _ _ _ _ _ (by omega),
      bitfield_read_write_other _ _ _ _ _ _ (by omega),
      bitfield_read_write_other _ _ _ _ _ _ (by omega), bitfield_read_write_same, e16]
  · simp only [PermbControlInfo.init_fields, PermbControlInfo.nibble]
    rw [bitfield_read_write_other _ _ _ _ _ _ (by omega),
      bitfield_read_write_other _ _ _ _ _ _ (by omega),
      bitfield_read_write_other _ _ _ _ _ _ (by omega),
      bitfield_read_write_other _ _ _ _ _ _ (by omega), bitfield_read_write_same, e16]
  · simp only [PermbControlInfo.init_fields, PermbControlInfo.nibble]
    rw [bitfield_read_write_other _ _ _ _ _ _ (by omega),
      bitfield_read_write_other _ _ _ _ _ _ (by omega),
      bitfield_read_write_other _ _ _ _ _ _ (by omega), bitfield_read_write_same, e16]
  · simp only [PermbControlInfo.init_fields, PermbControlInfo.nibble]
    rw [bitfield_read_write_other _ _ _ _ _ _ (by omega),
      bitfield_read_write_other _ _ _ _ _ _ (by omega), bitfield_read_write_same, e16]
  · simp only [PermbControlInfo.init_fields, PermbControlInfo.nibble]
    rw [bitfield_read_write_other _ _ _ _ _ _ (by omega), bitfield_read_write_same, e16]
  · simp only [PermbControlInfo.init_fields, PermbControlInfo.nibble]
    rw [bitfield_read_write_same, e16]

/-! ## Theorems: the shifts of a bit vector stay inside the vector -/

/-- The method `shiftleftop(shift)` on `N ≥ 1` words, for a shift below the number of
bits: it ends, it leaves the words from `N` on as they are, and the words below `N`
that it computes depend on the words below `N` only. -/
theorem bitvecbase.shiftleftop_inside (N : Nat) (w w2 : Nat → Nat) (shift : Nat)
    (hN : 1 ≤ N) (hs : shift < 64 * N) (hw : ∀ j, j < N → w2 j = w j) :
    ∃ r r2, bitvecbase.shiftleftop N w shift = some r
      ∧ bitvecbase.shiftleftop N w2 shift = some r2
      ∧ (∀ j, N ≤ j → r j = w j) ∧ (∀ j, j < N → r2 j = r j) := by
  by_cases h0 : shift = 0
  · refine ⟨w, w2, by simp [bitvecbase.shiftleftop, h0], by simp [bitvecbase.shiftleftop, h0],
      fun _ _ => rfl, hw⟩
  · by_cases hoff : shift % 64 = 0
    · refine ⟨_, _, bitvecbase.shiftleftop_words N w shift h0 hoff,
        bitvecbase.shiftleftop_words N w2 shift h0 hoff, ?_, ?_⟩
      · intro j hj
        have c1 : ¬ j < shift / 64 := by omega
        have c2 : ¬ (shift / 64 ≤ j ∧ j ≤ N - 1) := by omega
        simp only [c1, c2, if_false]
      · intro j hj
        by_cases c1 : j < shift / 64
        · simp only [c1, if_true]
        · have c2 : shift / 64 ≤ j ∧ j ≤ N - 1 := by omega
          simp only [c1, if_false]
          rw [if_pos c2, if_pos c2]
          exact hw _ (by omega)
    · refine ⟨_, _, bitvecbase.shiftleftop_bits N w shift hoff,
        bitvecbase.shiftleftop_bits N w2 shift hoff, ?_, ?_⟩
      · intro j hj
        have c1 : ¬ j < shift / 64 := by omega
        have c2 : ¬ j = shift / 64 := by omega
        have c3 : ¬ (shift / 64 < j ∧ j ≤ N - 1) := by omega
        simp only [c1, c2, if_false]
        rw [if_neg c3]
      · intro j hj
        by_cases c1 : j < shift / 64
        · simp only [c1, if_true]
        · simp only [c1, if_false]
          by_cases c2 : j = shift / 64
          · simp only [c2, if_true]
            rw [hw 0 (by omega)]
          · have c3 : shift / 64 < j ∧ j ≤ N - 1 := by omega
            simp only [c2, if_false]
            rw [if_pos c3, if_pos c3, hw _ (by omega), hw _ (by omega)]

/-- The method `shiftrightop(shift)` on `N ≥ 1` words, for a shift below the number
of bits: it ends, it leaves the words from `N` on as they are, and the words below
`N` that it computes depend on the words below `N` only. -/
theorem bitvecbase.shiftrightop_inside (N : Nat) (w w2 : Nat → Nat) (shift : Nat)
    (hN : 1 ≤ N) (hN64 : N < 2 ^ 64) (hs : shift < 64 * N)
    (hw : ∀ j, j < N → w2 j = w j) :
    ∃ r r2, bitvecbase.shiftrightop N w shift = some r
      ∧ bitvecbase.shiftrightop N w2 shift = some r2
      ∧ (∀ j, N ≤ j → r j = w j) ∧ (∀ j, j < N → r2 j = r j) := by
  have hws : shift / 64 < N := by omega
  by_cases h0 : shift = 0
  · refine ⟨w, w2, by simp [bitvecbase.shiftrightop, h0],
      by simp [bitvecbase.shiftrightop, h0], fun _ _ => rfl, hw⟩
  · by_cases hoff : shift % 64 = 0
    · refine ⟨_, _, bitvecbase.shiftrightop_words N w shift hN64 hws h0 hoff,
        bitvecbase.shiftrightop_words N w2 shift hN64 hws h0 hoff, ?_, ?_⟩
      · intro j hj
        have c1 : ¬ (N - shift / 64 - 1 + 1 ≤ j ∧ j < N - shift / 64 - 1 + 1 + shift / 64) := by
          omega
        have c2 : ¬ j < N - shift / 64 - 1 + 1 := by omega
        simp only [c2, if_false]
        rw [if_neg c1]
      · intro j hj
        by_cases c1 : N - shift / 64 - 1 + 1 ≤ j ∧ j < N - shift / 64 - 1 + 1 + shift / 64
        · rw [if_pos c1, if_pos c1]
        · have c2 : j < N - shift / 64 - 1 + 1 := by omega
          rw [if_neg c1, if_neg c1, if_pos c2, if_pos c2]
          exact hw _ (by omega)
    · refine ⟨_, _, bitvecbase.shiftrightop_bits N w shift hN64 hws hoff,
        bitvecbase.shiftrightop_bits N w2 shift hN64 hws hoff, ?_, ?_⟩
      · intro j hj
        have c1 : ¬ (N - shift / 64 - 1 + 1 ≤ j ∧ j < N - shift / 64 - 1 + 1 + shift / 64) := by
          omega
        have c2 : ¬ j = N - shift / 64 - 1 := by omega
        have c3 : ¬ j < N - shift / 64 - 1 := by omega
        rw [if_neg c1, if_neg c2, if_neg c3]
      · intro j hj
        by_cases c1 : N - shift / 64 - 1 + 1 ≤ j ∧ j < N - shift / 64 - 1 + 1 + shift / 64
        · rw [if_pos c1, if_pos c1]
        · rw [if_neg c1, if_neg c1]
          by_cases c2 : j = N - shift / 64 - 1
          · rw [if_pos c2, if_pos c2, hw _ (by omega)]
          · have c3 : j < N - shift / 64 - 1 := by omega
            rw [if_neg c2, if_neg c2, if_pos c3, if_pos c3, hw _ (by omega),
              hw _ (by omega)]

/-- The method `sanitize()` writes the top word only, from what it holds. -/
theorem bitvec.sanitize_inside {N : Nat} (x y : bitvec N)
    (hxy : ∀ j, j < BITVEC_WORDS N → y.w j = x.w j) :
    (∀ j, BITVEC_WORDS N ≤ j → x.sanitize.w j = x.w j)
      ∧ ∀ j, j < BITVEC_WORDS N → y.sanitize.w j = x.sanitize.w j := by
  by_cases h0 : BITVEC_WORDS N = 0
  · have hx : x.sanitize = x := by unfold bitvec.sanitize; rw [if_pos h0]
    have hy : y.sanitize = y := by unfold bitvec.sanitize; rw [if_pos h0]
    rw [hx, hy]
    exact ⟨fun _ _ => rfl, hxy⟩
  · rw [bitvec.sanitize_eq x (by omega), bitvec.sanitize_eq y (by omega)]
    constructor
    · intro j hj
      show Function.update x.w (BITVEC_WORDS N - 1) _ j = x.w j
      exact Function.update_noteq (by omega) _ _
    · intro j hj
      show Function.update y.w (BITVEC_WORDS N - 1) _ j
        = Function.update x.w (BITVEC_WORDS N - 1) _ j
      by_cases hj2 : j = BITVEC_WORDS N - 1
      · rw [hj2, Function.update_same, Function.update_same, hxy _ (by omega)]
      · rw [Function.update_noteq hj2, Function.update_noteq hj2]
        exact hxy j hj

/-- The method `resetop()` writes the words of the vector only. -/
theorem bitvec.resetop_inside {N : Nat} (x : bitvec N) :
    (∀ j, BITVEC_WORDS N ≤ j → x.resetop.w j = x.w j)
      ∧ ∀ j, j < BITVEC_WORDS N → x.resetop.w j = 0 := by
  unfold bitvec.resetop
  by_cases h0 : BITVEC_WORDS N = 0
  · rw [if_pos h0]
    exact ⟨fun _ _ => rfl, fun j hj => absurd hj (by omega)⟩
  · by_cases h1 : BITVEC_WORDS N = 1
    · rw [if_neg h0, if_pos h1]
      constructor
      · intro j hj
        show Function.update x.w 0 0 j = x.w j
        exact Function.update_noteq (by omega) _ _
      · intro j hj
        have : j = 0 := by omega
        rw [this]
        show Function.update x.w 0 0 0 = 0
        exact Function.update_same _ _ _
    · rw [if_neg h0, if_neg h1]
      constructor
      · intro j hj
        show bitvecbase.resetop (BITVEC_WORDS N) x.w j = x.w j
        have : ¬ j < BITVEC_WORDS N := by omega
        simp only [bitvecbase.resetop, foreach_clear_low, this, if_false]
      · intro j hj
        show bitvecbase.resetop (BITVEC_WORDS N) x.w j = 0
        simp only [bitvecbase.resetop, foreach_clear_low, hj, if_true]

/-- The method `shiftleftop(shift)` of the base of a vector, for a shift below `N`:
it ends and stays inside the words of the vector. -/
theorem bitvec.shiftleftop_stays_inside {N : Nat} (x y : bitvec N) (shift : Nat) (hs : shift < N)
    (hxy : ∀ j, j < BITVEC_WORDS N → y.w j = x.w j) :
    ∃ r r2, x.shiftleftop shift = some r ∧ y.shiftleftop shift = some r2
      ∧ (∀ j, BITVEC_WORDS N ≤ j → r.w j = x.w j)
      ∧ ∀ j, j < BITVEC_WORDS N → r2.w j = r.w j := by
  have hW := BITVEC_WORDS_eq N (by omega)
  unfold bitvec.shiftleftop
  by_cases h0 : BITVEC_WORDS N = 0
  · omega
  · by_cases h1 : BITVEC_WORDS N = 1
    · rw [if_neg h0, if_pos h1, if_neg h0, if_pos h1]
      refine ⟨_, _, rfl, rfl, ?_, ?_⟩
      · intro j hj
        show Function.update x.w 0 _ j = x.w j
        exact Function.update_noteq (by omega) _ _
      · intro j hj
        have : j = 0 := by omega
        rw [this]
        simp only [Function.update_same, hxy 0 (by omega)]
    · rw [if_neg h0, if_neg h1, if_neg h0, if_neg h1]
      obtain ⟨r, r2, he, he2, hout, hin⟩ := bitvecbase.shiftleftop_inside (BITVEC_WORDS N)
        x.w y.w shift (by omega) (by omega) hxy
      rw [he, he2]
      exact ⟨⟨r⟩, ⟨r2⟩, rfl, rfl, hout, hin⟩

/-- The method `shiftrightop(shift)` of the base of a vector, for a shift below `N`:
it ends and stays inside the words of the vector. -/
theorem bitvec.shiftrightop_stays_inside {N : Nat} (x y : bitvec N) (shift : Nat)
    (hN : N < 2 ^ 64) (hs : shift < N) (hxy : ∀ j, j < BITVEC_WORDS N → y.w j = x.w j) :
    ∃ r r2, x.shiftrightop shift = some r ∧ y.shiftrightop shift = some r2
      ∧ (∀ j, BITVEC_WORDS N ≤ j → r.w j = x.w j)
      ∧ ∀ j, j < BITVEC_WORDS N → r2.w j = r.w j := by
  have hW := BITVEC_WORDS_eq N (by omega)
  unfold bitvec.shiftrightop
  by_cases h0 : BITVEC_WORDS N = 0
  · omega
  · by_cases h1 : BITVEC_WORDS N = 1
    · rw [if_neg h0, if_pos h1, if_neg h0, if_pos h1]
      refine ⟨_, _, rfl, rfl, ?_, ?_⟩
      · intro j hj
        show Function.update x.w 0 _ j = x.w j
        exact Function.update_noteq (by omega) _ _
      · intro j hj
        have : j = 0 := by omega
        rw [this]
        simp only [Function.update_same, hxy 0 (by omega)]
    · rw [if_neg h0, if_neg h1, if_neg h0, if_neg h1]
      obtain ⟨r, r2, he, he2, hout, hin⟩ := bitvecbase.shiftrightop_inside (BITVEC_WORDS N)
        x.w y.w shift (by omega) (by omega) (by omega) hxy
      rw [he, he2]
      exact ⟨⟨r⟩, ⟨r2⟩, rfl, rfl, hout, hin⟩

/-- C36: for every `bitvec<N>` `x` and every `int` shift amount, `x <<= index` and
`x >>= index` end (no loop of `shiftleftop` or `shiftrightop` leaves the array), write
no word from the word count on, and compute the words of the vector from the words
of the vector only (on `y`, which has the same words as `x` inside the vector, they
give the same words); a shift amount that is negative or at least `N` takes the
reset path.  On the word-aligned path of `shiftleftop` the lower bound `wshift` of
the descending loop is at least 1 and the loop ends at it. -/
theorem C36_shifts_end_inside_the_vector {N : Nat} (x y : bitvec N) (index : Int)
    (hN : N < 2 ^ 63) (hlo : -2 ^ 31 ≤ index) (hhi : index < 2 ^ 31)
    (hxy : ∀ j, j < BITVEC_WORDS N → y.w j = x.w j) :
    (∃ r r2, x.shiftleft_assign index = some r ∧ y.shiftleft_assign index = some r2
        ∧ (∀ j, BITVEC_WORDS N ≤ j → r.w j = x.w j)
        ∧ (∀ j, j < BITVEC_WORDS N → r2.w j = r.w j)
        ∧ ((index < 0 ∨ (N : Int) ≤ index) → r = x.resetop))
      ∧ (∃ r r2, x.shiftright_assign index = some r ∧ y.shiftright_assign index = some r2
        ∧ (∀ j, BITVEC_WORDS N ≤ j → r.w j = x.w j)
        ∧ (∀ j, j < BITVEC_WORDS N → r2.w j = r.w j)
        ∧ ((index < 0 ∨ (N : Int) ≤ index) → r = x.resetop))
      ∧ ∀ (words shift : Nat) (w : Nat → Nat), 0 < shift → shift % 64 = 0 →
          1 ≤ shift / 64
            ∧ (bitvecbase.shiftleft_words (shift / 64) (words - 1) w).isSome = true := by
  have hreset : (∀ j, BITVEC_WORDS N ≤ j → x.resetop.w j = x.w j)
      ∧ ∀ j, j < BITVEC_WORDS N → y.resetop.w j = x.resetop.w j := by
    refine ⟨(bitvec.resetop_inside x).1, fun j hj => ?_⟩
    rw [(bitvec.resetop_inside x).2 j hj, (bitvec.resetop_inside y).2 j hj]
  have hloop : ∀ (words shift : Nat) (w : Nat → Nat), 0 < shift → shift % 64 = 0 →
      1 ≤ shift / 64
        ∧ (bitvecbase.shiftleft_words (shift / 64) (words - 1) w).isSome = true := by
    intro words shift w h1 h2
    have h3 : 1 ≤ shift / 64 := by omega
    refine ⟨h3, ?_⟩
    rw [bitvecbase.shiftleft_words_eq _ h3]
    rfl
  by_cases hin : 0 ≤ index ∧ index < (N : Int)
  · obtain ⟨s, hs⟩ : ∃ s : Nat, index = (s : Int) := ⟨index.toNat, by omega⟩
    have hsN : s < N := by omega
    have hcast : int_to_W64 index = s := by
      rw [hs]; exact int_to_W64_natCast s (by omega)
    have hnot : ¬ (index < 0 ∨ (N : Int) ≤ index) := by omega
    refine ⟨?_, ?_, hloop⟩
    · obtain ⟨r, r2, he, he2, hout, hinside⟩ := bitvec.shiftleftop_stays_inside x y s hsN hxy
      have hsan := bitvec.sanitize_inside r r2 hinside
      refine ⟨r.sanitize, r2.sanitize, ?_, ?_, ?_, hsan.2, fun h => absurd h hnot⟩
      · simp only [bitvec.shiftleft_assign, hcast, hsN, if_true, he, Option.map_some']
      · simp only [bitvec.shiftleft_assign, hcast, hsN, if_true, he2, Option.map_some']
      · intro j hj
        rw [hsan.1 j hj, hout j hj]
    · obtain ⟨r, r2, he, he2, hout, hinside⟩ :=
        bitvec.shiftrightop_stays_inside x y s (by omega) hsN hxy
      have hsan := bitvec.sanitize_inside r r2 hinside
      refine ⟨r.sanitize, r2.sanitize, ?_, ?_, ?_, hsan.2, fun h => absurd h hnot⟩
      · simp only [bitvec.shiftright_assign, hcast, hsN, if_true, he, Option.map_some']
      · simp only [bitvec.shiftright_assign, hcast, hsN, if_true, he2, Option.map_some']
      · intro j hj
        rw [hsan.1 j hj, hout j hj]
  · have hge : ¬ int_to_W64 index < N := by
      by_cases hneg : index < 0
      · obtain ⟨n, hn⟩ : ∃ n : Nat, index = -(n : Int) := ⟨(-index).toNat, by omega⟩
        rw [hn, int_to_W64_neg n (by omega) (by omega)]
        omega
      · obtain ⟨s, hs⟩ : ∃ s : Nat, index = (s : Int) := ⟨index.toNat, by omega⟩
        rw [hs, int_to_W64_natCast s (by omega)]
        omega
    refine ⟨⟨x.resetop, y.resetop, ?_, ?_, hreset.1, hreset.2, fun _ => rfl⟩,
      ⟨x.resetop, y.resetop, ?_, ?_, hreset.1, hreset.2, fun _ => rfl⟩, hloop⟩
    · simp only [bitvec.shiftleft_assign, hge, if_false]
    · simp only [bitvec.shiftleft_assign, hge, if_false]
    · simp only [bitvec.shiftright_assign, hge, if_false]
    · simp only [bitvec.shiftright_assign, hge, if_false]

/-- C36 on the example vector of 130 bits and the shift amounts 64 (word-aligned)
and -1 (the reset path). -/
theorem C36_shifts_end_inside_the_vector_witness :
    (130 < 2 ^ 63) ∧ (-2 ^ 31 ≤ (64 : Int)) ∧ ((64 : Int) < 2 ^ 31)
      ∧ (∃ r r2, bitvec.sample.shiftleft_assign 64 = some r
          ∧ bitvec.sample.shiftleft_assign 64 = some r2
          ∧ (∀ j, BITVEC_WORDS 130 ≤ j → r.w j = bitvec.sample.w j)
          ∧ (∀ j, j < BITVEC_WORDS 130 → r2.w j = r.w j)
          ∧ (((64 : Int) < 0 ∨ ((130 : Nat) : Int) ≤ 64) → r = bitvec.sample.resetop))
      ∧ (bitvec.sample.shiftleft_assign 64).map (fun r => (r.w 0, r.w 1, r.w 2))
          = some (0, 0x8000000000000001, 3)
      ∧ (bitvec.sample.shiftright_assign (-1)).map (fun r => (r.w 0, r.w 1, r.w 2))
          = some (0, 0, 0) :=
  ⟨by norm_num, by norm_num, by norm_num,
    (C36_shifts_end_inside_the_vector bitvec.sample bitvec.sample 64 (by norm_num)
      (by norm_num) (by norm_num) (fun _ _ => rfl)).1,
    by decide, by decide⟩

/-! ## Theorems: the entries of a ChunkHashtable -/

/-- C31, on the example calls (`add(7)`, `add(8)`, `add(7)` on a table with one set
and 2 entries per chunk): three entries are stored and `count` is 0; after the single
call `add(7)` on the empty table one entry is stored and `count` is 0.  `add` and
`remove` do not assign `count`. -/
theorem C31_count_stays_zero :
    (ChunkHashtable.reached (fun _ => 0) 2 ChunkHashtable.sample_calls).map
        (fun ht => (ht.count, ht.entries 1 2)) = some (0, 3)
      ∧ ((ChunkHashtable.init : ChunkHashtable Nat).add (fun _ => 0) 2 7).map
        (fun ht => (ht.count, ht.entries 1 2)) = some (0, 1)
      ∧ (∀ (setof : Nat → Nat) (entries_per_chunk : Nat) (ht : ChunkHashtable Nat)
          (entry : Nat),
          (ht.add setof entries_per_chunk entry).map (fun ht1 => ht1.count)
              = (ht.add setof entries_per_chunk entry).map (fun _ => ht.count)
            ∧ (ht.remove setof entries_per_chunk entry).count = ht.count) := by
  refine ⟨by decide, by decide, ?_⟩
  intro setof entries_per_chunk ht entry
  refine ⟨?_, rfl⟩
  unfold ChunkHashtable.add
  cases ht.sets (setof entry) with
  | nil =>
    simp only [ChunkHashtable.addbase]
    split <;> rfl
  | cons base next =>
    simp only [ChunkHashtable.addbase]
    split <;> split <;> rfl

/-- C35: in a table whose chunks keep their `freemap` within the bits of their slots
(every table reached from the empty one does), with
`1 ≤ entries_per_chunk ≤ 63`, `add(entry)` does not fail its assertion: the chunk it
chooses, the head chunk of the set of `entry` when there is one and it is not full
and a new chunk linked at the head otherwise, takes the entry (`base->add(entry)` is
true), and that chunk, the head of the chain afterwards, stores the entry. -/
theorem C35_add_assertion_holds {T : Type} [Zero T] (setof : T → Nat)
    (entries_per_chunk : Nat) (ht : ChunkHashtable T) (entry : T)
    (h1 : 1 ≤ entries_per_chunk) (h2 : entries_per_chunk ≤ 63)
    (hwf : ht.wellformed entries_per_chunk) :
    ∃ ht1 chunk rest, ht.add setof entries_per_chunk entry = some ht1
      ∧ ht1.sets (setof entry) = chunk :: rest
      ∧ chunk.stores entries_per_chunk entry
      ∧ ((∃ base, ht.sets (setof entry) = base :: rest ∧ base.full = false
            ∧ (base.add entries_per_chunk entry).1 = true
            ∧ chunk = (base.add entries_per_chunk entry).2)
        ∨ (rest = ht.sets (setof entry)
            ∧ (∀ base next, ht.sets (setof entry) = base :: next → base.full = true)
            ∧ ((ChunkHashtableBlock.new entries_per_chunk : ChunkHashtableBlock T).add
                entries_per_chunk entry).1 = true
            ∧ chunk = ((ChunkHashtableBlock.new entries_per_chunk :
                ChunkHashtableBlock T).add entries_per_chunk entry).2)) := by
  obtain ⟨hnlt, hnne⟩ := ChunkHashtableBlock.new_freemap (T := T) entries_per_chunk h1
  obtain ⟨_, _, _, _, hnadd, _⟩ := ChunkHashtableBlock.add_spec entries_per_chunk
    (ChunkHashtableBlock.new entries_per_chunk : ChunkHashtableBlock T) entry (by omega)
    hnlt hnne
  have hnst := (ChunkHashtableBlock.add_stores entries_per_chunk
    (ChunkHashtableBlock.new entries_per_chunk : ChunkHashtableBlock T) entry (by omega)
    hnlt hnne).1
  cases hs : ht.sets (setof entry) with
  | nil =>
    have hadd1 : ht.add setof entries_per_chunk entry
        = some ⟨ht.count, Function.update ht.sets (setof entry)
            [((ChunkHashtableBlock.new entries_per_chunk : ChunkHashtableBlock T).add
              entries_per_chunk entry).2]⟩ := by
      simp only [ChunkHashtable.add, hs, ChunkHashtable.addbase, hnadd, if_true]
    refine ⟨⟨ht.count, Function.update ht.sets (setof entry)
        [((ChunkHashtableBlock.new entries_per_chunk : ChunkHashtableBlock T).add
          entries_per_chunk entry).2]⟩,
      ((ChunkHashtableBlock.new entries_per_chunk : ChunkHashtableBlock T).add
        entries_per_chunk entry).2, [], hadd1, ?_, hnst, Or.inr ⟨rfl, ?_, hnadd, rfl⟩⟩
    · show Function.update ht.sets (setof entry) _ (setof entry) = _
      rw [Function.update_same]
    · intro base next h; cases h
  | cons base next =>
    by_cases hfull : base.full = true
    · have hadd1 : ht.add setof entries_per_chunk entry
          = some ⟨ht.count, Function.update ht.sets (setof entry)
              (((ChunkHashtableBlock.new entries_per_chunk : ChunkHashtableBlock T).add
                entries_per_chunk entry).2 :: base :: next)⟩ := by
        simp only [ChunkHashtable.add, hs, hfull, if_true, ChunkHashtable.addbase, hnadd]
      refine ⟨⟨ht.count, Function.update ht.sets (setof entry)
          (((ChunkHashtableBlock.new entries_per_chunk : ChunkHashtableBlock T).add
            entries_per_chunk entry).2 :: base :: next)⟩,
        ((ChunkHashtableBlock.new entries_per_chunk : ChunkHashtableBlock T).add
          entries_per_chunk entry).2, base :: next, hadd1, ?_, hnst,
        Or.inr ⟨rfl, ?_, hnadd, rfl⟩⟩
      · show Function.update ht.sets (setof entry) _ (setof entry) = _
        rw [Function.update_same]
      · intro b n h
        cases h
        exact hfull
    · have hf0 : base.freemap ≠ 0 := by
        intro h0
        apply hfull
        simp [ChunkHashtableBlock.full, h0]
      have hlt : base.freemap < 2 ^ entries_per_chunk :=
        hwf (setof entry) base (by rw [hs]; exact List.mem_cons_self _ _)
      obtain ⟨_, _, _, _, hadd, _⟩ := ChunkHashtableBlock.add_spec entries_per_chunk base
        entry (by omega) hlt hf0
      have hst := (ChunkHashtableBlock.add_stores entries_per_chunk base entry (by omega)
        hlt hf0).1
      have hfull2 : base.full = false := by
        cases hb : base.full with
        | true => exact absurd hb hfull
        | false => rfl
      have hadd1 : ht.add setof entries_per_chunk entry
          = some ⟨ht.count, Function.update ht.sets (setof entry)
              ((base.add entries_per_chunk entry).2 :: next)⟩ := by
        simp only [ChunkHashtable.add, hs, hfull2, Bool.false_eq_true, if_false,
          ChunkHashtable.addbase, hadd, if_true]
      refine ⟨⟨ht.count, Function.update ht.sets (setof entry)
          ((base.add entries_per_chunk entry).2 :: next)⟩,
        (base.add entries_per_chunk entry).2, next, hadd1, ?_, hst,
        Or.inl ⟨base, rfl, hfull2, hadd, rfl⟩⟩
      · show Function.update ht.sets (setof entry) _ (setof entry) = _
        rw [Function.update_same]

/-- C35 on the example table, whose head chunk has a free slot: `add(9)` stores 9 in
that chunk. -/
theorem C35_add_assertion_holds_witness :
    (1 ≤ 2) ∧ (2 ≤ 63) ∧ ChunkHashtable.sample.wellformed 2
      ∧ ∃ ht1 chunk rest, ChunkHashtable.sample.add (fun _ => 0) 2 9 = some ht1
          ∧ ht1.sets 0 = chunk :: rest
          ∧ chunk.stores 2 9
          ∧ ((∃ base, ChunkHashtable.sample.sets 0 = base :: rest ∧ base.full = false
                ∧ (base.add 2 9).1 = true ∧ chunk = (base.add 2 9).2)
            ∨ (rest = ChunkHashtable.sample.sets 0
                ∧ (∀ base next, ChunkHashtable.sample.sets 0 = base :: next →
                    base.full = true)
                ∧ ((ChunkHashtableBlock.new 2 : ChunkHashtableBlock Nat).add 2 9).1 = true
                ∧ chunk = ((ChunkHashtableBlock.new 2 : ChunkHashtableBlock Nat).add 2 9).2)) :=
  ⟨by decide, by decide, ChunkHashtable.sample_wellformed,
    C35_add_assertion_holds (fun _ => 0) 2 ChunkHashtable.sample 9 (by decide) (by decide)
      ChunkHashtable.sample_wellformed⟩

/-- Every table reached from the empty table keeps the `freemap` of its chunks within
the bits of their slots. -/
theorem ChunkHashtable.reached_wellformed {T : Type} [Zero T] [DecidableEq T]
    (setof : T → Nat) (entries_per_chunk : Nat) (cs : List (ChunkHashtableCall T))
    (ht : ChunkHashtable T) (h1 : 1 ≤ entries_per_chunk) (h2 : entries_per_chunk ≤ 63)
    (hr : ChunkHashtable.reached setof entries_per_chunk cs = some ht) :
    ht.wellformed entries_per_chunk := by
  obtain ⟨ht1, he, hgood⟩ := ChunkHashtable.calls_good setof entries_per_chunk h1 (by omega)
    cs (ChunkHashtable.init : ChunkHashtable T)
    (fun s chunk hmem => by simp [ChunkHashtable.init] at hmem)
  unfold ChunkHashtable.reached at hr
  rw [he] at hr
  cases hr
  intro s chunk hmem
  exact (hgood s chunk hmem).1

end PTLsim
